import Mathlib

/-!
Shallow embedding of the flat-buffer BSON codec (`bson_flat.hpp` /
`bson_flat.cpp`): a writer that serializes typed key/value pairs into a
contiguous byte buffer, and a reader/iterator that walks such a buffer.

Modelling conventions:
* Memory is a `List Nat` of byte values; a pointer is an index into that
  list.  Reads are `List.getD _ _ 0` (the embedding proves separately that
  all reads used by the iterator stay below the supplied buffer length).
* Machine integers written through `memcpy` are modelled by their
  little-endian byte images (`le32` / `le64` apply `% 256` per byte, i.e.
  `% 2^32` / `% 2^64` on the value); signed decoding mirrors the reader's
  `int32_t` / `int64_t` loads.
* The writer's parent chain (`writer* parent`) is modelled as an explicit
  list of sub-writer records over a root record, following the union
  discriminant `is_root` of the source.  The 31-bit `offset` / `length`
  bit-fields are modelled as unbounded naturals; the document format itself
  caps lengths at `INT32_MAX`, and all size-dependent theorems carry that
  bound where it matters.
* `realloc` is modelled by an `allocOk` parameter: when `false` the
  reallocation fails and the append must leave the writer unchanged.
  Freshly allocated or grown memory is modelled as zero bytes (the source
  leaves it unspecified; no theorem depends on those bytes before they are
  written).
-/

namespace bson

/-- Little-endian image of the low 32 bits of a natural number, as written
by `memcpy` of an `int32_t`/`uint32_t`. -/
def le32 (n : Nat) : List Nat :=
  [n % 256, n / 256 % 256, n / 65536 % 256, n / 16777216 % 256]

/-- Little-endian image of the low 64 bits of a natural number. -/
def le64 (n : Nat) : List Nat :=
  [n % 256, n / 256 % 256, n / 65536 % 256, n / 16777216 % 256,
   n / 4294967296 % 256, n / 1099511627776 % 256,
   n / 281474976710656 % 256, n / 72057594037927936 % 256]

/-- Read one byte of memory (out-of-range reads yield 0; theorems about
bounds are stated separately). -/
def readB (buf : List Nat) (i : Nat) : Nat := buf.getD i 0

/-- Unsigned little-endian 32-bit load at index `i`. -/
def dLE32 (buf : List Nat) (i : Nat) : Nat :=
  readB buf i % 256 + 256 * (readB buf (i+1) % 256) +
  65536 * (readB buf (i+2) % 256) + 16777216 * (readB buf (i+3) % 256)

/-- Unsigned little-endian 64-bit load at index `i`. -/
def dLE64 (buf : List Nat) (i : Nat) : Nat :=
  dLE32 buf i + 4294967296 * dLE32 buf (i+4)

/-- Reinterpret the low 32 bits of a natural as a signed `int32_t`. -/
def sI32 (n : Nat) : Int :=
  if n % 4294967296 < 2147483648 then ((n % 4294967296 : Nat) : Int)
  else ((n % 4294967296 : Nat) : Int) - 4294967296

/-- Reinterpret the low 64 bits of a natural as a signed `int64_t`. -/
def sI64 (n : Nat) : Int :=
  if n % 18446744073709551616 < 9223372036854775808 then
    ((n % 18446744073709551616 : Nat) : Int)
  else ((n % 18446744073709551616 : Nat) : Int) - 18446744073709551616

/-- Signed `int32_t` load, as done by `std::memcpy(&value, p, 4)`. -/
def dSLE32 (buf : List Nat) (i : Nat) : Int := sI32 (dLE32 buf i)

/-- Signed `int64_t` load, as done by `std::memcpy(&value, p, 8)`. -/
def dSLE64 (buf : List Nat) (i : Nat) : Int := sI64 (dLE64 buf i)

/-- Conversion of a signed value to `std::size_t` (64-bit). -/
def intToSize (v : Int) : Nat := (v % 18446744073709551616).toNat

/-- Little-endian byte image of an `int32_t` value (what `memcpy` from an
`int32_t` stores). -/
def i32bytes (v : Int) : List Nat := le32 (v % 4294967296).toNat

/-- Little-endian byte image of an `int64_t` value. -/
def i64bytes (v : Int) : List Nat := le64 (v % 18446744073709551616).toNat

/-- Write the bytes `bs` into `l` starting at index `i`; writes past the
end of `l` are dropped, so the length of `l` is always preserved (the
development proves writes are in bounds wherever that matters). -/
def store : List Nat → Nat → List Nat → List Nat
  | l, _, [] => l
  | [], _, _ => []
  | _ :: xs, 0, b :: bs => b :: store xs 0 bs
  | x :: xs, i+1, bs => x :: store xs i bs

/-- The bytes `bs` appear in `buf` starting at index `base`. -/
def covers (buf : List Nat) (base : Nat) (bs : List Nat) : Prop :=
  ∀ j, j < bs.length → readB buf (base + j) = bs.getD j 0

/-! ## Writer model

The source `writer` is one class whose unions discriminate on `is_root`:
a root writer owns `buffer`/`length`/`malloc`, a subdocument writer holds
`parent`.  Both carry `offset` and `locked`.  The embedding splits this sum
explicitly and represents a live parent chain as a root record plus a list
of sub-writer records, innermost first (`subs.length` is the `depth`
computed by `get_root`). -/

/-- Root writer fields (`buffer`, `offset`, `locked`, `length`, `malloc`). -/
structure rootw where
  buffer : List Nat
  offset : Nat
  locked : Bool
  length : Nat
  malloc : Bool
deriving DecidableEq, Repr

/-- Subdocument writer fields (`offset`, `locked`; the parent pointer is
the position in the chain). -/
structure subw where
  offset : Nat
  locked : Bool
deriving DecidableEq, Repr

/-- A live chain of writers sharing one root buffer: the root record plus
the open sub-writers, innermost first. -/
structure chain where
  root : rootw
  subs : List subw
deriving DecidableEq, Repr

/-- Offset of the writer the chain currently appends through (the
innermost one). -/
def chain.curOffset (c : chain) : Nat :=
  match c.subs with
  | [] => c.root.offset
  | s :: _ => s.offset

/-- Locked flag of the innermost writer. -/
def chain.curLocked (c : chain) : Bool :=
  match c.subs with
  | [] => c.root.locked
  | s :: _ => s.locked

/-- Offset of the parent of the innermost writer (meaningful only when a
sub-writer is open). -/
def chain.parentOffset (c : chain) : Nat :=
  match c.subs with
  | [] => c.root.offset
  | _ :: [] => c.root.offset
  | _ :: p :: _ => p.offset

/-- The `header_offset` computed by `update_offset` and `get_bytes`:
`0` for a root writer, `parent->offset - 5` for a subdocument writer. -/
def chain.headerOffset (c : chain) : Nat :=
  match c.subs with
  | [] => 0
  | _ => c.parentOffset - 5

/-- Translation of `writer::update_offset` applied to the innermost
writer: store the total length (`new_offset + 1 - header_offset`) at the
header, store the terminator byte at `new_offset`, and record the new
offset. -/
def chain.update_offset (c : chain) (newOffset : Nat) : chain :=
  let h := c.headerOffset
  let buf := store (store c.root.buffer h (le32 (newOffset + 1 - h))) newOffset [0]
  match c.subs with
  | [] => ⟨{ c.root with buffer := buf, offset := newOffset }, []⟩
  | s :: rest => ⟨{ c.root with buffer := buf }, { s with offset := newOffset } :: rest⟩

/-- Translation of the capacity-growth loop
`do { new_length *= 2; } while (new_length < required);` with explicit
fuel (`required` steps always suffice for the capacities the writer
creates, which are at least 5). -/
def growLoop : Nat → Nat → Nat → Nat
  | 0, len, _ => len * 2
  | f + 1, len, required =>
    if len * 2 < required then growLoop f (len * 2) required else len * 2

/-- New capacity chosen for a dynamic buffer that must hold `required`
bytes. -/
def growLength (len required : Nat) : Nat := growLoop required len required

/-- Capacity check and growth step of `writer::add_element`: when
`required` exceeds the root capacity, a fixed buffer fails, a dynamic one
reallocates to `growLength` (failure when `allocOk` is false leaves the
writer at its prior capacity, i.e. `none` here and the input chain stands
unchanged). -/
def chain.growTo (c : chain) (required : Nat) (allocOk : Bool) : Option chain :=
  if c.root.length < required then
    if !c.root.malloc then none
    else
      let newLen := growLength c.root.length required
      if allocOk then
        some ⟨{ c.root with
                buffer := c.root.buffer ++ List.replicate (newLen - c.root.buffer.length) 0,
                length := newLen }, c.subs⟩
      else none
  else some c

/-- Translation of `writer::add_element`: on success, returns the chain
after the element header is written and the index where the caller must
store the `space` payload bytes. -/
def chain.add_element (c : chain) (e_name : List Nat) (tag : Nat) (space : Nat)
    (allocOk : Bool) : Option (chain × Nat) :=
  if c.curLocked then none
  else
    let depth := c.subs.length
    let name_length := e_name.length + 1
    if name_length ≤ 1 then none
    else
      let o := c.curOffset
      let required := o + 1 + name_length + space + 1 + depth
      match c.growTo required allocOk with
      | none => none
      | some cg =>
        let buf := store cg.root.buffer o ([tag] ++ e_name ++ [0])
        let c1 : chain := ⟨{ cg.root with buffer := buf }, cg.subs⟩
        some (c1.update_offset (o + name_length + 1 + space), o + 1 + name_length)

/-- Store payload bytes at the index returned by `add_element` (the
`memcpy` done by each typed `add_` function). -/
def chain.payload (c : chain) (dest : Nat) (bs : List Nat) : chain :=
  ⟨{ c.root with buffer := store c.root.buffer dest bs }, c.subs⟩

/-- Translation of `writer::add_double` (the value is carried as its
8-byte IEEE-754 image, exactly the bytes `memcpy` copies). -/
def chain.add_double (c : chain) (e_name : List Nat) (value : List Nat)
    (allocOk : Bool) : Option chain :=
  match c.add_element e_name 1 8 allocOk with
  | none => none
  | some (c1, dest) => some (c1.payload dest value)

/-- Translation of the explicit-length `writer::add_string`. -/
def chain.add_string (c : chain) (e_name s : List Nat) (allocOk : Bool) :
    Option chain :=
  if s.length ≥ 2147483647 then none
  else
    match c.add_element e_name 2 (s.length + 5) allocOk with
    | none => none
    | some (c1, dest) => some (c1.payload dest (le32 (s.length + 1) ++ s ++ [0]))

/-- Translation of the copying `writer::add_binary`. -/
def chain.add_binary (c : chain) (e_name : List Nat) (bytes : List Nat)
    (sub : Nat) (allocOk : Bool) : Option chain :=
  if bytes.length > 2147483647 then none
  else
    match c.add_element e_name 5 (bytes.length + 5) allocOk with
    | none => none
    | some (c1, dest) => some (c1.payload dest (le32 bytes.length ++ [sub] ++ bytes))

/-- Translation of `writer::add_boolean`. -/
def chain.add_boolean (c : chain) (e_name : List Nat) (value : Bool)
    (allocOk : Bool) : Option chain :=
  match c.add_element e_name 8 1 allocOk with
  | none => none
  | some (c1, dest) => some (c1.payload dest [if value then 1 else 0])

/-- Translation of `writer::add_int32`. -/
def chain.add_int32 (c : chain) (e_name : List Nat) (value : Int)
    (allocOk : Bool) : Option chain :=
  match c.add_element e_name 16 4 allocOk with
  | none => none
  | some (c1, dest) => some (c1.payload dest (i32bytes value))

/-- Translation of `writer::add_int64`. -/
def chain.add_int64 (c : chain) (e_name : List Nat) (value : Int)
    (allocOk : Bool) : Option chain :=
  match c.add_element e_name 18 8 allocOk with
  | none => none
  | some (c1, dest) => some (c1.payload dest (i64bytes value))

/-- Translation of `writer::add_undefined`. -/
def chain.add_undefined (c : chain) (e_name : List Nat) (allocOk : Bool) :
    Option chain :=
  match c.add_element e_name 6 0 allocOk with
  | none => none
  | some (c1, _) => some c1

/-- Translation of `writer::add_null`. -/
def chain.add_null (c : chain) (e_name : List Nat) (allocOk : Bool) :
    Option chain :=
  match c.add_element e_name 10 0 allocOk with
  | none => none
  | some (c1, _) => some c1

/-- Set the `locked` flag of the innermost writer. -/
def chain.lockCur (c : chain) : chain :=
  match c.subs with
  | [] => ⟨{ c.root with locked := true }, []⟩
  | s :: rest => ⟨c.root, { s with locked := true } :: rest⟩

/-- Translation of the no-value `writer::add_subdocument`: append the
element with a 5-byte placeholder (`total_length = 5` plus terminator),
lock the current writer, and push the child writer, which records
`offset - 1` (the current writer's new offset minus one). -/
def chain.add_subdocument (c : chain) (e_name : List Nat) (tag : Nat)
    (allocOk : Bool) : Option chain :=
  match c.add_element e_name tag 5 allocOk with
  | none => none
  | some (c1, dest) =>
    let buf := store (store c1.root.buffer dest (le32 5)) (dest + 4) [0]
    let c2 : chain := ⟨{ c1.root with buffer := buf }, c1.subs⟩
    let c3 := c2.lockCur
    some ⟨c3.root, ⟨c2.curOffset - 1, false⟩ :: c3.subs⟩

/-- Translation of `writer::~writer` for the innermost live writer.  A
locked writer returns immediately.  An unlocked root frees its buffer.  An
unlocked subdocument unlocks its parent and lets the parent rewrite its
own total-length field to `offset + 1`. -/
def chain.dtorInner (c : chain) : chain :=
  match c with
  | ⟨r, []⟩ =>
    if r.locked then c
    else ⟨⟨[], r.offset, true, 0, false⟩, []⟩
  | ⟨r, s :: rest⟩ =>
    if s.locked then c
    else
      let parentChain : chain :=
        match rest with
        | [] => ⟨{ r with locked := false }, []⟩
        | p :: t => ⟨r, { p with locked := false } :: t⟩
      parentChain.update_offset (s.offset + 1)

/-- Translation of the default dynamic constructor `writer::writer()`
(successful 128-byte allocation; fresh memory modelled as zeros). -/
def writerInit : chain :=
  chain.update_offset ⟨⟨List.replicate 128 0, 0, false, 128, true⟩, []⟩ 4

/-- Translation of the fixed-buffer constructor
`writer::writer(void* buffer, std::size_t length)`. -/
def writerFixed (buffer : List Nat) : chain :=
  if buffer.length < 5 ∨ buffer.length > 2147483647 then
    ⟨⟨[], 0, true, 0, false⟩, []⟩
  else
    chain.update_offset ⟨⟨buffer, 0, false, buffer.length, false⟩, []⟩ 4

/-- Translation of `writer::release` called on a root writer: fails when
locked, when called through a subdocument, or when the buffer is not
dynamically owned; otherwise hands out the buffer and `offset + 1`. -/
def chain.release (c : chain) : Option (List Nat × Nat) :=
  match c.subs with
  | _ :: _ => none
  | [] =>
    if c.root.locked || !c.root.malloc then none
    else some (c.root.buffer, c.root.offset + 1)

/-! ## Reader model

`reader` is a `(pointer, length)` view; `element` holds the name pointer
and the payload pointer (null pointers are `none`); `const_iterator` holds
the current element plus the nullable `next_position` / `end_position`
accessors.  Pointers into the reader's buffer are indices.  Every function
that reads memory also returns the list of indices it read, so that the
malformed-input claim can state that no read ever reaches the supplied
length. -/

/-- Element cursor: name pointer and payload pointer (`none` = null). -/
structure element where
  e_name : Option Nat
  data : Option Nat
deriving DecidableEq, Repr

/-- Iterator state: current element, `next_position`, `end_position`. -/
structure iter where
  current : element
  next_position : Option Nat
  end_position : Option Nat
deriving DecidableEq, Repr

/-- Scan for the NUL terminating an element name, starting at `p` and
bounded by `e` (the loop in `operator++` step 3).  Returns the index just
past the NUL if found (`none` when the loop hit `e` first) and the list of
indices read. -/
def scanGo (buf : List Nat) : Nat → Nat → Option Nat × List Nat
  | 0, _ => (none, [])
  | f + 1, p =>
    if readB buf p = 0 then (some (p + 1), [p])
    else
      let r := scanGo buf f (p + 1)
      (r.1, p :: r.2)

def scanName (buf : List Nat) (e p : Nat) : Option Nat × List Nat :=
  scanGo buf (e - p) p

/-- Translation of `reader::const_iterator::operator++`, also returning
the indices read.  Every state change follows the source: `terminate`
clears the current element and `end_position` while keeping whatever
`next_position` held at that point; reading the 0x00 sentinel clears
`next_position` as well (the cleanly-ended state). -/
def stepR (buf : List Nat) (it : iter) : iter × List Nat :=
  match it.end_position with
  | none => (it, [])
  | some e =>
    let n := it.next_position.getD 0
    if n ≥ e then
      (⟨⟨none, none⟩, it.next_position, none⟩, [])
    else
      let tag := readB buf n
      if tag = 0 then
        (⟨⟨none, none⟩, none, none⟩, [n])
      else
        match scanName buf e (n + 1) with
        | (none, reads) => (⟨⟨none, none⟩, some e, none⟩, n :: reads)
        | (some q, reads) =>
          let cur : element := ⟨some (n + 1), some q⟩
          let reads := n :: reads
          if tag = 1 ∨ tag = 18 then
            if q + 8 ≤ e then (⟨cur, some (q + 8), some e⟩, reads)
            else (⟨⟨none, none⟩, some (q + 8), none⟩, reads)
          else if tag = 2 then
            if q + 4 ≤ e then
              let len := dSLE32 buf q
              let reads := reads ++ [q, q + 1, q + 2, q + 3]
              if len ≥ 1 then
                let n2 := q + 4 + len.toNat
                if n2 ≤ e then
                  if readB buf (n2 - 1) = 0 then
                    (⟨cur, some n2, some e⟩, reads ++ [n2 - 1])
                  else (⟨⟨none, none⟩, some n2, none⟩, reads ++ [n2 - 1])
                else (⟨⟨none, none⟩, some n2, none⟩, reads)
              else (⟨⟨none, none⟩, some (q + 4), none⟩, reads)
            else (⟨⟨none, none⟩, some (q + 4), none⟩, reads)
          else if tag = 3 ∨ tag = 4 then
            if q + 4 ≤ e then
              let len := dSLE32 buf q
              let reads := reads ++ [q, q + 1, q + 2, q + 3]
              if len ≥ 5 then
                let n2 := q + 4 + (len.toNat - 4)
                if n2 ≤ e then
                  if readB buf (n2 - 1) = 0 then
                    (⟨cur, some n2, some e⟩, reads ++ [n2 - 1])
                  else (⟨⟨none, none⟩, some n2, none⟩, reads ++ [n2 - 1])
                else (⟨⟨none, none⟩, some n2, none⟩, reads)
              else (⟨⟨none, none⟩, some (q + 4), none⟩, reads)
            else (⟨⟨none, none⟩, some (q + 4), none⟩, reads)
          else if tag = 5 then
            if q + 4 ≤ e then
              let len := dSLE32 buf q
              let reads := reads ++ [q, q + 1, q + 2, q + 3]
              if len ≥ 0 then
                let n2 := q + 4 + (len.toNat + 1)
                if n2 ≤ e then (⟨cur, some n2, some e⟩, reads)
                else (⟨⟨none, none⟩, some n2, none⟩, reads)
              else (⟨⟨none, none⟩, some (q + 4), none⟩, reads)
            else (⟨⟨none, none⟩, some (q + 4), none⟩, reads)
          else if tag = 6 ∨ tag = 10 then
            (⟨cur, some q, some e⟩, reads)
          else if tag = 8 then
            if q + 1 ≤ e then (⟨cur, some (q + 1), some e⟩, reads)
            else (⟨⟨none, none⟩, some (q + 1), none⟩, reads)
          else if tag = 16 then
            if q + 4 ≤ e then (⟨cur, some (q + 4), some e⟩, reads)
            else (⟨⟨none, none⟩, some (q + 4), none⟩, reads)
          else
            (⟨⟨none, none⟩, some q, none⟩, reads)

/-- Advance without the read log. -/
def step (buf : List Nat) (it : iter) : iter := (stepR buf it).1

/-- Translation of `reader::const_iterator::const_iterator(const reader&)`,
also returning the indices read.  `bufPresent` models whether the reader's
buffer pointer is null. -/
def iterInit (bufPresent : Bool) (buf : List Nat) (length : Nat) :
    iter × List Nat :=
  if !bufPresent then (⟨⟨none, none⟩, none, none⟩, [])
  else
    if length < 4 then (⟨⟨none, none⟩, some 0, none⟩, [])
    else
      let total := dSLE32 buf 0
      if total < 4 then (⟨⟨none, none⟩, some 0, none⟩, [0, 1, 2, 3])
      else if total.toNat > length then (⟨⟨none, none⟩, some 0, none⟩, [0, 1, 2, 3])
      else
        let r := stepR buf ⟨⟨none, none⟩, some 4, some total.toNat⟩
        (r.1, [0, 1, 2, 3] ++ r.2)

/-- Translation of `const_iterator::fail`. -/
def iter.fail (it : iter) : Bool :=
  it.end_position.isNone && it.next_position.isSome

/-- The C string starting at index `i` (bytes up to the first NUL), as
compared by `strcmp` in `reader::find`. -/
def cstrAt (buf : List Nat) (i : Nat) : List Nat :=
  (buf.drop i).takeWhile (fun b => b ≠ 0)

/-- Name of the current element as a C string. -/
def elemName (buf : List Nat) (el : element) : List Nat :=
  cstrAt buf (el.e_name.getD 0)

/-- The loop of `reader::find`: walk elements while the iterator is not
equal to `end()` (that is, while `end_position` is set), returning the
first element whose name compares equal, or the invalid element. -/
def findLoop (buf : List Nat) (e_name : List Nat) : Nat → iter → element
  | 0, _ => ⟨none, none⟩
  | fuel + 1, it =>
    match it.end_position with
    | none => ⟨none, none⟩
    | some _ =>
      if elemName buf it.current = e_name then it.current
      else findLoop buf e_name fuel (step buf it)

/-- Translation of `reader::find` (fuel `length + 1` bounds the element
count, since each parsed element consumes at least one byte). -/
def find (bufPresent : Bool) (buf : List Nat) (length : Nat)
    (e_name : List Nat) : element :=
  findLoop buf e_name (length + 1) (iterInit bufPresent buf length).1

/-- Translation of `reader::query_size`. -/
def query_size (buf : List Nat) (length : Nat) : Int :=
  if length < 4 then -1 else dSLE32 buf 0

/-! ## Element accessors -/

/-- Translation of `element::type`: the byte just before the name when the
data pointer is set, the tag value 0 otherwise. -/
def element.type (el : element) (buf : List Nat) : Nat :=
  if el.data.isSome then readB buf (el.e_name.getD 0 - 1) else 0

/-- Payload index of an element (only meaningful when `data` is set). -/
def element.dataIdx (el : element) : Nat := el.data.getD 0

/-- Translation of `element::get_double`: the 8 payload bytes the source
`memcpy`s into the output double, or `none` (output unchanged) on type
mismatch. -/
def element.get_double (el : element) (buf : List Nat) : Option (List Nat) :=
  if el.type buf = 1 then some ((buf.drop el.dataIdx).take 8) else none

/-- Translation of the pointer-only `element::get_string`: index of the
string bytes. -/
def element.get_string_p (el : element) (buf : List Nat) : Option Nat :=
  if el.type buf = 2 then some (el.dataIdx + 4) else none

/-- Translation of the pointer-and-length `element::get_string`: the
stored `int32` length minus one is converted to `std::size_t`. -/
def element.get_string_l (el : element) (buf : List Nat) :
    Option (Nat × Nat) :=
  if el.type buf = 2 then
    some (el.dataIdx + 4, intToSize (dSLE32 buf el.dataIdx - 1))
  else none

/-- Translation of the two-output `element::get_binary`. -/
def element.get_binary (el : element) (buf : List Nat) :
    Option (Nat × Nat) :=
  if el.type buf = 5 then
    some (el.dataIdx + 5, intToSize (dSLE32 buf el.dataIdx))
  else none

/-- Translation of the three-output `element::get_binary` (adds the
subtype byte). -/
def element.get_binary_s (el : element) (buf : List Nat) :
    Option (Nat × Nat × Nat) :=
  if el.type buf = 5 then
    some (el.dataIdx + 5, intToSize (dSLE32 buf el.dataIdx),
          readB buf (el.dataIdx + 4))
  else none

/-- Translation of `element::get_boolean`. -/
def element.get_boolean (el : element) (buf : List Nat) : Option Bool :=
  if el.type buf = 8 then some (readB buf el.dataIdx ≠ 0) else none

/-- Translation of `element::get_int32`. -/
def element.get_int32 (el : element) (buf : List Nat) : Option Int :=
  if el.type buf = 16 then some (dSLE32 buf el.dataIdx) else none

/-- Translation of `element::get_int64`. -/
def element.get_int64 (el : element) (buf : List Nat) : Option Int :=
  if el.type buf = 18 then some (dSLE64 buf el.dataIdx) else none

/-- Translation of `element::get_integer` (int32 widened to 64 bits). -/
def element.get_integer (el : element) (buf : List Nat) : Option Int :=
  if el.type buf = 16 then some (dSLE32 buf el.dataIdx)
  else if el.type buf = 18 then some (dSLE64 buf el.dataIdx)
  else none

/-- Result of `element::get_number` before the C++ conversion to double
(the conversion itself is floating-point arithmetic and is not modelled;
no claim depends on it). -/
inductive numval where
  | fp (bytes : List Nat)
  | i32 (v : Int)
  | i64 (v : Int)
deriving DecidableEq, Repr

/-- Translation of `element::get_number`. -/
def element.get_number (el : element) (buf : List Nat) : Option numval :=
  if el.type buf = 1 then some (.fp ((buf.drop el.dataIdx).take 8))
  else if el.type buf = 16 then some (.i32 (dSLE32 buf el.dataIdx))
  else if el.type buf = 18 then some (.i64 (dSLE64 buf el.dataIdx))
  else none

/-- Translation of `element::as_subdocument`: a reader over the nested
bytes (pointer modelled by dropping the leading bytes), or the supplied
default reader on tag mismatch.  A reader is `(present, memory, length)`. -/
def element.as_subdocument (el : element) (buf : List Nat)
    (dflt : Bool × List Nat × Nat) (tag : Nat) : Bool × List Nat × Nat :=
  if el.type buf ≠ tag then dflt
  else (true, buf.drop el.dataIdx, intToSize (dSLE32 buf el.dataIdx))

/-- Exponent field of an IEEE-754 double given its little-endian bytes. -/
def f64exp (b : List Nat) : Nat := b.getD 7 0 % 128 * 16 + b.getD 6 0 / 16

/-- Mantissa field of an IEEE-754 double given its little-endian bytes. -/
def f64man (b : List Nat) : Nat :=
  b.getD 6 0 % 16 * 281474976710656 + b.getD 5 0 * 1099511627776 +
  b.getD 4 0 * 4294967296 + b.getD 3 0 * 16777216 +
  b.getD 2 0 * 65536 + b.getD 1 0 * 256 + b.getD 0 0

/-- Bit-level `std::isnan` for a double carried as its 8 bytes. -/
def f64isNaN (b : List Nat) : Bool := f64exp b = 2047 && f64man b ≠ 0

/-- Bit-level `value == 0.0` (either signed zero) for a double carried as
its 8 bytes. -/
def f64isZero (b : List Nat) : Bool := f64exp b = 0 && f64man b = 0

/-- Translation of `element::truthy`. -/
def element.truthy (el : element) (buf : List Nat) : Bool :=
  match el.type buf with
  | 1 =>
    let b := (buf.drop el.dataIdx).take 8
    !f64isNaN b && !f64isZero b
  | 2 => dSLE32 buf el.dataIdx > 1
  | 3 => true
  | 4 => true
  | 5 => true
  | 8 => readB buf el.dataIdx ≠ 0
  | 16 => dSLE32 buf el.dataIdx ≠ 0
  | 18 => dSLE64 buf el.dataIdx ≠ 0
  | _ => false

/-- Translation of `element::falsy`. -/
def element.falsy (el : element) (buf : List Nat) : Bool := !el.truthy buf

/-- Translation of `element::as_double` (`get_double` into the default). -/
def element.as_double (el : element) (buf : List Nat) (dflt : List Nat) :
    List Nat := (el.get_double buf).getD dflt

/-- Translation of the defaulted `element::as_string`. -/
def element.as_string (el : element) (buf : List Nat) (dflt : Nat) : Nat :=
  (el.get_string_p buf).getD dflt

/-- Translation of `element::as_boolean`. -/
def element.as_boolean (el : element) (buf : List Nat) (dflt : Bool) :
    Bool := (el.get_boolean buf).getD dflt

/-- Translation of `element::as_int32`. -/
def element.as_int32 (el : element) (buf : List Nat) (dflt : Int) : Int :=
  (el.get_int32 buf).getD dflt

/-- Translation of `element::as_int64`. -/
def element.as_int64 (el : element) (buf : List Nat) (dflt : Int) : Int :=
  (el.get_int64 buf).getD dflt

/-- Translation of `element::as_integer`. -/
def element.as_integer (el : element) (buf : List Nat) (dflt : Int) : Int :=
  (el.get_integer buf).getD dflt

/-- Translation of `element::as_number` (kept before the double
conversion, like `get_number`). -/
def element.as_number (el : element) (buf : List Nat) (dflt : numval) :
    numval := (el.get_number buf).getD dflt

/-! ## Value trees and the append driver

A `value` is one supported typed value; document and array values carry
their fields, so a value tree describes a whole sequence of appends,
including the subdocument open/close protocol.  Numeric leaf values carry
exactly what the corresponding C++ argument carries (a double is its
8-byte image, since `add_double`/`get_double` move it with `memcpy`). -/

/-- A supported typed value as passed to the writer. -/
inductive value where
  | fp64 (bytes : List Nat)
  | str (bytes : List Nat)
  | bin (sub : Nat) (bytes : List Nat)
  | boolean (b : Bool)
  | i32 (v : Int)
  | i64 (v : Int)
  | undef
  | null
  | doc (fields : List (List Nat × value))
  | arr (fields : List (List Nat × value))
deriving Repr

/-- Type tag of a value (the `bson::type` enum). -/
def value.tag : value → Nat
  | .fp64 _ => 1
  | .str _ => 2
  | .bin _ _ => 5
  | .boolean _ => 8
  | .i32 _ => 16
  | .i64 _ => 18
  | .undef => 6
  | .null => 10
  | .doc _ => 3
  | .arr _ => 4

mutual

/-- Append one named value through the chain: scalars call the
corresponding `add_` function; documents and arrays follow the
subdocument protocol (`add_subdocument`, recursive appends through the
child, destructor of the child).  Allocation always succeeds. -/
def writeValue (c : chain) (n : List Nat) : value → Option chain
  | .fp64 b => c.add_double n b true
  | .str s => c.add_string n s true
  | .bin sub bs => c.add_binary n bs sub true
  | .boolean b => c.add_boolean n b true
  | .i32 v => c.add_int32 n v true
  | .i64 v => c.add_int64 n v true
  | .undef => c.add_undefined n true
  | .null => c.add_null n true
  | .doc fs =>
    match c.add_subdocument n 3 true with
    | none => none
    | some c1 =>
      match writeFields c1 fs with
      | none => none
      | some c2 => some c2.dtorInner
  | .arr fs =>
    match c.add_subdocument n 4 true with
    | none => none
    | some c1 =>
      match writeFields c1 fs with
      | none => none
      | some c2 => some c2.dtorInner

/-- Append a list of named values in order. -/
def writeFields (c : chain) : List (List Nat × value) → Option chain
  | [] => some c
  | (n, v) :: rest =>
    match writeValue c n v with
    | none => none
    | some c1 => writeFields c1 rest

end

/-- Build a whole document through a fresh dynamic writer and release its
bytes. -/
def writeDoc (fs : List (List Nat × value)) : Option (List Nat × Nat) :=
  match writeFields writerInit fs with
  | none => none
  | some c => c.release

/-! ## Reference serialization (used to state and prove the round trip) -/

mutual

/-- Payload bytes of one value, per the format's payload table (a nested
document is its full header-fields-terminator image). -/
def elemPayload : value → List Nat
  | .fp64 b => b
  | .str s => le32 (s.length + 1) ++ s ++ [0]
  | .bin sub bs => le32 bs.length ++ [sub] ++ bs
  | .boolean b => [if b then 1 else 0]
  | .i32 v => i32bytes v
  | .i64 v => i64bytes v
  | .undef => []
  | .null => []
  | .doc fs => le32 (5 + (serializeFields fs).length) ++ serializeFields fs ++ [0]
  | .arr fs => le32 (5 + (serializeFields fs).length) ++ serializeFields fs ++ [0]

/-- Byte sequence of a list of elements. -/
def serializeFields : List (List Nat × value) → List Nat
  | [] => []
  | (n, v) :: rest => v.tag :: (n ++ [0] ++ elemPayload v ++ serializeFields rest)

end

/-- Byte sequence of a whole document. -/
def serializeDoc (fs : List (List Nat × value)) : List Nat :=
  le32 (5 + (serializeFields fs).length) ++ serializeFields fs ++ [0]

/-- Byte sequence of a single element. -/
def elemBytes (n : List Nat) (v : value) : List Nat :=
  v.tag :: (n ++ [0] ++ elemPayload v)

/-- A valid element name: nonempty bytes, each nonzero (a C string cannot
contain NUL) and below 256. -/
def validName (n : List Nat) : Prop :=
  n ≠ [] ∧ ∀ b ∈ n, 0 < b ∧ b < 256

mutual

/-- Well-formedness of one value: byte lists hold bytes, sizes fit the
32-bit length fields the format uses, integer leaves are in range, and
nested documents are recursively valid. -/
def validValue : value → Prop
  | .fp64 b => b.length = 8 ∧ ∀ x ∈ b, x < 256
  | .str s => s.length < 2147483647 ∧ ∀ x ∈ s, x < 256
  | .bin sub bs => bs.length ≤ 2147483647 ∧ sub < 256 ∧ ∀ x ∈ bs, x < 256
  | .boolean _ => True
  | .i32 v => -2147483648 ≤ v ∧ v < 2147483648
  | .i64 v => -9223372036854775808 ≤ v ∧ v < 9223372036854775808
  | .undef => True
  | .null => True
  | .doc fs => validFields fs
  | .arr fs => validFields fs

/-- Well-formedness of a field list: names valid and pairwise distinct at
this level, values recursively valid. -/
def validFields : List (List Nat × value) → Prop
  | [] => True
  | (n, v) :: rest =>
    validName n ∧ validValue v ∧ (∀ g ∈ rest, g.1 ≠ n) ∧ validFields rest

end

mutual

/-- The element `el` of the buffer reproduces the value `v` exactly
through the typed accessors: bit-exact bytes for double/int32/int64,
byte-exact content for string/binary, and recursively reproduced nested
documents through `as_subdocument` readers. -/
def valueRepro (buf : List Nat) (el : element) : value → Prop
  | .fp64 b => el.get_double buf = some b
  | .str s =>
    el.get_string_l buf = some (el.dataIdx + 4, s.length) ∧
    (buf.drop (el.dataIdx + 4)).take s.length = s
  | .bin sub bs =>
    el.get_binary_s buf = some (el.dataIdx + 5, bs.length, sub) ∧
    (buf.drop (el.dataIdx + 5)).take bs.length = bs
  | .boolean b => el.get_boolean buf = some b
  | .i32 v => el.get_int32 buf = some v
  | .i64 v => el.get_int64 buf = some v
  | .undef => el.type buf = 6
  | .null => el.type buf = 10
  | .doc fs =>
    (el.as_subdocument buf (false, [], 0) 3).1 = true ∧
    docRepro (el.as_subdocument buf (false, [], 0) 3).2.1
      (el.as_subdocument buf (false, [], 0) 3).2.2 fs
  | .arr fs =>
    (el.as_subdocument buf (false, [], 0) 4).1 = true ∧
    docRepro (el.as_subdocument buf (false, [], 0) 4).2.1
      (el.as_subdocument buf (false, [], 0) 4).2.2 fs

/-- Every field of the list is reproduced by looking its name up with
`find` on a reader over `(buf, len)`: the found element carries the
original name and reproduces the original value. -/
def docRepro (buf : List Nat) (len : Nat) :
    List (List Nat × value) → Prop
  | [] => True
  | (n, v) :: rest =>
    (elemName buf (find true buf len n) = n ∧
     (find true buf len n).data.isSome = true ∧
     valueRepro buf (find true buf len n) v) ∧
    docRepro buf len rest

end

/-! ## Basic lemmas about memory writes and byte images -/

theorem store_length (l : List Nat) (i : Nat) (bs : List Nat) :
    (store l i bs).length = l.length := by
  induction l generalizing i bs with
  | nil => cases bs <;> simp [store]
  | cons x xs ih =>
    cases bs with
    | nil => simp [store]
    | cons b bs2 =>
      cases i with
      | zero => simp [store, ih]
      | succ i2 => simp [store, ih]

theorem store_getD (l : List Nat) (i : Nat) (bs : List Nat) (j : Nat) :
    (store l i bs).getD j 0 =
      if i ≤ j ∧ j < i + bs.length ∧ j < l.length then bs.getD (j - i) 0
      else l.getD j 0 := by
  induction l generalizing i bs j with
  | nil =>
    cases bs with
    | nil => simp [store]
    | cons b bs2 => simp [store]
  | cons x xs ih =>
    cases bs with
    | nil =>
      simp only [store, List.length_nil]
      rw [if_neg (by omega)]
    | cons b bs2 =>
      cases i with
      | zero =>
        cases j with
        | zero => simp [store]
        | succ j2 =>
          simp only [store, List.getD_cons_succ, ih, List.length_cons]
          by_cases h : j2 < bs2.length ∧ j2 < xs.length
          · rw [if_pos (by omega), if_pos (by omega)]
            simp
          · rw [if_neg (by omega), if_neg (by omega)]
      | succ i2 =>
        cases j with
        | zero =>
          simp only [store, List.getD_cons_zero, List.length_cons]
          rw [if_neg (by omega)]
        | succ j2 =>
          simp only [store, List.getD_cons_succ, ih, List.length_cons]
          by_cases h : i2 ≤ j2 ∧ j2 < i2 + (bs2.length + 1) ∧ j2 < xs.length
          · rw [if_pos (by omega), if_pos (by omega)]
            congr 1
            omega
          · rw [if_neg (by omega), if_neg (by omega)]

theorem readB_store_out (l : List Nat) (i : Nat) (bs : List Nat) (j : Nat)
    (h : j < i ∨ i + bs.length ≤ j) : readB (store l i bs) j = readB l j := by
  simp only [readB, store_getD]
  rw [if_neg (by omega)]

theorem readB_store_in (l : List Nat) (i : Nat) (bs : List Nat) (j : Nat)
    (h1 : i ≤ j) (h2 : j < i + bs.length) (h3 : j < l.length) :
    readB (store l i bs) j = bs.getD (j - i) 0 := by
  simp only [readB, store_getD]
  rw [if_pos ⟨h1, h2, h3⟩]

theorem readB_append_left (l r : List Nat) (j : Nat) (h : j < l.length) :
    readB (l ++ r) j = readB l j := by
  simp only [readB]
  rw [List.getD_eq_getElem?_getD, List.getD_eq_getElem?_getD,
    List.getElem?_append_left h]

theorem covers_store_self (l : List Nat) (i : Nat) (bs : List Nat)
    (h : i + bs.length ≤ l.length) : covers (store l i bs) i bs := by
  intro j hj
  rw [readB_store_in l i bs (i + j) (by omega) (by omega) (by omega)]
  congr 1
  omega

theorem getD_append_ge (a b : List Nat) (j : Nat) (h : a.length ≤ j) :
    (a ++ b).getD j 0 = b.getD (j - a.length) 0 := by
  rw [List.getD_eq_getElem?_getD, List.getD_eq_getElem?_getD,
    List.getElem?_append_right h]

theorem covers_append (buf : List Nat) (base : Nat) (a b : List Nat) :
    covers buf base (a ++ b) ↔
      covers buf base a ∧ covers buf (base + a.length) b := by
  constructor
  · intro h
    constructor
    · intro j hj
      have := h j (by simp; omega)
      rwa [List.getD_append _ _ _ _ hj] at this
    · intro j hj
      have := h (a.length + j) (by simp; omega)
      rw [show base + (a.length + j) = base + a.length + j by omega] at this
      rw [this, getD_append_ge _ _ _ (by omega)]
      congr 1
      omega
  · intro hp j hj
    by_cases hja : j < a.length
    · rw [hp.1 j hja, List.getD_append _ _ _ _ hja]
    · have := hp.2 (j - a.length) (by simp at hj; omega)
      rw [show base + a.length + (j - a.length) = base + j by omega] at this
      rw [this, getD_append_ge _ _ _ (by omega)]

theorem covers_singleton (buf : List Nat) (base : Nat) (x : Nat) :
    covers buf base [x] ↔ readB buf base = x := by
  constructor
  · intro h
    have := h 0 (by simp)
    simpa [readB] using this
  · intro h j hj
    simp only [List.length_singleton] at hj
    have hj0 : j = 0 := by omega
    subst hj0
    simpa [readB] using h

theorem covers_cons (buf : List Nat) (base : Nat) (x : Nat) (bs : List Nat) :
    covers buf base (x :: bs) ↔ readB buf base = x ∧ covers buf (base + 1) bs := by
  have := covers_append buf base [x] bs
  simp only [List.singleton_append, List.length_singleton] at this
  rw [this, covers_singleton]

theorem covers_of_unchanged (buf buf2 : List Nat) (base : Nat) (bs : List Nat)
    (h : covers buf base bs)
    (hsame : ∀ j, base ≤ j → j < base + bs.length → readB buf2 j = readB buf j) :
    covers buf2 base bs := by
  intro j hj
  rw [hsame (base + j) (by omega) (by omega)]
  exact h j hj

theorem list_eq_of_covers (buf : List Nat) (i : Nat) (bs : List Nat)
    (h : covers buf i bs) (hb : i + bs.length ≤ buf.length) :
    (buf.drop i).take bs.length = bs := by
  apply List.ext_getElem
  · simp
    omega
  · intro j h1 h2
    have hcb := h j h2
    rw [List.getElem_take, List.getElem_drop]
    have hlt : i + j < buf.length := by omega
    have hx : readB buf (i + j) = buf[i + j] := by
      simp [readB, List.getD_eq_getElem?_getD, List.getElem?_eq_getElem hlt]
    rw [hx] at hcb
    rw [hcb, List.getD_eq_getElem?_getD, List.getElem?_eq_getElem h2]
    rfl

theorem readB_drop (buf : List Nat) (d j : Nat) :
    readB (buf.drop d) j = readB buf (d + j) := by
  simp only [readB]
  rw [List.getD_eq_getElem?_getD, List.getD_eq_getElem?_getD, List.getElem?_drop]

theorem covers_drop (buf : List Nat) (d base : Nat) (bs : List Nat)
    (h : covers buf (d + base) bs) : covers (buf.drop d) base bs := by
  intro j hj
  rw [readB_drop]
  rw [show d + (base + j) = d + base + j by omega]
  exact h j hj

theorem le32_length (n : Nat) : (le32 n).length = 4 := by simp [le32]

theorem le64_length (n : Nat) : (le64 n).length = 8 := by simp [le64]

theorem dLE32_of_covers (buf : List Nat) (i k : Nat)
    (h : covers buf i (le32 k)) : dLE32 buf i = k % 4294967296 := by
  have h0 := h 0 (by simp [le32])
  have h1 := h 1 (by simp [le32])
  have h2 := h 2 (by simp [le32])
  have h3 := h 3 (by simp [le32])
  simp only [le32, List.getD_cons_zero, List.getD_cons_succ, Nat.add_zero] at h0 h1 h2 h3
  simp only [dLE32, h0, h1, h2, h3]
  have d1 : k / 65536 = k / 256 / 256 := by omega
  have d2 : k / 16777216 = k / 65536 / 256 := by omega
  have d3 : k / 4294967296 = k / 16777216 / 256 := by omega
  omega

theorem le64_split (k : Nat) : le64 k = le32 k ++ le32 (k / 4294967296) := by
  simp only [le64, le32, List.cons_append, List.nil_append]
  have e1 : k / 1099511627776 = k / 4294967296 / 256 := by omega
  have e2 : k / 281474976710656 = k / 4294967296 / 65536 := by omega
  have e3 : k / 72057594037927936 = k / 4294967296 / 16777216 := by omega
  rw [e1, e2, e3]

theorem dLE64_of_covers (buf : List Nat) (i k : Nat)
    (h : covers buf i (le64 k)) : dLE64 buf i = k % 18446744073709551616 := by
  rw [le64_split] at h
  rw [covers_append] at h
  rw [le32_length] at h
  have hlo := dLE32_of_covers buf i k h.1
  have hhi := dLE32_of_covers buf (i + 4) (k / 4294967296) h.2
  simp only [dLE64, hlo, hhi]
  omega

theorem dSLE32_of_covers (buf : List Nat) (i k : Nat)
    (h : covers buf i (le32 k)) (hk : k < 2147483648) :
    dSLE32 buf i = (k : Int) := by
  rw [dSLE32, dLE32_of_covers buf i k h, sI32]
  rw [Nat.mod_eq_of_lt (by omega), if_pos (by omega), Nat.mod_eq_of_lt (by omega)]

theorem dSLE32_i32bytes (buf : List Nat) (i : Nat) (v : Int)
    (h : covers buf i (i32bytes v)) (h1 : -2147483648 ≤ v)
    (h2 : v < 2147483648) : dSLE32 buf i = v := by
  rw [i32bytes] at h
  rw [dSLE32, dLE32_of_covers buf i _ h, sI32]
  have hnn : 0 ≤ v % 4294967296 := Int.emod_nonneg v (by norm_num)
  have hlt : v % 4294967296 < 4294967296 := Int.emod_lt_of_pos v (by norm_num)
  have hcase : v % 4294967296 = v ∨ v % 4294967296 = v + 4294967296 := by
    omega
  have htn : ((v % 4294967296).toNat : Int) = v % 4294967296 :=
    Int.toNat_of_nonneg hnn
  rcases hcase with hc | hc
  · rw [Nat.mod_eq_of_lt (by omega), if_pos (by omega)]
    rw [Nat.mod_eq_of_lt (by omega)]
    omega
  · rw [Nat.mod_eq_of_lt (by omega), if_neg (by omega)]
    rw [Nat.mod_eq_of_lt (by omega)]
    omega

theorem dSLE64_i64bytes (buf : List Nat) (i : Nat) (v : Int)
    (h : covers buf i (i64bytes v)) (h1 : -9223372036854775808 ≤ v)
    (h2 : v < 9223372036854775808) : dSLE64 buf i = v := by
  rw [i64bytes] at h
  rw [dSLE64, dLE64_of_covers buf i _ h, sI64]
  have hnn : 0 ≤ v % 18446744073709551616 := Int.emod_nonneg v (by norm_num)
  have hlt : v % 18446744073709551616 < 18446744073709551616 :=
    Int.emod_lt_of_pos v (by norm_num)
  have hcase : v % 18446744073709551616 = v ∨
      v % 18446744073709551616 = v + 18446744073709551616 := by
    omega
  have htn : ((v % 18446744073709551616).toNat : Int) =
      v % 18446744073709551616 := Int.toNat_of_nonneg hnn
  rcases hcase with hc | hc
  · rw [Nat.mod_eq_of_lt (by omega), if_pos (by omega)]
    rw [Nat.mod_eq_of_lt (by omega)]
    omega
  · rw [Nat.mod_eq_of_lt (by omega), if_neg (by omega)]
    rw [Nat.mod_eq_of_lt (by omega)]
    omega

theorem intToSize_of_nonneg (v : Int) (h1 : 0 ≤ v)
    (h2 : v < 18446744073709551616) : (intToSize v : Int) = v := by
  rw [intToSize, Int.emod_eq_of_lt h1 h2]
  exact Int.toNat_of_nonneg h1

/-! ## Growth-loop lemmas -/

theorem growLoop_ge (f len required : Nat) (hl : 1 ≤ len)
    (hf : required ≤ f + 2 * len) : required ≤ growLoop f len required := by
  induction f generalizing len with
  | zero =>
    simp only [growLoop]
    omega
  | succ f2 ih =>
    simp only [growLoop]
    split
    · exact ih (len * 2) (by omega) (by omega)
    · omega

theorem growLoop_shape (f len required : Nat) (hl : 1 ≤ len)
    (hreq : len < required) :
    ∃ k, 1 ≤ k ∧ growLoop f len required = len * 2 ^ k ∧
      len * 2 ^ (k - 1) < required := by
  induction f generalizing len with
  | zero =>
    refine ⟨1, le_refl 1, ?_, ?_⟩
    · simp [growLoop]
    · simpa using hreq
  | succ f2 ih =>
    simp only [growLoop]
    split
    · rename_i hlt
      obtain ⟨k, hk1, hkeq, hkmin⟩ := ih (len * 2) (by omega) (by omega)
      refine ⟨k + 1, by omega, ?_, ?_⟩
      · rw [hkeq]
        rw [show k = k - 1 + 1 by omega]
        ring
      · have he : len * 2 * 2 ^ (k - 1) = len * 2 ^ (k + 1 - 1) := by
          rw [show k + 1 - 1 = k - 1 + 1 by omega]
          ring
        omega
    · refine ⟨1, le_refl 1, ?_, ?_⟩
      · rw [pow_one]
      · simpa using hreq

theorem growLength_ge (len required : Nat) (hl : 1 ≤ len) :
    required ≤ growLength len required :=
  growLoop_ge required len required hl (by omega)

/-! ## Writer-state invariants and the append specification -/

/-- Replace the offset of the innermost writer (shape of a chain after an
append). -/
def chain.setCurOffset (c : chain) (o : Nat) : chain :=
  match c.subs with
  | [] => ⟨{ c.root with offset := o }, []⟩
  | s :: rest => ⟨c.root, { s with offset := o } :: rest⟩

/-- Invariant of a live writer chain: the buffer list realizes the whole
capacity, the capacity leaves room for the terminator and one reserved
byte per open ancestor, the innermost header sits at least 4 bytes before
the write offset, the innermost total-length field holds its current
span, and the terminator byte is in place. -/
structure chainWF (c : chain) : Prop where
  blen : c.root.buffer.length = c.root.length
  cap : c.curOffset + 1 + c.subs.length ≤ c.root.length
  hdr : c.headerOffset + 4 ≤ c.curOffset
  hdrBytes : covers c.root.buffer c.headerOffset
    (le32 (c.curOffset + 1 - c.headerOffset))
  term : readB c.root.buffer c.curOffset = 0

theorem setCurOffset_curOffset (c : chain) (o : Nat) :
    (c.setCurOffset o).curOffset = o := by
  cases c with
  | mk r subs => cases subs <;> rfl

theorem setCurOffset_headerOffset (c : chain) (o : Nat) :
    (c.setCurOffset o).headerOffset = c.headerOffset := by
  cases c with
  | mk r subs =>
    cases subs with
    | nil => rfl
    | cons s rest => cases rest <;> rfl

theorem setCurOffset_subsLength (c : chain) (o : Nat) :
    (c.setCurOffset o).subs.length = c.subs.length := by
  cases c with
  | mk r subs => cases subs <;> rfl

theorem setCurOffset_subs (c : chain) (o : Nat) :
    (c.setCurOffset o).subs =
      match c.subs with
      | [] => []
      | s :: rest => { s with offset := o } :: rest := by
  cases c with
  | mk r subs => cases subs <;> rfl

theorem setCurOffset_rootOffset (c : chain) (o : Nat) :
    (c.setCurOffset o).root.offset =
      match c.subs with
      | [] => o
      | _ :: _ => c.root.offset := by
  cases c with
  | mk r subs => cases subs <;> rfl

theorem setCurOffset_rootLocked (c : chain) (o : Nat) :
    (c.setCurOffset o).root.locked = c.root.locked := by
  cases c with
  | mk r subs => cases subs <;> rfl

theorem update_offset_buffer (c : chain) (no : Nat) :
    (c.update_offset no).root.buffer =
      store (store c.root.buffer c.headerOffset (le32 (no + 1 - c.headerOffset)))
        no [0] := by
  cases c with
  | mk r subs => cases subs <;> rfl

theorem update_offset_subs (c : chain) (no : Nat) :
    (c.update_offset no).subs = (c.setCurOffset no).subs := by
  cases c with
  | mk r subs => cases subs <;> rfl

theorem update_offset_rootOffset (c : chain) (no : Nat) :
    (c.update_offset no).root.offset = (c.setCurOffset no).root.offset := by
  cases c with
  | mk r subs => cases subs <;> rfl

theorem update_offset_rootLocked (c : chain) (no : Nat) :
    (c.update_offset no).root.locked = c.root.locked := by
  cases c with
  | mk r subs => cases subs <;> rfl

theorem update_offset_malloc (c : chain) (no : Nat) :
    (c.update_offset no).root.malloc = c.root.malloc := by
  cases c with
  | mk r subs => cases subs <;> rfl

theorem update_offset_rootLength (c : chain) (no : Nat) :
    (c.update_offset no).root.length = c.root.length := by
  cases c with
  | mk r subs => cases subs <;> rfl

theorem update_offset_curOffset (c : chain) (no : Nat) :
    (c.update_offset no).curOffset = no := by
  cases c with
  | mk r subs => cases subs <;> rfl

theorem update_offset_headerOffset (c : chain) (no : Nat) :
    (c.update_offset no).headerOffset = c.headerOffset := by
  cases c with
  | mk r subs =>
    cases subs with
    | nil => rfl
    | cons s rest => cases rest <;> rfl

theorem headerOffset_congr (c c2 : chain) (hs : c2.subs = c.subs)
    (ho : c2.root.offset = c.root.offset) :
    c2.headerOffset = c.headerOffset := by
  cases c with
  | mk r subs =>
    cases c2 with
    | mk r2 subs2 =>
      simp only at hs ho
      subst hs
      cases subs2 with
      | nil => rfl
      | cons s rest =>
        cases rest with
        | nil => simp only [chain.headerOffset, chain.parentOffset, ho]
        | cons p t => rfl

theorem curOffset_congr (c c2 : chain) (hs : c2.subs = c.subs)
    (ho : c2.root.offset = c.root.offset) :
    c2.curOffset = c.curOffset := by
  cases c with
  | mk r subs =>
    cases c2 with
    | mk r2 subs2 =>
      simp only at hs ho
      subst hs
      cases subs2 with
      | nil => simp only [chain.curOffset, ho]
      | cons s rest => rfl

theorem growTo_spec (c cg : chain) (required : Nat) (ok : Bool)
    (hb : c.root.buffer.length = c.root.length) (hc1 : 1 ≤ c.root.length)
    (h : c.growTo required ok = some cg) :
    cg.subs = c.subs ∧ cg.root.offset = c.root.offset ∧
    cg.root.locked = c.root.locked ∧ cg.root.malloc = c.root.malloc ∧
    c.root.length ≤ cg.root.length ∧ required ≤ cg.root.length ∧
    cg.root.buffer.length = cg.root.length ∧
    (∀ j, j < c.root.buffer.length →
      readB cg.root.buffer j = readB c.root.buffer j) := by
  rw [chain.growTo] at h
  by_cases hlt : c.root.length < required
  · rw [if_pos hlt] at h
    by_cases hm : c.root.malloc = true
    · rw [hm] at h
      cases ok with
      | false => simp at h
      | true =>
        simp only [Bool.not_true, Bool.false_eq_true, if_false, if_true,
          Option.some.injEq] at h
        have hge : required ≤ growLength c.root.length required :=
          growLength_ge _ _ hc1
        have hgG : c.root.length ≤ growLength c.root.length required := by
          omega
        subst h
        refine ⟨rfl, rfl, rfl, by simp [hm], hgG, hge, ?_, ?_⟩
        · simp only [List.length_append, List.length_replicate]
          omega
        · intro j hj
          exact readB_append_left _ _ j hj
    · simp only [Bool.not_eq_true] at hm
      rw [hm] at h
      simp at h
  · rw [if_neg hlt] at h
    simp only [Option.some.injEq] at h
    subst h
    exact ⟨rfl, rfl, rfl, rfl, le_refl _, by omega, hb, fun j _ => rfl⟩

/-- Full behaviour of a successful `add_element` call. -/
theorem add_element_spec (c : chain) (n : List Nat) (tag space : Nat)
    (ok : Bool) (c1 : chain) (dest : Nat) (hwf : chainWF c)
    (h : c.add_element n tag space ok = some (c1, dest)) :
    dest = c.curOffset + 2 + n.length ∧
    c1.subs = (c.setCurOffset (c.curOffset + n.length + 2 + space)).subs ∧
    c1.root.offset = (c.setCurOffset (c.curOffset + n.length + 2 + space)).root.offset ∧
    c1.root.locked = c.root.locked ∧ c1.root.malloc = c.root.malloc ∧
    c.root.length ≤ c1.root.length ∧
    c1.curOffset = c.curOffset + n.length + 2 + space ∧
    c1.headerOffset = c.headerOffset ∧
    chainWF c1 ∧
    (∀ j, j < c.headerOffset → readB c1.root.buffer j = readB c.root.buffer j) ∧
    (∀ j, c.headerOffset + 4 ≤ j → j < c.curOffset →
      readB c1.root.buffer j = readB c.root.buffer j) ∧
    covers c1.root.buffer c.curOffset (tag :: (n ++ [0])) ∧
    readB c1.root.buffer c1.curOffset = 0 ∧
    c.curLocked = false ∧ n ≠ [] := by
  rw [chain.add_element] at h
  by_cases hl : c.curLocked
  · rw [if_pos hl] at h
    simp at h
  · rw [if_neg hl] at h
    by_cases hn : n.length + 1 ≤ 1
    · rw [if_pos hn] at h
      simp at h
    · rw [if_neg hn] at h
      dsimp only [] at h
      have hne : n ≠ [] := by
        intro he
        rw [he] at hn
        simp at hn
      set o := c.curOffset with ho
      set req := o + 1 + (n.length + 1) + space + 1 + c.subs.length with hreq
      have hc1 : 1 ≤ c.root.length := by
        have := hwf.cap
        omega
      cases hg : c.growTo req ok with
      | none => rw [hg] at h; simp at h
      | some cg =>
        rw [hg] at h
        simp only [Option.some.injEq, Prod.mk.injEq] at h
        obtain ⟨hc1eq, hdest⟩ := h
        obtain ⟨gsubs, goff, glock, gmall, glen1, glen2, gblen, gread⟩ :=
          growTo_spec c cg req ok hwf.blen hc1 hg
        set hpos := c.headerOffset with hh
        set o1 := o + (n.length + 1) + 1 + space with ho1
        set cmid : chain :=
          ⟨{ cg.root with buffer := store cg.root.buffer o (tag :: (n ++ [0])) },
           cg.subs⟩ with hcmid
        have hc2 : cmid.update_offset o1 = c1 := hc1eq
        have hmidsubs : cmid.subs = c.subs := gsubs
        have hmidoff : cmid.root.offset = c.root.offset := goff
        have hmidhdr : cmid.headerOffset = hpos :=
          headerOffset_congr c cmid hmidsubs hmidoff
        have hmidcur : cmid.curOffset = o :=
          curOffset_congr c cmid hmidsubs hmidoff
        have hblen2 : cmid.root.buffer.length = cg.root.length := by
          show (store cg.root.buffer o (tag :: (n ++ [0]))).length = cg.root.length
          rw [store_length]
          exact gblen
        have hreqle : req ≤ cg.root.length := glen2
        have hhdro : hpos + 4 ≤ o := hwf.hdr
        have hcapo : o + 1 + c.subs.length ≤ c.root.length := hwf.cap
        have hmidlen : cmid.root.length = cg.root.length := rfl
        have ho1req : o1 + 1 + c.subs.length = req := by
          rw [ho1, hreq]
          omega
        -- the final buffer
        have hbuf1 : c1.root.buffer =
            store (store cmid.root.buffer hpos (le32 (o1 + 1 - hpos))) o1 [0] := by
          rw [← hc2, update_offset_buffer, hmidhdr]
        have hsubs1 : c1.subs = (c.setCurOffset o1).subs := by
          rw [← hc2, update_offset_subs, setCurOffset_subs, setCurOffset_subs,
            hmidsubs]
        have hroff1 : c1.root.offset = (c.setCurOffset o1).root.offset := by
          rw [← hc2, update_offset_rootOffset, setCurOffset_rootOffset,
            setCurOffset_rootOffset, hmidsubs]
          cases c.subs with
          | nil => rfl
          | cons s rest => exact hmidoff
        have hcur1 : c1.curOffset = o1 := by
          rw [← hc2, update_offset_curOffset]
        have hhdr1 : c1.headerOffset = hpos := by
          rw [← hc2, update_offset_headerOffset, hmidhdr]
        have hlen1 : c1.root.length = cg.root.length := by
          rw [← hc2, update_offset_rootLength, hmidlen]
        have hsublen1 : c1.subs.length = c.subs.length := by
          rw [hsubs1, setCurOffset_subsLength]
        have hmidbuf : cmid.root.buffer = store cg.root.buffer o (tag :: (n ++ [0])) :=
          rfl
        have hmidlock : cmid.root.locked = cg.root.locked := rfl
        have hmidmal : cmid.root.malloc = cg.root.malloc := rfl
        -- byte-level facts; drop the local definitions so that omega works
        -- with the recorded equations only
        clear_value cmid o1 req hpos o
        have hb1len : c1.root.buffer.length = cg.root.length := by
          rw [hbuf1, store_length, store_length, hblen2]
        have hreads : ∀ j, j < o1 →
            readB c1.root.buffer j = readB (store cmid.root.buffer hpos
              (le32 (o1 + 1 - hpos))) j := by
          intro j hj
          rw [hbuf1]
          exact readB_store_out (store cmid.root.buffer hpos (le32 (o1 + 1 - hpos)))
            o1 [0] j (Or.inl hj)
        have hreads2 : ∀ j, j < hpos ∨ hpos + 4 ≤ j →
            readB (store cmid.root.buffer hpos (le32 (o1 + 1 - hpos))) j =
              readB cmid.root.buffer j := by
          intro j hj
          exact readB_store_out cmid.root.buffer hpos (le32 (o1 + 1 - hpos)) j
            (by rw [le32_length]; omega)
        have hmread : ∀ j, j < c.root.buffer.length → j < o ∨ o + (n.length + 2) ≤ j →
            readB cmid.root.buffer j = readB c.root.buffer j := by
          intro j hj hj2
          rw [hmidbuf]
          rw [readB_store_out cg.root.buffer o (tag :: (n ++ [0])) j (by simp; omega)]
          exact gread j hj
        have hlow : ∀ j, j < hpos → readB c1.root.buffer j = readB c.root.buffer j := by
          intro j hj
          rw [hreads j (by omega), hreads2 j (Or.inl hj)]
          exact hmread j (by rw [hwf.blen]; omega) (Or.inl (by omega))
        have hmid2 : ∀ j, hpos + 4 ≤ j → j < o →
            readB c1.root.buffer j = readB c.root.buffer j := by
          intro j hj1 hj2
          rw [hreads j (by omega), hreads2 j (Or.inr hj1)]
          exact hmread j (by rw [hwf.blen]; omega) (Or.inl hj2)
        have hcontent : covers c1.root.buffer o (tag :: (n ++ [0])) := by
          have hinner : covers cmid.root.buffer o (tag :: (n ++ [0])) := by
            rw [hmidbuf]
            exact covers_store_self cg.root.buffer o (tag :: (n ++ [0]))
              (by simp [gblen]; omega)
          apply covers_of_unchanged _ _ _ _ hinner
          intro j hj1 hj2
          have hj3 : j < o + (n.length + 2) := by
            simp only [List.length_cons, List.length_append,
              List.length_singleton, List.length_nil] at hj2
            omega
          rw [hreads j (by omega), hreads2 j (Or.inr (by omega))]
        have hterm1 : readB c1.root.buffer o1 = 0 := by
          rw [hbuf1]
          rw [readB_store_in (store cmid.root.buffer hpos (le32 (o1 + 1 - hpos)))
            o1 [0] o1 (le_refl o1) (by simp) (by rw [store_length, hblen2]; omega)]
          simp
        have hhdrB : covers c1.root.buffer hpos (le32 (o1 + 1 - hpos)) := by
          have hinner : covers (store cmid.root.buffer hpos (le32 (o1 + 1 - hpos)))
              hpos (le32 (o1 + 1 - hpos)) :=
            covers_store_self cmid.root.buffer hpos (le32 (o1 + 1 - hpos))
              (by rw [le32_length, hblen2]; omega)
          apply covers_of_unchanged _ _ _ _ hinner
          intro j hj1 hj2
          rw [le32_length] at hj2
          exact hreads j (by omega)
        refine ⟨by omega, ?_, ?_, ?_, ?_, ?_, ?_, ?_, ?_, ?_, ?_, ?_, ?_, by simpa using hl, hne⟩
        · have heq : o1 = o + n.length + 2 + space := by omega
          rw [hsubs1, heq]
        · have heq : o1 = o + n.length + 2 + space := by omega
          rw [hroff1, heq]
        · rw [← hc2, update_offset_rootLocked, hmidlock]
          exact glock
        · rw [← hc2, update_offset_malloc, hmidmal]
          exact gmall
        · rw [hlen1]
          exact glen1
        · rw [hcur1]
          omega
        · rw [hhdr1]
        · exact {
            blen := by rw [hb1len, hlen1]
            cap := by rw [hcur1, hsublen1, hlen1]; omega
            hdr := by rw [hhdr1, hcur1]; omega
            hdrBytes := by rw [hhdr1, hcur1]; exact hhdrB
            term := by rw [hcur1]; exact hterm1 }
        · exact hlow
        · exact hmid2
        · exact hcontent
        · rw [hcur1]
          exact hterm1

theorem shape_curOffset (c c2 : chain) (X : Nat)
    (hs : c2.subs = (c.setCurOffset X).subs)
    (ho : c2.root.offset = (c.setCurOffset X).root.offset) :
    c2.curOffset = X := by
  have h := curOffset_congr (c.setCurOffset X) c2 hs ho
  rw [h, setCurOffset_curOffset]

theorem shape_headerOffset (c c2 : chain) (X : Nat)
    (hs : c2.subs = (c.setCurOffset X).subs)
    (ho : c2.root.offset = (c.setCurOffset X).root.offset) :
    c2.headerOffset = c.headerOffset := by
  have h := headerOffset_congr (c.setCurOffset X) c2 hs ho
  rw [h, setCurOffset_headerOffset]

theorem subs_eq_from (c c2 : chain) (X : Nat)
    (h : c2.subs = (c.setCurOffset X).subs) (Y : Nat) :
    (c2.setCurOffset Y).subs = (c.setCurOffset Y).subs := by
  rw [setCurOffset_subs, setCurOffset_subs, h, setCurOffset_subs]
  cases c.subs <;> rfl

theorem rootOffset_eq_from (c c2 : chain) (X : Nat)
    (hs : c2.subs = (c.setCurOffset X).subs)
    (ho : c2.root.offset = (c.setCurOffset X).root.offset) (Y : Nat) :
    (c2.setCurOffset Y).root.offset = (c.setCurOffset Y).root.offset := by
  rw [setCurOffset_rootOffset, setCurOffset_rootOffset]
  rw [setCurOffset_subs] at hs
  rw [setCurOffset_rootOffset] at ho
  cases hc : c.subs with
  | nil =>
    rw [hc] at hs
    rw [hs]
  | cons s rest =>
    rw [hc] at hs ho
    rw [hs, ho]

/-- Invariant describing one or more appends through the innermost
writer: chain shape is preserved with the offset advanced by the emitted
bytes, the bytes appear at the old offset followed by the terminator, the
innermost header is rewritten, and everything below the header and between
header and old offset is untouched. -/
structure writeStepSpec (c c2 : chain) (bytes : List Nat) : Prop where
  wf : chainWF c2
  subs_eq : c2.subs = (c.setCurOffset (c.curOffset + bytes.length)).subs
  rootOffset_eq : c2.root.offset =
    (c.setCurOffset (c.curOffset + bytes.length)).root.offset
  rootLocked_eq : c2.root.locked = c.root.locked
  malloc_eq : c2.root.malloc = c.root.malloc
  len_mono : c.root.length ≤ c2.root.length
  lowFrame : ∀ j, j < c.headerOffset →
    readB c2.root.buffer j = readB c.root.buffer j
  midFrame : ∀ j, c.headerOffset + 4 ≤ j → j < c.curOffset →
    readB c2.root.buffer j = readB c.root.buffer j
  content : covers c2.root.buffer c.curOffset bytes

theorem writeStepSpec.curOffset_eq (c c2 : chain) (bytes : List Nat)
    (h : writeStepSpec c c2 bytes) :
    c2.curOffset = c.curOffset + bytes.length :=
  shape_curOffset c c2 _ h.subs_eq h.rootOffset_eq

theorem writeStepSpec.headerOffset_eq (c c2 : chain) (bytes : List Nat)
    (h : writeStepSpec c c2 bytes) : c2.headerOffset = c.headerOffset :=
  shape_headerOffset c c2 _ h.subs_eq h.rootOffset_eq

theorem writeStepSpec.subsLength_eq (c c2 : chain) (bytes : List Nat)
    (h : writeStepSpec c c2 bytes) : c2.subs.length = c.subs.length := by
  rw [h.subs_eq, setCurOffset_subsLength]

theorem writeStepSpec.header (c c2 : chain) (bytes : List Nat)
    (h : writeStepSpec c c2 bytes) :
    covers c2.root.buffer c.headerOffset
      (le32 (c.curOffset + bytes.length + 1 - c.headerOffset)) := by
  have h1 := h.wf.hdrBytes
  rw [writeStepSpec.headerOffset_eq c c2 bytes h,
    writeStepSpec.curOffset_eq c c2 bytes h] at h1
  exact h1

theorem writeStepSpec.terminator (c c2 : chain) (bytes : List Nat)
    (h : writeStepSpec c c2 bytes) :
    readB c2.root.buffer (c.curOffset + bytes.length) = 0 := by
  have h1 := h.wf.term
  rw [writeStepSpec.curOffset_eq c c2 bytes h] at h1
  exact h1

theorem writeStepSpec.self (c : chain) (hwf : chainWF c) :
    writeStepSpec c c [] where
  wf := hwf
  subs_eq := by
    cases c with
    | mk r subs => cases subs <;> rfl
  rootOffset_eq := by
    cases c with
    | mk r subs => cases subs <;> rfl
  rootLocked_eq := rfl
  malloc_eq := rfl
  len_mono := le_refl _
  lowFrame := fun j _ => rfl
  midFrame := fun j _ _ => rfl
  content := by
    intro j hj
    simp at hj

theorem writeStepSpec.trans (c c1 c2 : chain) (b1 b2 : List Nat)
    (hwf : chainWF c) (h1 : writeStepSpec c c1 b1)
    (h2 : writeStepSpec c1 c2 b2) : writeStepSpec c c2 (b1 ++ b2) := by
  have hcur1 := writeStepSpec.curOffset_eq c c1 b1 h1
  have hcur2 := writeStepSpec.curOffset_eq c1 c2 b2 h2
  have hhdr1 := writeStepSpec.headerOffset_eq c c1 b1 h1
  have hhdr2 := writeStepSpec.headerOffset_eq c1 c2 b2 h2
  refine {
    wf := h2.wf
    subs_eq := ?_
    rootOffset_eq := ?_
    rootLocked_eq := by rw [h2.rootLocked_eq, h1.rootLocked_eq]
    malloc_eq := by rw [h2.malloc_eq, h1.malloc_eq]
    len_mono := le_trans h1.len_mono h2.len_mono
    lowFrame := ?_
    midFrame := ?_
    content := ?_ }
  · have hs := subs_eq_from c c1 _ h1.subs_eq (c.curOffset + (b1 ++ b2).length)
    rw [← hs]
    have h3 := h2.subs_eq
    rw [hcur1] at h3
    have harg : c.curOffset + b1.length + b2.length =
        c.curOffset + (b1 ++ b2).length := by
      simp
      omega
    rw [h3, harg]
  · have hs := rootOffset_eq_from c c1 _ h1.subs_eq h1.rootOffset_eq
      (c.curOffset + (b1 ++ b2).length)
    rw [← hs]
    have h3 := h2.rootOffset_eq
    rw [hcur1] at h3
    have harg : c.curOffset + b1.length + b2.length =
        c.curOffset + (b1 ++ b2).length := by
      simp
      omega
    rw [h3, harg]
  · intro j hj
    have hf2 := h2.lowFrame j (by rw [hhdr1]; omega)
    rw [hf2]
    exact h1.lowFrame j hj
  · intro j hj1 hj2
    have hf2 := h2.midFrame j (by rw [hhdr1]; omega) (by rw [hcur1]; omega)
    rw [hf2]
    exact h1.midFrame j hj1 hj2
  · rw [covers_append]
    constructor
    · apply covers_of_unchanged _ _ _ _ h1.content
      intro j hj1 hj2
      have h4 : c.headerOffset + 4 ≤ j := by
        have h5 := hwf.hdr
        omega
      exact h2.midFrame j (by rw [hhdr1]; omega) (by rw [hcur1]; omega)
    · have hc := h2.content
      rw [hcur1] at hc
      exact hc

theorem add_payload_spec (c c1 : chain) (n : List Nat) (tag space : Nat)
    (ok : Bool) (dest : Nat) (pl : List Nat) (hwf : chainWF c)
    (h : c.add_element n tag space ok = some (c1, dest))
    (hlen : pl.length = space) :
    writeStepSpec c (c1.payload dest pl) (tag :: (n ++ [0] ++ pl)) := by
  obtain ⟨hdest, hsubs, hroff, hlock, hmall, hlenm, hcur, hhdr, hwf1, hlow,
    hmid, hcontent, hterm, hunlocked, hne⟩ := add_element_spec c n tag space ok c1 dest hwf h
  have hblen1 : c1.root.buffer.length = c1.root.length := hwf1.blen
  have hcap1 : c1.curOffset + 1 + c1.subs.length ≤ c1.root.length := hwf1.cap
  have hhdro : c.headerOffset + 4 ≤ c.curOffset := hwf.hdr
  have hbytes : (tag :: (n ++ [0] ++ pl)).length = n.length + 2 + space := by
    simp [hlen]
    omega
  have hpbuf : (c1.payload dest pl).root.buffer = store c1.root.buffer dest pl := rfl
  have hpsubs : (c1.payload dest pl).subs = c1.subs := rfl
  have hproff : (c1.payload dest pl).root.offset = c1.root.offset := rfl
  have hprl : (c1.payload dest pl).root.locked = c1.root.locked := rfl
  have hprm : (c1.payload dest pl).root.malloc = c1.root.malloc := rfl
  have hprlen : (c1.payload dest pl).root.length = c1.root.length := rfl
  have hpcur : (c1.payload dest pl).curOffset = c1.curOffset :=
    curOffset_congr c1 (c1.payload dest pl) hpsubs hproff
  have hphdr : (c1.payload dest pl).headerOffset = c1.headerOffset :=
    headerOffset_congr c1 (c1.payload dest pl) hpsubs hproff
  have hout : ∀ j, j < dest ∨ dest + space ≤ j →
      readB (c1.payload dest pl).root.buffer j = readB c1.root.buffer j := by
    intro j hj
    rw [hpbuf]
    exact readB_store_out c1.root.buffer dest pl j (by omega)
  refine {
    wf := ?_
    subs_eq := ?_
    rootOffset_eq := ?_
    rootLocked_eq := by rw [hprl, hlock]
    malloc_eq := by rw [hprm, hmall]
    len_mono := by rw [hprlen]; exact hlenm
    lowFrame := ?_
    midFrame := ?_
    content := ?_ }
  · refine {
      blen := by rw [hpbuf, store_length, hblen1, hprlen]
      cap := by rw [hpcur, hprlen, hpsubs]; exact hcap1
      hdr := by rw [hpcur, hphdr]; exact hwf1.hdr
      hdrBytes := ?_
      term := ?_ }
    · rw [hpcur, hphdr]
      apply covers_of_unchanged _ _ _ _ hwf1.hdrBytes
      intro j hj1 hj2
      rw [le32_length] at hj2
      rw [hhdr] at hj1 hj2
      exact hout j (Or.inl (by omega))
    · rw [hpcur]
      rw [hout c1.curOffset (Or.inr (by omega))]
      exact hwf1.term
  · rw [hpsubs, hsubs, hbytes,
      show c.curOffset + (n.length + 2 + space) = c.curOffset + n.length + 2 + space
        by omega]
  · rw [hproff, hroff, hbytes,
      show c.curOffset + (n.length + 2 + space) = c.curOffset + n.length + 2 + space
        by omega]
  · intro j hj
    rw [hout j (Or.inl (by omega))]
    exact hlow j hj
  · intro j hj1 hj2
    rw [hout j (Or.inl (by omega))]
    exact hmid j hj1 hj2
  · have hsplit : tag :: (n ++ [0] ++ pl) = (tag :: (n ++ [0])) ++ pl := by
      simp
    rw [hsplit, covers_append]
    constructor
    · apply covers_of_unchanged _ _ _ _ hcontent
      intro j hj1 hj2
      simp only [List.length_cons, List.length_append, List.length_singleton,
        List.length_nil] at hj2
      exact hout j (Or.inl (by omega))
    · have hdst : c.curOffset + (tag :: (n ++ [0])).length = dest := by
        simp
        omega
      rw [hdst]
      apply covers_of_unchanged (store c1.root.buffer dest pl) _ _ _ ?_ ?_
      · exact covers_store_self c1.root.buffer dest pl (by omega)
      · intro j hj1 hj2
        rfl

theorem lockCur_subs (c : chain) :
    c.lockCur.subs =
      match c.subs with
      | [] => []
      | s :: rest => { s with locked := true } :: rest := by
  cases c with
  | mk r subs => cases subs <;> rfl

theorem lockCur_root (c : chain) :
    c.lockCur.root =
      match c.subs with
      | [] => { c.root with locked := true }
      | _ :: _ => c.root := by
  cases c with
  | mk r subs => cases subs <;> rfl

theorem dtorInner_sub_nil (r : rootw) (s : subw) (hs : s.locked = false) :
    chain.dtorInner ⟨r, [s]⟩ =
      (⟨{ r with locked := false }, []⟩ : chain).update_offset (s.offset + 1) := by
  simp [chain.dtorInner, hs]

theorem dtorInner_sub_cons (r : rootw) (s p : subw) (t : List subw)
    (hs : s.locked = false) :
    chain.dtorInner ⟨r, s :: p :: t⟩ =
      (⟨r, { p with locked := false } :: t⟩ : chain).update_offset
        (s.offset + 1) := by
  simp [chain.dtorInner, hs]

theorem curOffset_eq_nil (c : chain) (h : c.subs = []) :
    c.curOffset = c.root.offset := by
  cases c with
  | mk r s =>
    simp only at h
    subst h
    rfl

theorem curOffset_eq_cons (c : chain) (s : subw) (t : List subw)
    (h : c.subs = s :: t) : c.curOffset = s.offset := by
  cases c with
  | mk r s2 =>
    simp only at h
    subst h
    rfl

theorem parentOffset_cons (r : rootw) (s : subw) (t : List subw) :
    chain.parentOffset ⟨r, s :: t⟩ =
      match t with
      | [] => r.offset
      | p :: _ => p.offset := by
  cases t <;> rfl

theorem headerOffset_cons (r : rootw) (s : subw) (t : List subw) :
    chain.headerOffset ⟨r, s :: t⟩ = chain.parentOffset ⟨r, s :: t⟩ - 5 := by
  cases t <;> rfl

theorem lockCur_roff (c : chain) : c.lockCur.root.offset = c.root.offset := by
  cases c with
  | mk r s => cases s <;> rfl

theorem lockCur_rootLocked (c : chain) :
    c.lockCur.root.locked = (if c.subs.isEmpty then true else c.root.locked) := by
  cases c with
  | mk r s => cases s <;> rfl

theorem setCurOffset_isEmpty (c : chain) (o : Nat) :
    (c.setCurOffset o).subs.isEmpty = c.subs.isEmpty := by
  cases c with
  | mk r s => cases s <;> rfl

theorem add_subdocument_spec (c c3 : chain) (n : List Nat) (tg : Nat)
    (ok : Bool) (hwf : chainWF c) (h : c.add_subdocument n tg ok = some c3) :
    ∃ dest, dest = c.curOffset + 2 + n.length ∧
    chainWF c3 ∧
    c3.curOffset = dest + 4 ∧
    c3.headerOffset = dest ∧
    c3.subs = ⟨dest + 4, false⟩ :: ((c.setCurOffset (dest + 5)).lockCur).subs ∧
    c3.root.offset = ((c.setCurOffset (dest + 5)).lockCur).root.offset ∧
    c3.root.locked = ((c.setCurOffset (dest + 5)).lockCur).root.locked ∧
    c3.root.malloc = c.root.malloc ∧
    c.root.length ≤ c3.root.length ∧
    c3.root.buffer.length = c3.root.length ∧
    (dest + 5) + 1 + c.subs.length ≤ c3.root.length ∧
    (∀ j, j < c.headerOffset → readB c3.root.buffer j = readB c.root.buffer j) ∧
    (∀ j, c.headerOffset + 4 ≤ j → j < c.curOffset →
      readB c3.root.buffer j = readB c.root.buffer j) ∧
    covers c3.root.buffer c.curOffset (tg :: (n ++ [0])) ∧
    c.curLocked = false ∧ n ≠ [] := by
  rw [chain.add_subdocument] at h
  cases hadd : c.add_element n tg 5 ok with
  | none => rw [hadd] at h; simp at h
  | some pr =>
    obtain ⟨c1, dest⟩ := pr
    rw [hadd] at h
    simp only [Option.some.injEq] at h
    obtain ⟨hdest, hsubs, hroff, hlock, hmall, hlenm, hcur, hhdr, hwf1, hlow,
      hmid, hcontent, hterm, hunlocked, hne⟩ :=
      add_element_spec c n tg 5 ok c1 dest hwf hadd
    have hhdro : c.headerOffset + 4 ≤ c.curOffset := hwf.hdr
    have hblen1 : c1.root.buffer.length = c1.root.length := hwf1.blen
    have hcap1 : c1.curOffset + 1 + c1.subs.length ≤ c1.root.length := hwf1.cap
    have hsublen1 : c1.subs.length = c.subs.length := by
      rw [hsubs, setCurOffset_subsLength]
    have hone : c1.curOffset = dest + 5 := by omega
    have ho1d : c.curOffset + n.length + 2 + 5 = dest + 5 := by omega
    have hbound : dest + 5 + 1 + c.subs.length ≤ c1.root.length := by
      rw [← hsublen1]
      omega
    set c2 : chain := ⟨{ c1.root with
      buffer := store (store c1.root.buffer dest (le32 5)) (dest + 4) [0] },
      c1.subs⟩ with hc2def
    have hc3 : (⟨c2.lockCur.root,
        (⟨c2.curOffset - 1, false⟩ : subw) :: c2.lockCur.subs⟩ : chain) = c3 := h
    have hc2buf : c2.root.buffer =
        store (store c1.root.buffer dest (le32 5)) (dest + 4) [0] := rfl
    have hc2subs : c2.subs = c1.subs := rfl
    have hc2roff : c2.root.offset = c1.root.offset := rfl
    have hc2rlock : c2.root.locked = c1.root.locked := rfl
    have hc2rmal : c2.root.malloc = c1.root.malloc := rfl
    have hc2rlen : c2.root.length = c1.root.length := rfl
    have hc2cur : c2.curOffset = c1.curOffset :=
      curOffset_congr c1 c2 hc2subs hc2roff
    have hc2blen : c2.root.buffer.length = c1.root.length := by
      rw [hc2buf, store_length, store_length, hblen1]
    have hb2read : ∀ j, j < dest ∨ dest + 5 ≤ j →
        readB c2.root.buffer j = readB c1.root.buffer j := by
      intro j hj
      rw [hc2buf, readB_store_out _ _ _ _ (by simp; omega),
        readB_store_out _ _ _ _ (by rw [le32_length]; omega)]
    have hb2ple : covers c2.root.buffer dest (le32 5) := by
      rw [hc2buf]
      apply covers_of_unchanged _ _ _ _
        (covers_store_self c1.root.buffer dest (le32 5)
          (by rw [le32_length, hblen1]; omega))
      intro j hj1 hj2
      rw [le32_length] at hj2
      exact readB_store_out _ _ _ _ (by simp; omega)
    have hb2pz : readB c2.root.buffer (dest + 4) = 0 := by
      rw [hc2buf, readB_store_in _ _ _ _ (le_refl _) (by simp)
        (by rw [store_length, hblen1]; omega)]
      simp
    have hLbuf : c2.lockCur.root.buffer = c2.root.buffer := by
      rw [lockCur_root]
      cases c2.subs <;> rfl
    have hLlen : c2.lockCur.root.length = c2.root.length := by
      rw [lockCur_root]
      cases c2.subs <;> rfl
    have hLoff : c2.lockCur.root.offset = c2.root.offset := by
      rw [lockCur_root]
      cases c2.subs <;> rfl
    have hLmal : c2.lockCur.root.malloc = c2.root.malloc := by
      rw [lockCur_root]
      cases c2.subs <;> rfl
    have hLsublen : c2.lockCur.subs.length = c2.subs.length := by
      rw [lockCur_subs]
      cases c2.subs <;> rfl
    -- projections of the result chain
    have hc3subs0 : c3.subs = ⟨c2.curOffset - 1, false⟩ :: c2.lockCur.subs := by
      rw [← hc3]
    have hc3root : c3.root = c2.lockCur.root := by
      rw [← hc3]
    have hc3buf : c3.root.buffer = c2.root.buffer := by
      rw [hc3root, hLbuf]
    have hc3cur : c3.curOffset = c2.curOffset - 1 :=
      curOffset_eq_cons c3 _ _ hc3subs0
    have hc3cur4 : c3.curOffset = dest + 4 := by
      rw [hc3cur]
      omega
    have hpar : chain.parentOffset ⟨c2.lockCur.root,
        (⟨c2.curOffset - 1, false⟩ : subw) :: c2.lockCur.subs⟩ = c1.curOffset := by
      cases hc1s : c1.subs with
      | nil =>
        rw [parentOffset_cons, lockCur_subs, hc2subs, hc1s]
        rw [curOffset_eq_nil c1 hc1s, hLoff, hc2roff]
      | cons p t =>
        rw [parentOffset_cons, lockCur_subs, hc2subs, hc1s]
        rw [curOffset_eq_cons c1 p t hc1s]
    have hc3hdr : c3.headerOffset = dest := by
      rw [← hc3, headerOffset_cons, hpar]
      omega
    have hc3sublen : c3.subs.length = c.subs.length + 1 := by
      rw [hc3subs0, List.length_cons, hLsublen, hc2subs, hsublen1]
    have hc3len : c3.root.length = c1.root.length := by
      rw [hc3root, hLlen, hc2rlen]
    have hc3blen : c3.root.buffer.length = c3.root.length := by
      rw [hc3buf, hc2blen, hc3len]
    refine ⟨dest, hdest, ?_, hc3cur4, hc3hdr, ?_, ?_, ?_, ?_, ?_, hc3blen, ?_,
      ?_, ?_, ?_, hunlocked, hne⟩
    · refine {
        blen := hc3blen
        cap := by rw [hc3cur4, hc3sublen, hc3len]; omega
        hdr := by rw [hc3hdr, hc3cur4]
        hdrBytes := ?_
        term := by rw [hc3buf, hc3cur4]; exact hb2pz }
      rw [hc3buf, hc3hdr, hc3cur4, show dest + 4 + 1 - dest = 5 by omega]
      exact hb2ple
    · -- subs shape
      have hco : c2.curOffset - 1 = dest + 4 := by omega
      rw [hc3subs0, hco, lockCur_subs, lockCur_subs, hc2subs, hsubs,
        setCurOffset_subs, setCurOffset_subs]
      cases hcs : c.subs with
      | nil => simp
      | cons s t =>
        simp only []
        rw [ho1d]
    · -- root offset shape
      rw [hc3root, hLoff, hc2roff, hroff, ho1d, lockCur_roff]
    · -- root locked shape
      have hise : c2.subs.isEmpty = c.subs.isEmpty := by
        rw [hc2subs, hsubs, setCurOffset_isEmpty]
      rw [hc3root, lockCur_rootLocked, lockCur_rootLocked, hise,
        setCurOffset_isEmpty, setCurOffset_rootLocked, hc2rlock, hlock]
    · rw [hc3root, hLmal, hc2rmal, hmall]
    · rw [hc3len]
      exact hlenm
    · rw [hc3len]
      exact hbound
    · intro j hj
      rw [hc3buf, hb2read j (Or.inl (by omega))]
      exact hlow j hj
    · intro j hj1 hj2
      rw [hc3buf, hb2read j (Or.inl (by omega))]
      exact hmid j hj1 hj2
    · rw [hc3buf]
      apply covers_of_unchanged _ _ _ _ hcontent
      intro j hj1 hj2
      simp only [List.length_cons, List.length_append, List.length_singleton,
        List.length_nil] at hj2
      exact hb2read j (Or.inl (by omega))

theorem setCurOffset_subs_nil (c : chain) (o : Nat) (h : c.subs = []) :
    (c.setCurOffset o).subs = [] := by
  rw [setCurOffset_subs, h]

theorem setCurOffset_subs_cons (c : chain) (s : subw) (t : List subw) (o : Nat)
    (h : c.subs = s :: t) :
    (c.setCurOffset o).subs = { s with offset := o } :: t := by
  rw [setCurOffset_subs, h]

theorem setCurOffset_rootOffset_nil (c : chain) (o : Nat) (h : c.subs = []) :
    (c.setCurOffset o).root.offset = o := by
  rw [setCurOffset_rootOffset, h]

theorem setCurOffset_rootOffset_cons (c : chain) (s : subw) (t : List subw)
    (o : Nat) (h : c.subs = s :: t) :
    (c.setCurOffset o).root.offset = c.root.offset := by
  rw [setCurOffset_rootOffset, h]

theorem headerOffset_eq_nil (c : chain) (h : c.subs = []) :
    c.headerOffset = 0 := by
  cases c with
  | mk r s =>
    simp only at h
    subst h
    rfl

theorem headerOffset_eq_cons_nil (c : chain) (s : subw) (h : c.subs = [s]) :
    c.headerOffset = c.root.offset - 5 := by
  cases c with
  | mk r s2 =>
    simp only at h
    subst h
    rfl

theorem headerOffset_eq_cons_cons (c : chain) (s p : subw) (t : List subw)
    (h : c.subs = s :: p :: t) : c.headerOffset = p.offset - 5 := by
  cases c with
  | mk r s2 =>
    simp only at h
    subst h
    rfl

theorem curLocked_eq_nil (c : chain) (h : c.subs = []) :
    c.curLocked = c.root.locked := by
  cases c with
  | mk r s =>
    simp only at h
    subst h
    rfl

theorem curLocked_eq_cons (c : chain) (s : subw) (t : List subw)
    (h : c.subs = s :: t) : c.curLocked = s.locked := by
  cases c with
  | mk r s2 =>
    simp only at h
    subst h
    rfl

theorem lockCur_subsLength (c : chain) :
    c.lockCur.subs.length = c.subs.length := by
  cases c with
  | mk r s => cases s <;> rfl

/-- Assembly step for closing a subdocument: from the facts of
`add_subdocument_spec`, a `writeStepSpec` for the child writes, and a
description of the chain after the child destructor ran, the whole
open-write-close protocol is one `writeStepSpec` of the serialized
document element. -/
theorem dtorAssemble (c c3 c4 F : chain) (n : List Nat) (tg : Nat)
    (sf : List Nat) (dest : Nat) (hwf : chainWF c)
    (hdest : dest = c.curOffset + 2 + n.length)
    (hcur3 : c3.curOffset = dest + 4)
    (hhdr3 : c3.headerOffset = dest)
    (hsubs3 : c3.subs = (⟨dest + 4, false⟩ : subw) ::
      ((c.setCurOffset (dest + 5)).lockCur).subs)
    (hmal3 : c3.root.malloc = c.root.malloc)
    (hlen3 : c.root.length ≤ c3.root.length)
    (hlow3 : ∀ j, j < c.headerOffset →
      readB c3.root.buffer j = readB c.root.buffer j)
    (hmid3 : ∀ j, c.headerOffset + 4 ≤ j → j < c.curOffset →
      readB c3.root.buffer j = readB c.root.buffer j)
    (hcont3 : covers c3.root.buffer c.curOffset (tg :: (n ++ [0])))
    (h34 : writeStepSpec c3 c4 sf)
    (hFbuf : F.root.buffer = store (store c4.root.buffer c.headerOffset
      (le32 (dest + 4 + sf.length + 1 + 1 - c.headerOffset)))
      (dest + 4 + sf.length + 1) [0])
    (hFsubs : F.subs = (c.setCurOffset (dest + 4 + sf.length + 1)).subs)
    (hFroff : F.root.offset =
      (c.setCurOffset (dest + 4 + sf.length + 1)).root.offset)
    (hFrlock : F.root.locked = c.root.locked)
    (hFmal : F.root.malloc = c4.root.malloc)
    (hFlen : F.root.length = c4.root.length) :
    writeStepSpec c F
      (tg :: (n ++ [0] ++ (le32 (5 + sf.length) ++ sf ++ [0]))) := by
  have hwf4 := h34.wf
  have hcur4 : c4.curOffset = dest + 4 + sf.length := by
    rw [writeStepSpec.curOffset_eq c3 c4 sf h34, hcur3]
  have hhdr4 : c4.headerOffset = dest := by
    rw [writeStepSpec.headerOffset_eq c3 c4 sf h34, hhdr3]
  have hsublen4 : c4.subs.length = c3.subs.length :=
    writeStepSpec.subsLength_eq c3 c4 sf h34
  have hsublen3 : c3.subs.length = c.subs.length + 1 := by
    rw [hsubs3, List.length_cons, lockCur_subsLength, setCurOffset_subsLength]
  have hhh : c.headerOffset + 4 ≤ c.curOffset := hwf.hdr
  have hcd : c.curOffset + 2 ≤ dest := by omega
  have hblen4 : c4.root.buffer.length = c4.root.length := hwf4.blen
  have hcapF : dest + 4 + sf.length + 1 + 1 + c.subs.length ≤ c4.root.length := by
    have h1 := hwf4.cap
    rw [hcur4, hsublen4, hsublen3] at h1
    omega
  have hbl : (tg :: (n ++ [0] ++ (le32 (5 + sf.length) ++ sf ++ [0]))).length
      = n.length + 7 + sf.length := by
    simp only [List.length_cons, List.length_append, le32_length,
      List.length_singleton, List.length_nil]
    omega
  have hX : c.curOffset + (n.length + 7 + sf.length)
      = dest + 4 + sf.length + 1 := by
    omega
  have hFread : ∀ j, (j < c.headerOffset ∨
      (c.headerOffset + 4 ≤ j ∧ j < dest + 4 + sf.length + 1)) →
      readB F.root.buffer j = readB c4.root.buffer j := by
    intro j hj
    rw [hFbuf]
    rcases hj with hj | ⟨hj1, hj2⟩
    · rw [readB_store_out _ _ _ _ (Or.inl (by omega)),
        readB_store_out _ _ _ _ (Or.inl hj)]
    · rw [readB_store_out _ _ _ _ (Or.inl (by omega)),
        readB_store_out _ _ _ _ (Or.inr (by rw [le32_length]; omega))]
  have hFcur : F.curOffset = dest + 4 + sf.length + 1 :=
    shape_curOffset c F _ hFsubs hFroff
  have hFhdr : F.headerOffset = c.headerOffset :=
    shape_headerOffset c F _ hFsubs hFroff
  have hFsublen : F.subs.length = c.subs.length := by
    rw [hFsubs, setCurOffset_subsLength]
  have hFblen : F.root.buffer.length = F.root.length := by
    rw [hFbuf, store_length, store_length, hblen4, hFlen]
  refine {
    wf := ?_
    subs_eq := by rw [hbl, hX, hFsubs]
    rootOffset_eq := by rw [hbl, hX, hFroff]
    rootLocked_eq := hFrlock
    malloc_eq := by rw [hFmal, h34.malloc_eq, hmal3]
    len_mono := by rw [hFlen]; exact le_trans hlen3 h34.len_mono
    lowFrame := ?_
    midFrame := ?_
    content := ?_ }
  · refine {
      blen := hFblen
      cap := by rw [hFcur, hFsublen, hFlen]; omega
      hdr := by rw [hFhdr, hFcur]; omega
      hdrBytes := ?_
      term := ?_ }
    · rw [hFhdr, hFcur, hFbuf]
      apply covers_of_unchanged _ _ _ _
        (covers_store_self c4.root.buffer c.headerOffset _
          (by rw [le32_length, hblen4]; omega))
      intro j hj1 hj2
      rw [le32_length] at hj2
      exact readB_store_out _ _ _ _ (Or.inl (by omega))
    · rw [hFcur, hFbuf]
      rw [readB_store_in _ _ _ _ (le_refl _) (by simp)
        (by rw [store_length, hblen4]; omega)]
      simp
  · intro j hj
    rw [hFread j (Or.inl hj)]
    rw [h34.lowFrame j (by rw [hhdr3]; omega)]
    exact hlow3 j hj
  · intro j hj1 hj2
    rw [hFread j (Or.inr ⟨hj1, by omega⟩)]
    rw [h34.lowFrame j (by rw [hhdr3]; omega)]
    exact hmid3 j hj1 hj2
  · have hsplit : tg :: (n ++ [0] ++ (le32 (5 + sf.length) ++ sf ++ [0]))
        = (tg :: (n ++ [0])) ++ (le32 (5 + sf.length) ++ (sf ++ [0])) := by
      simp
    rw [hsplit, covers_append]
    constructor
    · apply covers_of_unchanged _ _ _ _ hcont3
      intro j hj1 hj2
      simp only [List.length_cons, List.length_append,
        List.length_singleton, List.length_nil] at hj2
      have e1 : readB F.root.buffer j = readB c4.root.buffer j :=
        hFread j (Or.inr ⟨by omega, by omega⟩)
      have e2 : readB c4.root.buffer j = readB c3.root.buffer j :=
        h34.lowFrame j (by rw [hhdr3]; omega)
      rw [e1, e2]
    · have hoff : c.curOffset + (tg :: (n ++ [0])).length = dest := by
        simp only [List.length_cons, List.length_append, List.length_singleton,
          List.length_nil]
        omega
      rw [hoff, covers_append]
      constructor
      · have hh4 := hwf4.hdrBytes
        rw [hhdr4, hcur4] at hh4
        rw [show dest + 4 + sf.length + 1 - dest = 5 + sf.length by omega] at hh4
        apply covers_of_unchanged _ _ _ _ hh4
        intro j hj1 hj2
        rw [le32_length] at hj2
        exact hFread j (Or.inr ⟨by omega, by omega⟩)
      · rw [le32_length, covers_append]
        constructor
        · have hc := h34.content
          rw [hcur3] at hc
          apply covers_of_unchanged _ _ _ _ hc
          intro j hj1 hj2
          exact hFread j (Or.inr ⟨by omega, by omega⟩)
        · have ht := hwf4.term
          rw [hcur4] at ht
          rw [covers_singleton]
          rw [hFread (dest + 4 + sf.length) (Or.inr ⟨by omega, by omega⟩)]
          exact ht

/-- Opening a subdocument, writing `sf` through the child, and running the
child destructor amounts to one `writeStepSpec` of the complete document
element. -/
theorem dtorClose_spec (c c3 c4 : chain) (n : List Nat) (tg : Nat)
    (sf : List Nat) (ok : Bool) (hwf : chainWF c)
    (h : c.add_subdocument n tg ok = some c3)
    (h34 : writeStepSpec c3 c4 sf) :
    writeStepSpec c c4.dtorInner
      (tg :: (n ++ [0] ++ (le32 (5 + sf.length) ++ sf ++ [0]))) := by
  obtain ⟨dest, hdest, hwf3, hcur3, hhdr3, hsubs3, hroff3, hrlock3, hmal3,
    hlen3, hblen3, hcap3, hlow3, hmid3, hcont3, hunlocked, hne⟩ :=
    add_subdocument_spec c c3 n tg ok hwf h
  have hcur4e : c3.curOffset + sf.length = dest + 4 + sf.length := by
    rw [hcur3]
  have hsubs4 : c4.subs = (⟨dest + 4 + sf.length, false⟩ : subw) ::
      ((c.setCurOffset (dest + 5)).lockCur).subs := by
    rw [h34.subs_eq, setCurOffset_subs_cons _ _ _ _ hsubs3, hcur4e]
  have hroff4 : c4.root.offset = c3.root.offset := by
    rw [h34.rootOffset_eq, setCurOffset_rootOffset_cons _ _ _ _ hsubs3]
  have hrlock4 : c4.root.locked = c3.root.locked := h34.rootLocked_eq
  have hmal4 : c4.root.malloc = c3.root.malloc := h34.malloc_eq
  have he : c4 = (⟨c4.root, (⟨dest + 4 + sf.length, false⟩ : subw) ::
      ((c.setCurOffset (dest + 5)).lockCur).subs⟩ : chain) := by
    rw [← hsubs4]
  cases hcs : c.subs with
  | nil =>
    have hLnil : ((c.setCurOffset (dest + 5)).lockCur).subs = [] := by
      rw [lockCur_subs, setCurOffset_subs_nil _ _ hcs]
    have hH : c.headerOffset = 0 := headerOffset_eq_nil c hcs
    rw [he, hLnil, dtorInner_sub_nil c4.root _ rfl]
    show writeStepSpec c
      ((⟨{ c4.root with locked := false }, []⟩ : chain).update_offset
        (dest + 4 + sf.length + 1))
      (tg :: (n ++ [0] ++ (le32 (5 + sf.length) ++ sf ++ [0])))
    apply dtorAssemble c c3 c4 _ n tg sf dest hwf hdest hcur3 hhdr3 hsubs3
      hmal3 hlen3 hlow3 hmid3 hcont3 h34
    · rw [hH]
      exact update_offset_buffer _ _
    · rw [setCurOffset_subs_nil c _ hcs]
      exact update_offset_subs _ _
    · rw [setCurOffset_rootOffset_nil c _ hcs]
      exact update_offset_rootOffset _ _
    · have hrl : c.root.locked = false := by
        rw [← curLocked_eq_nil c hcs]
        exact hunlocked
      rw [hrl]
      exact update_offset_rootLocked _ _
    · exact update_offset_malloc _ _
    · exact update_offset_rootLength _ _
  | cons s t =>
    have hLcons : ((c.setCurOffset (dest + 5)).lockCur).subs
        = (⟨dest + 5, true⟩ : subw) :: t := by
      rw [lockCur_subs, setCurOffset_subs_cons c s t _ hcs]
    have hro : c4.root.offset = c.root.offset := by
      rw [hroff4, hroff3, lockCur_roff, setCurOffset_rootOffset_cons c s t _ hcs]
    have hsl : s.locked = false := by
      rw [← curLocked_eq_cons c s t hcs]
      exact hunlocked
    rw [he, hLcons, dtorInner_sub_cons c4.root _ _ _ rfl]
    show writeStepSpec c
      ((⟨c4.root, (⟨dest + 5, false⟩ : subw) :: t⟩ : chain).update_offset
        (dest + 4 + sf.length + 1))
      (tg :: (n ++ [0] ++ (le32 (5 + sf.length) ++ sf ++ [0])))
    have hPhdr : chain.headerOffset
        ⟨c4.root, (⟨dest + 5, false⟩ : subw) :: t⟩ = c.headerOffset := by
      cases t with
      | nil =>
        rw [headerOffset_cons, parentOffset_cons,
          headerOffset_eq_cons_nil c s hcs, hro]
      | cons p t2 =>
        rw [headerOffset_cons, parentOffset_cons,
          headerOffset_eq_cons_cons c s p t2 hcs]
    apply dtorAssemble c c3 c4 _ n tg sf dest hwf hdest hcur3 hhdr3 hsubs3
      hmal3 hlen3 hlow3 hmid3 hcont3 h34
    · rw [← hPhdr]
      exact update_offset_buffer _ _
    · rw [setCurOffset_subs_cons c s t _ hcs, hsl]
      exact update_offset_subs _ _
    · rw [setCurOffset_rootOffset_cons c s t _ hcs, ← hro]
      exact update_offset_rootOffset _ _
    · have h1 : c4.root.locked = c.root.locked := by
        rw [hrlock4, hrlock3, lockCur_rootLocked, setCurOffset_isEmpty, hcs,
          setCurOffset_rootLocked]
        simp
      rw [← h1]
      exact update_offset_rootLocked _ _
    · exact update_offset_malloc _ _
    · exact update_offset_rootLength _ _

theorem store_nil (l : List Nat) (i : Nat) : store l i [] = l := by
  cases l with
  | nil => rfl
  | cons x xs => cases i <;> rfl

theorem payload_nil (c : chain) (d : Nat) : c.payload d [] = c := by
  cases c with
  | mk r s => simp only [chain.payload, store_nil]

mutual

/-- Every successful append of a valid value through `writeValue` is one
`writeStepSpec` of the element's serialized bytes. -/
theorem writeValue_spec (c c2 : chain) (n : List Nat) (v : value)
    (hwf : chainWF c) (hv : validValue v)
    (h : writeValue c n v = some c2) :
    writeStepSpec c c2 (elemBytes n v) := by
  cases v with
  | fp64 b =>
    simp only [writeValue, chain.add_double] at h
    cases hadd : c.add_element n 1 8 true with
    | none => rw [hadd] at h; simp at h
    | some pr =>
      obtain ⟨c1, dest⟩ := pr
      rw [hadd] at h
      simp only [Option.some.injEq] at h
      subst h
      have hlen : b.length = 8 := hv.1
      have hbytes : elemBytes n (value.fp64 b) = 1 :: (n ++ [0] ++ b) := by
        simp only [elemBytes, value.tag, elemPayload]
      rw [hbytes]
      exact add_payload_spec c c1 n 1 8 true dest b hwf hadd hlen
  | str s =>
    simp only [writeValue, chain.add_string] at h
    by_cases hge : s.length ≥ 2147483647
    · rw [if_pos hge] at h
      simp at h
    · rw [if_neg hge] at h
      cases hadd : c.add_element n 2 (s.length + 5) true with
      | none => rw [hadd] at h; simp at h
      | some pr =>
        obtain ⟨c1, dest⟩ := pr
        rw [hadd] at h
        simp only [Option.some.injEq] at h
        subst h
        have hlen : (le32 (s.length + 1) ++ s ++ [0]).length = s.length + 5 := by
          simp only [List.length_append, le32_length, List.length_singleton]
          omega
        have hbytes : elemBytes n (value.str s)
            = 2 :: (n ++ [0] ++ (le32 (s.length + 1) ++ s ++ [0])) := by
          simp only [elemBytes, value.tag, elemPayload]
        rw [hbytes]
        exact add_payload_spec c c1 n 2 (s.length + 5) true dest _ hwf hadd hlen
  | bin sub bs =>
    simp only [writeValue, chain.add_binary] at h
    by_cases hge : bs.length > 2147483647
    · rw [if_pos hge] at h
      simp at h
    · rw [if_neg hge] at h
      cases hadd : c.add_element n 5 (bs.length + 5) true with
      | none => rw [hadd] at h; simp at h
      | some pr =>
        obtain ⟨c1, dest⟩ := pr
        rw [hadd] at h
        simp only [Option.some.injEq] at h
        subst h
        have hlen : (le32 bs.length ++ [sub] ++ bs).length = bs.length + 5 := by
          simp only [List.length_append, le32_length, List.length_singleton]
          omega
        have hbytes : elemBytes n (value.bin sub bs)
            = 5 :: (n ++ [0] ++ (le32 bs.length ++ [sub] ++ bs)) := by
          simp only [elemBytes, value.tag, elemPayload]
        rw [hbytes]
        exact add_payload_spec c c1 n 5 (bs.length + 5) true dest _ hwf hadd hlen
  | boolean b =>
    simp only [writeValue, chain.add_boolean] at h
    cases hadd : c.add_element n 8 1 true with
    | none => rw [hadd] at h; simp at h
    | some pr =>
      obtain ⟨c1, dest⟩ := pr
      rw [hadd] at h
      simp only [Option.some.injEq] at h
      subst h
      have hbytes : elemBytes n (value.boolean b)
          = 8 :: (n ++ [0] ++ [if b then 1 else 0]) := by
        simp only [elemBytes, value.tag, elemPayload]
      rw [hbytes]
      exact add_payload_spec c c1 n 8 1 true dest [if b then 1 else 0]
        hwf hadd rfl
  | i32 v32 =>
    simp only [writeValue, chain.add_int32] at h
    cases hadd : c.add_element n 16 4 true with
    | none => rw [hadd] at h; simp at h
    | some pr =>
      obtain ⟨c1, dest⟩ := pr
      rw [hadd] at h
      simp only [Option.some.injEq] at h
      subst h
      have hlen : (i32bytes v32).length = 4 := by
        simp only [i32bytes, le32_length]
      have hbytes : elemBytes n (value.i32 v32)
          = 16 :: (n ++ [0] ++ i32bytes v32) := by
        simp only [elemBytes, value.tag, elemPayload]
      rw [hbytes]
      exact add_payload_spec c c1 n 16 4 true dest _ hwf hadd hlen
  | i64 v64 =>
    simp only [writeValue, chain.add_int64] at h
    cases hadd : c.add_element n 18 8 true with
    | none => rw [hadd] at h; simp at h
    | some pr =>
      obtain ⟨c1, dest⟩ := pr
      rw [hadd] at h
      simp only [Option.some.injEq] at h
      subst h
      have hlen : (i64bytes v64).length = 8 := by
        simp only [i64bytes, le64_length]
      have hbytes : elemBytes n (value.i64 v64)
          = 18 :: (n ++ [0] ++ i64bytes v64) := by
        simp only [elemBytes, value.tag, elemPayload]
      rw [hbytes]
      exact add_payload_spec c c1 n 18 8 true dest _ hwf hadd hlen
  | undef =>
    simp only [writeValue, chain.add_undefined] at h
    cases hadd : c.add_element n 6 0 true with
    | none => rw [hadd] at h; simp at h
    | some pr =>
      obtain ⟨c1, dest⟩ := pr
      rw [hadd] at h
      simp only [Option.some.injEq] at h
      subst h
      have hs := add_payload_spec c c1 n 6 0 true dest [] hwf hadd rfl
      rw [payload_nil] at hs
      have hbytes : elemBytes n value.undef = 6 :: (n ++ [0] ++ []) := by
        simp only [elemBytes, value.tag, elemPayload]
      rw [hbytes]
      exact hs
  | null =>
    simp only [writeValue, chain.add_null] at h
    cases hadd : c.add_element n 10 0 true with
    | none => rw [hadd] at h; simp at h
    | some pr =>
      obtain ⟨c1, dest⟩ := pr
      rw [hadd] at h
      simp only [Option.some.injEq] at h
      subst h
      have hs := add_payload_spec c c1 n 10 0 true dest [] hwf hadd rfl
      rw [payload_nil] at hs
      have hbytes : elemBytes n value.null = 10 :: (n ++ [0] ++ []) := by
        simp only [elemBytes, value.tag, elemPayload]
      rw [hbytes]
      exact hs
  | doc fs =>
    simp only [writeValue] at h
    cases hsub : c.add_subdocument n 3 true with
    | none => rw [hsub] at h; simp at h
    | some c3 =>
      rw [hsub] at h
      simp only [] at h
      cases hfs : writeFields c3 fs with
      | none => rw [hfs] at h; simp at h
      | some c4 =>
        rw [hfs] at h
        simp only [Option.some.injEq] at h
        subst h
        obtain ⟨dest, hdest, hwf3, hrest⟩ :=
          add_subdocument_spec c c3 n 3 true hwf hsub
        have hvf : validFields fs := by
          simp only [validValue] at hv
          exact hv
        have h34 := writeFields_spec c3 c4 fs hwf3 hvf hfs
        have hd := dtorClose_spec c c3 c4 n 3 (serializeFields fs) true hwf
          hsub h34
        have hbytes : elemBytes n (value.doc fs)
            = 3 :: (n ++ [0] ++ (le32 (5 + (serializeFields fs).length)
              ++ serializeFields fs ++ [0])) := by
          simp only [elemBytes, value.tag, elemPayload, serializeDoc]
        rw [hbytes]
        exact hd
  | arr fs =>
    simp only [writeValue] at h
    cases hsub : c.add_subdocument n 4 true with
    | none => rw [hsub] at h; simp at h
    | some c3 =>
      rw [hsub] at h
      simp only [] at h
      cases hfs : writeFields c3 fs with
      | none => rw [hfs] at h; simp at h
      | some c4 =>
        rw [hfs] at h
        simp only [Option.some.injEq] at h
        subst h
        obtain ⟨dest, hdest, hwf3, hrest⟩ :=
          add_subdocument_spec c c3 n 4 true hwf hsub
        have hvf : validFields fs := by
          simp only [validValue] at hv
          exact hv
        have h34 := writeFields_spec c3 c4 fs hwf3 hvf hfs
        have hd := dtorClose_spec c c3 c4 n 4 (serializeFields fs) true hwf
          hsub h34
        have hbytes : elemBytes n (value.arr fs)
            = 4 :: (n ++ [0] ++ (le32 (5 + (serializeFields fs).length)
              ++ serializeFields fs ++ [0])) := by
          simp only [elemBytes, value.tag, elemPayload, serializeDoc]
        rw [hbytes]
        exact hd
termination_by sizeOf v

/-- Every successful `writeFields` run over valid fields is one
`writeStepSpec` of the concatenated element bytes. -/
theorem writeFields_spec (c c2 : chain) (fs : List (List Nat × value))
    (hwf : chainWF c) (hv : validFields fs)
    (h : writeFields c fs = some c2) :
    writeStepSpec c c2 (serializeFields fs) := by
  cases hfseq : fs with
  | nil =>
    subst hfseq
    simp only [writeFields, Option.some.injEq] at h
    subst h
    have hbytes : serializeFields [] = ([] : List Nat) := by
      simp only [serializeFields]
    rw [hbytes]
    exact writeStepSpec.self c hwf
  | cons f rest =>
    obtain ⟨n, v⟩ := f
    rw [hfseq] at h hv
    simp only [writeFields] at h
    cases hw1 : writeValue c n v with
    | none => rw [hw1] at h; simp at h
    | some c1 =>
      rw [hw1] at h
      have hvd : validName n ∧ validValue v ∧ (∀ g ∈ rest, g.1 ≠ n) ∧
          validFields rest := by
        simp only [validFields] at hv
        exact hv
      have hs1 := writeValue_spec c c1 n v hwf hvd.2.1 hw1
      have hs2 := writeFields_spec c1 c2 rest hs1.wf hvd.2.2.2 h
      have hcomp := writeStepSpec.trans c c1 c2 (elemBytes n v)
        (serializeFields rest) hwf hs1 hs2
      have hbytes : serializeFields ((n, v) :: rest)
          = elemBytes n v ++ serializeFields rest := by
        simp only [serializeFields, elemBytes, List.cons_append,
          List.append_assoc]
      rw [hbytes]
      exact hcomp
termination_by sizeOf fs
decreasing_by
· subst hfseq
  simp only [List.cons.sizeOf_spec, Prod.mk.sizeOf_spec]
  omega
· subst hfseq
  simp only [List.cons.sizeOf_spec]
  omega

end

set_option maxRecDepth 8000 in
/-- The fresh dynamic writer satisfies the chain invariant. -/
theorem writerInit_wf : chainWF writerInit := by
  refine ⟨by decide, by decide, by decide, ?_, by decide⟩
  simp only [covers]
  decide

/-- A successful `writeDoc` over valid fields returns the serialized
document: the announced length is the document's total length, it fits the
returned buffer, and the buffer starts with exactly the reference
serialization. -/
theorem writeDoc_spec (fs : List (List Nat × value)) (buf : List Nat)
    (len : Nat) (hv : validFields fs) (h : writeDoc fs = some (buf, len)) :
    len = 5 + (serializeFields fs).length ∧ len ≤ buf.length ∧
    covers buf 0 (serializeDoc fs) := by
  rw [writeDoc] at h
  cases hfs : writeFields writerInit fs with
  | none => rw [hfs] at h; simp at h
  | some cf =>
    rw [hfs] at h
    have hs := writeFields_spec writerInit cf fs writerInit_wf hv hfs
    have hsubs : cf.subs = [] := hs.subs_eq
    have hro : cf.root.offset = 4 + (serializeFields fs).length :=
      hs.rootOffset_eq
    have hlk : cf.root.locked = false := by
      rw [hs.rootLocked_eq]
      rfl
    have hml : cf.root.malloc = true := by
      rw [hs.malloc_eq]
      rfl
    simp only [chain.release, hsubs, hlk, hml, Bool.not_true, Bool.or_false,
      Bool.false_or, if_false, Option.some.injEq, Prod.mk.injEq] at h
    obtain ⟨rfl, rfl⟩ := h
    have hcur : cf.curOffset = 4 + (serializeFields fs).length := by
      rw [curOffset_eq_nil cf hsubs, hro]
    have hhdr : cf.headerOffset = 0 := headerOffset_eq_nil cf hsubs
    have hblen : cf.root.buffer.length = cf.root.length := hs.wf.blen
    have hcap : cf.curOffset + 1 + cf.subs.length ≤ cf.root.length := hs.wf.cap
    rw [hsubs, hcur] at hcap
    simp only [List.length_nil] at hcap
    refine ⟨by omega, by omega, ?_⟩
    · have hhb := hs.wf.hdrBytes
      rw [hhdr, hcur] at hhb
      have hcont := hs.content
      have hterm := hs.wf.term
      rw [hcur] at hterm
      rw [serializeDoc, covers_append, covers_append]
      refine ⟨⟨?_, ?_⟩, ?_⟩
      · rw [show (5 + (serializeFields fs).length)
            = 4 + (serializeFields fs).length + 1 - 0 by omega]
        exact hhb
      · rw [le32_length]
        exact hcont
      · rw [covers_singleton]
        rw [show 0 + (le32 (5 + (serializeFields fs).length)
            ++ serializeFields fs).length = 4 + (serializeFields fs).length by
          simp only [List.length_append, le32_length]
          omega]
        exact hterm

/-! ## Reader lemmas -/

theorem serializeFields_cons (n : List Nat) (v : value)
    (rest : List (List Nat × value)) :
    serializeFields ((n, v) :: rest) = elemBytes n v ++ serializeFields rest := by
  simp only [serializeFields, elemBytes, List.cons_append, List.append_assoc]

theorem fields_length_le (fs : List (List Nat × value)) :
    fs.length ≤ (serializeFields fs).length := by
  induction fs with
  | nil => simp [serializeFields]
  | cons f rest ih =>
    obtain ⟨n, v⟩ := f
    simp only [serializeFields, List.length_cons, List.length_append,
      List.length_singleton, List.length_nil]
    omega

theorem sizeOf_mem (g : List Nat × value) (fs : List (List Nat × value))
    (h : g ∈ fs) : sizeOf g.2 < sizeOf fs := by
  induction fs with
  | nil => cases h
  | cons f rest ih =>
    cases h with
    | head =>
      obtain ⟨n, v⟩ := g
      show sizeOf v < sizeOf ((n, v) :: rest)
      simp only [List.cons.sizeOf_spec, Prod.mk.sizeOf_spec]
      omega
    | tail _ hm =>
      have h1 := ih hm
      simp only [List.cons.sizeOf_spec]
      omega

theorem validFields_mem (fs : List (List Nat × value)) (g : List Nat × value)
    (h : g ∈ fs) (hv : validFields fs) : validName g.1 ∧ validValue g.2 := by
  induction fs with
  | nil => cases h
  | cons f rest ih =>
    obtain ⟨n, v⟩ := f
    simp only [validFields] at hv
    cases h with
    | head => exact ⟨hv.1, hv.2.1⟩
    | tail _ hm => exact ih hm hv.2.2.2

theorem readB_getElem (buf : List Nat) (j : Nat) (h : j < buf.length) :
    readB buf j = buf[j] := by
  simp [readB, List.getD_eq_getElem?_getD, List.getElem?_eq_getElem h]

theorem scanGo_spec (buf : List Nat) (n : List Nat) (p f : Nat)
    (hcov : covers buf p (n ++ [0]))
    (hnz : ∀ b ∈ n, 0 < b)
    (hf : n.length < f) :
    ∃ rd, scanGo buf f p = (some (p + n.length + 1), rd) := by
  induction n generalizing p f with
  | nil =>
    have h0 : readB buf p = 0 := by
      have h1 := hcov 0 (by simp)
      simpa using h1
    cases f with
    | zero => omega
    | succ f2 =>
      refine ⟨[p], ?_⟩
      rw [scanGo]
      rw [if_pos h0]
      simp
  | cons b bs ih =>
    have hb : readB buf p = b := by
      have h1 := hcov 0 (by simp)
      simpa using h1
    have hbpos : 0 < b := hnz b (by simp)
    have hcov2 : covers buf (p + 1) (bs ++ [0]) := by
      intro j hj
      have h2 := hcov (j + 1) (by simp at hj ⊢; omega)
      rw [show p + (j + 1) = p + 1 + j from by omega] at h2
      rw [h2]
      simp [List.cons_append, List.getD_cons_succ]
    cases f with
    | zero => omega
    | succ f2 =>
      obtain ⟨rd, hr⟩ := ih (p + 1) f2 hcov2 (fun x hx => hnz x (by simp [hx]))
        (by simp at hf; omega)
      refine ⟨p :: rd, ?_⟩
      rw [scanGo]
      rw [if_neg (show ¬ readB buf p = 0 from by rw [hb]; omega)]
      rw [hr]
      simp
      omega

theorem scanName_spec (buf : List Nat) (e : Nat) (n : List Nat) (p : Nat)
    (hcov : covers buf p (n ++ [0]))
    (hnz : ∀ b ∈ n, 0 < b)
    (hlt : p + n.length < e) :
    ∃ rd, scanName buf e p = (some (p + n.length + 1), rd) := by
  rw [scanName]
  exact scanGo_spec buf n p (e - p) hcov hnz (by omega)

theorem cstrAt_of_covers (buf : List Nat) (p : Nat) (n : List Nat)
    (hcov : covers buf p (n ++ [0]))
    (hnz : ∀ b ∈ n, 0 < b)
    (hb : p + n.length < buf.length) :
    cstrAt buf p = n := by
  induction n generalizing p with
  | nil =>
    have h0 : readB buf p = 0 := by
      have h1 := hcov 0 (by simp)
      simpa using h1
    have hpl : p < buf.length := by simpa using hb
    have hpb : buf[p] = 0 := by
      rw [← readB_getElem buf p hpl]
      exact h0
    simp only [cstrAt]
    rw [List.drop_eq_getElem_cons hpl, List.takeWhile_cons, hpb]
    simp
  | cons b bs ih =>
    have hb0 : readB buf p = b := by
      have h1 := hcov 0 (by simp)
      simpa using h1
    have hbpos : 0 < b := hnz b (by simp)
    have hpl : p < buf.length := by simp at hb; omega
    have hpb : buf[p] = b := by
      rw [← readB_getElem buf p hpl]
      exact hb0
    have hcov2 : covers buf (p + 1) (bs ++ [0]) := by
      intro j hj
      have h2 := hcov (j + 1) (by simp at hj ⊢; omega)
      rw [show p + (j + 1) = p + 1 + j from by omega] at h2
      rw [h2]
      simp [List.cons_append, List.getD_cons_succ]
    have hrec := ih (p + 1) hcov2 (fun x hx => hnz x (by simp [hx]))
      (by simp at hb ⊢; omega)
    simp only [cstrAt] at hrec ⊢
    rw [List.drop_eq_getElem_cons hpl, List.takeWhile_cons, hpb]
    have hbne : b ≠ 0 := by omega
    simp [hbne]
    simpa using hrec

/-- One `operator++` step at the start of a well-formed serialized element
positions the iterator exactly on that element and advances
`next_position` past its bytes. -/
theorem stepAt_cons (buf : List Nat) (e m : Nat) (c0 : element) (n : List Nat)
    (v : value) (hcov : covers buf m (elemBytes n v))
    (hn : validName n) (hv : validValue v)
    (hlt : m + (elemBytes n v).length < e) (he : e ≤ 2147483647) :
    (stepR buf ⟨c0, some m, some e⟩).1 =
      ⟨⟨some (m + 1), some (m + 2 + n.length)⟩,
        some (m + (elemBytes n v).length), some e⟩ := by
  have hleb : (elemBytes n v).length = n.length + 2 + (elemPayload v).length := by
    simp only [elemBytes, List.length_cons, List.length_append,
      List.length_singleton, List.length_nil]
    omega
  have hsplit : elemBytes n v = v.tag :: ((n ++ [0]) ++ elemPayload v) := by
    simp only [elemBytes]
  rw [hsplit] at hcov
  rw [covers_cons] at hcov
  obtain ⟨htag, hrest⟩ := hcov
  rw [covers_append] at hrest
  obtain ⟨hname, hpay⟩ := hrest
  have hpidx : m + 1 + (n ++ [0]).length = m + 2 + n.length := by
    simp only [List.length_append, List.length_singleton]
    omega
  rw [hpidx] at hpay
  have hnlt : m + 1 + n.length < e := by omega
  obtain ⟨rd, hsn⟩ := scanName_spec buf e n (m + 1) hname
    (fun b hb => (hn.2 b hb).1) hnlt
  cases v with
  | fp64 b =>
    simp only [value.tag] at htag
    simp only [validValue] at hv
    have hlep : (elemPayload (value.fp64 b)).length = 8 := by
      simp only [elemPayload]
      exact hv.1
    simp only [stepR, Option.getD_some]
    rw [if_neg (show ¬ m ≥ e from by omega)]
    rw [if_neg (show ¬ readB buf m = 0 from by rw [htag]; decide)]
    rw [hsn]
    simp only []
    rw [show m + 1 + n.length + 1 = m + 2 + n.length from by omega]
    rw [if_pos (show readB buf m = 1 ∨ readB buf m = 18 from by rw [htag]; decide)]
    rw [if_pos (show m + 2 + n.length + 8 ≤ e from by omega)]
    rw [show m + 2 + n.length + 8
        = m + (elemBytes n (value.fp64 b)).length from by omega]
  | str s =>
    simp only [value.tag] at htag
    have hep : elemPayload (value.str s) = le32 (s.length + 1) ++ s ++ [0] := by
      simp only [elemPayload]
    have hlep : (elemPayload (value.str s)).length = s.length + 5 := by
      rw [hep]
      simp only [List.length_append, le32_length, List.length_singleton]
      omega
    rw [hep] at hpay
    rw [covers_append] at hpay
    obtain ⟨hp1, hp0⟩ := hpay
    rw [covers_append] at hp1
    obtain ⟨hplen, hpstr⟩ := hp1
    have hp0idx : m + 2 + n.length + (le32 (s.length + 1) ++ s).length
        = m + 2 + n.length + 4 + s.length := by
      simp only [List.length_append, le32_length]
      omega
    rw [hp0idx] at hp0
    rw [covers_singleton] at hp0
    have hdec : dSLE32 buf (m + 2 + n.length) = ((s.length + 1 : Nat) : Int) :=
      dSLE32_of_covers buf _ (s.length + 1) hplen (by omega)
    simp only [stepR, Option.getD_some]
    rw [if_neg (show ¬ m ≥ e from by omega)]
    rw [if_neg (show ¬ readB buf m = 0 from by rw [htag]; decide)]
    rw [hsn]
    simp only []
    rw [show m + 1 + n.length + 1 = m + 2 + n.length from by omega]
    rw [if_neg (show ¬ (readB buf m = 1 ∨ readB buf m = 18) from by rw [htag]; decide)]
    rw [if_pos (show readB buf m = 2 from by rw [htag])]
    rw [if_pos (show m + 2 + n.length + 4 ≤ e from by omega)]
    rw [hdec]
    rw [if_pos (show ((s.length + 1 : Nat) : Int) ≥ 1 from by omega)]
    rw [Int.toNat_natCast]
    rw [if_pos (show m + 2 + n.length + 4 + (s.length + 1) ≤ e from by omega)]
    rw [show m + 2 + n.length + 4 + (s.length + 1) - 1
        = m + 2 + n.length + 4 + s.length from by omega]
    rw [if_pos hp0]
    rw [show m + 2 + n.length + 4 + (s.length + 1)
        = m + (elemBytes n (value.str s)).length from by omega]
  | bin sub bs =>
    simp only [value.tag] at htag
    have hep : elemPayload (value.bin sub bs)
        = le32 bs.length ++ [sub] ++ bs := by
      simp only [elemPayload]
    have hlep : (elemPayload (value.bin sub bs)).length = bs.length + 5 := by
      rw [hep]
      simp only [List.length_append, le32_length, List.length_singleton]
      omega
    rw [hep] at hpay
    rw [covers_append] at hpay
    obtain ⟨hp1, hp2⟩ := hpay
    rw [covers_append] at hp1
    obtain ⟨hplen, hpsub⟩ := hp1
    have hdec : dSLE32 buf (m + 2 + n.length) = ((bs.length : Nat) : Int) :=
      dSLE32_of_covers buf _ bs.length hplen (by omega)
    simp only [stepR, Option.getD_some]
    rw [if_neg (show ¬ m ≥ e from by omega)]
    rw [if_neg (show ¬ readB buf m = 0 from by rw [htag]; decide)]
    rw [hsn]
    simp only []
    rw [show m + 1 + n.length + 1 = m + 2 + n.length from by omega]
    rw [if_neg (show ¬ (readB buf m = 1 ∨ readB buf m = 18) from by rw [htag]; decide)]
    rw [if_neg (show ¬ (readB buf m = 2) from by rw [htag]; decide)]
    rw [if_neg (show ¬ (readB buf m = 3 ∨ readB buf m = 4) from by rw [htag]; decide)]
    rw [if_pos (show readB buf m = 5 from by rw [htag])]
    rw [if_pos (show m + 2 + n.length + 4 ≤ e from by omega)]
    rw [hdec]
    rw [if_pos (show ((bs.length : Nat) : Int) ≥ 0 from by omega)]
    rw [Int.toNat_natCast]
    rw [if_pos (show m + 2 + n.length + 4 + (bs.length + 1) ≤ e from by omega)]
    rw [show m + 2 + n.length + 4 + (bs.length + 1)
        = m + (elemBytes n (value.bin sub bs)).length from by omega]
  | boolean b =>
    simp only [value.tag] at htag
    have hlep : (elemPayload (value.boolean b)).length = 1 := by
      simp only [elemPayload]
      rfl
    simp only [stepR, Option.getD_some]
    rw [if_neg (show ¬ m ≥ e from by omega)]
    rw [if_neg (show ¬ readB buf m = 0 from by rw [htag]; decide)]
    rw [hsn]
    simp only []
    rw [show m + 1 + n.length + 1 = m + 2 + n.length from by omega]
    rw [if_neg (show ¬ (readB buf m = 1 ∨ readB buf m = 18) from by rw [htag]; decide)]
    rw [if_neg (show ¬ (readB buf m = 2) from by rw [htag]; decide)]
    rw [if_neg (show ¬ (readB buf m = 3 ∨ readB buf m = 4) from by rw [htag]; decide)]
    rw [if_neg (show ¬ (readB buf m = 5) from by rw [htag]; decide)]
    rw [if_neg (show ¬ (readB buf m = 6 ∨ readB buf m = 10) from by rw [htag]; decide)]
    rw [if_pos (show readB buf m = 8 from by rw [htag])]
    rw [if_pos (show m + 2 + n.length + 1 ≤ e from by omega)]
    rw [show m + 2 + n.length + 1
        = m + (elemBytes n (value.boolean b)).length from by omega]
  | i32 w =>
    simp only [value.tag] at htag
    have hlep : (elemPayload (value.i32 w)).length = 4 := by
      simp only [elemPayload, i32bytes, le32_length]
    simp only [stepR, Option.getD_some]
    rw [if_neg (show ¬ m ≥ e from by omega)]
    rw [if_neg (show ¬ readB buf m = 0 from by rw [htag]; decide)]
    rw [hsn]
    simp only []
    rw [show m + 1 + n.length + 1 = m + 2 + n.length from by omega]
    rw [if_neg (show ¬ (readB buf m = 1 ∨ readB buf m = 18) from by rw [htag]; decide)]
    rw [if_neg (show ¬ (readB buf m = 2) from by rw [htag]; decide)]
    rw [if_neg (show ¬ (readB buf m = 3 ∨ readB buf m = 4) from by rw [htag]; decide)]
    rw [if_neg (show ¬ (readB buf m = 5) from by rw [htag]; decide)]
    rw [if_neg (show ¬ (readB buf m = 6 ∨ readB buf m = 10) from by rw [htag]; decide)]
    rw [if_neg (show ¬ (readB buf m = 8) from by rw [htag]; decide)]
    rw [if_pos (show readB buf m = 16 from by rw [htag])]
    rw [if_pos (show m + 2 + n.length + 4 ≤ e from by omega)]
    rw [show m + 2 + n.length + 4
        = m + (elemBytes n (value.i32 w)).length from by omega]
  | i64 w =>
    simp only [value.tag] at htag
    have hlep : (elemPayload (value.i64 w)).length = 8 := by
      simp only [elemPayload, i64bytes, le64_length]
    simp only [stepR, Option.getD_some]
    rw [if_neg (show ¬ m ≥ e from by omega)]
    rw [if_neg (show ¬ readB buf m = 0 from by rw [htag]; decide)]
    rw [hsn]
    simp only []
    rw [show m + 1 + n.length + 1 = m + 2 + n.length from by omega]
    rw [if_pos (show readB buf m = 1 ∨ readB buf m = 18 from by rw [htag]; decide)]
    rw [if_pos (show m + 2 + n.length + 8 ≤ e from by omega)]
    rw [show m + 2 + n.length + 8
        = m + (elemBytes n (value.i64 w)).length from by omega]
  | undef =>
    simp only [value.tag] at htag
    have hlep : (elemPayload value.undef).length = 0 := by
      simp only [elemPayload]
      rfl
    simp only [stepR, Option.getD_some]
    rw [if_neg (show ¬ m ≥ e from by omega)]
    rw [if_neg (show ¬ readB buf m = 0 from by rw [htag]; decide)]
    rw [hsn]
    simp only []
    rw [show m + 1 + n.length + 1 = m + 2 + n.length from by omega]
    rw [if_neg (show ¬ (readB buf m = 1 ∨ readB buf m = 18) from by rw [htag]; decide)]
    rw [if_neg (show ¬ (readB buf m = 2) from by rw [htag]; decide)]
    rw [if_neg (show ¬ (readB buf m = 3 ∨ readB buf m = 4) from by rw [htag]; decide)]
    rw [if_neg (show ¬ (readB buf m = 5) from by rw [htag]; decide)]
    rw [if_pos (show readB buf m = 6 ∨ readB buf m = 10 from by rw [htag]; decide)]
    rw [show m + 2 + n.length
        = m + (elemBytes n value.undef).length from by omega]
  | null =>
    simp only [value.tag] at htag
    have hlep : (elemPayload value.null).length = 0 := by
      simp only [elemPayload]
      rfl
    simp only [stepR, Option.getD_some]
    rw [if_neg (show ¬ m ≥ e from by omega)]
    rw [if_neg (show ¬ readB buf m = 0 from by rw [htag]; decide)]
    rw [hsn]
    simp only []
    rw [show m + 1 + n.length + 1 = m + 2 + n.length from by omega]
    rw [if_neg (show ¬ (readB buf m = 1 ∨ readB buf m = 18) from by rw [htag]; decide)]
    rw [if_neg (show ¬ (readB buf m = 2) from by rw [htag]; decide)]
    rw [if_neg (show ¬ (readB buf m = 3 ∨ readB buf m = 4) from by rw [htag]; decide)]
    rw [if_neg (show ¬ (readB buf m = 5) from by rw [htag]; decide)]
    rw [if_pos (show readB buf m = 6 ∨ readB buf m = 10 from by rw [htag]; decide)]
    rw [show m + 2 + n.length
        = m + (elemBytes n value.null).length from by omega]
  | doc fsn =>
    simp only [value.tag] at htag
    have hep : elemPayload (value.doc fsn) = serializeDoc fsn := by
      simp only [elemPayload, serializeDoc]
    have hsd : serializeDoc fsn = le32 (5 + (serializeFields fsn).length)
        ++ serializeFields fsn ++ [0] := by
      simp only [serializeDoc]
    have hlep : (elemPayload (value.doc fsn)).length
        = 5 + (serializeFields fsn).length := by
      rw [hep, hsd]
      simp only [List.length_append, le32_length, List.length_singleton]
      omega
    rw [hep, hsd] at hpay
    rw [covers_append] at hpay
    obtain ⟨hp1, hp0⟩ := hpay
    rw [covers_append] at hp1
    obtain ⟨hplen, hpfields⟩ := hp1
    have hp0idx : m + 2 + n.length + (le32 (5 + (serializeFields fsn).length)
          ++ serializeFields fsn).length
        = m + 2 + n.length + 4 + (serializeFields fsn).length := by
      simp only [List.length_append, le32_length]
      omega
    rw [hp0idx] at hp0
    rw [covers_singleton] at hp0
    have hdec : dSLE32 buf (m + 2 + n.length)
        = ((5 + (serializeFields fsn).length : Nat) : Int) :=
      dSLE32_of_covers buf _ _ hplen (by omega)
    simp only [stepR, Option.getD_some]
    rw [if_neg (show ¬ m ≥ e from by omega)]
    rw [if_neg (show ¬ readB buf m = 0 from by rw [htag]; decide)]
    rw [hsn]
    simp only []
    rw [show m + 1 + n.length + 1 = m + 2 + n.length from by omega]
    rw [if_neg (show ¬ (readB buf m = 1 ∨ readB buf m = 18) from by rw [htag]; decide)]
    rw [if_neg (show ¬ (readB buf m = 2) from by rw [htag]; decide)]
    rw [if_pos (show readB buf m = 3 ∨ readB buf m = 4 from by rw [htag]; decide)]
    rw [if_pos (show m + 2 + n.length + 4 ≤ e from by omega)]
    rw [hdec]
    rw [if_pos
      (show ((5 + (serializeFields fsn).length : Nat) : Int) ≥ 5 from by omega)]
    rw [Int.toNat_natCast]
    rw [show 5 + (serializeFields fsn).length - 4
        = 1 + (serializeFields fsn).length from by omega]
    rw [if_pos
      (show m + 2 + n.length + 4 + (1 + (serializeFields fsn).length) ≤ e
        from by omega)]
    rw [show m + 2 + n.length + 4 + (1 + (serializeFields fsn).length) - 1
        = m + 2 + n.length + 4 + (serializeFields fsn).length from by omega]
    rw [if_pos hp0]
    rw [show m + 2 + n.length + 4 + (1 + (serializeFields fsn).length)
        = m + (elemBytes n (value.doc fsn)).length from by omega]
  | arr fsn =>
    simp only [value.tag] at htag
    have hep : elemPayload (value.arr fsn) = serializeDoc fsn := by
      simp only [elemPayload, serializeDoc]
    have hsd : serializeDoc fsn = le32 (5 + (serializeFields fsn).length)
        ++ serializeFields fsn ++ [0] := by
      simp only [serializeDoc]
    have hlep : (elemPayload (value.arr fsn)).length
        = 5 + (serializeFields fsn).length := by
      rw [hep, hsd]
      simp only [List.length_append, le32_length, List.length_singleton]
      omega
    rw [hep, hsd] at hpay
    rw [covers_append] at hpay
    obtain ⟨hp1, hp0⟩ := hpay
    rw [covers_append] at hp1
    obtain ⟨hplen, hpfields⟩ := hp1
    have hp0idx : m + 2 + n.length + (le32 (5 + (serializeFields fsn).length)
          ++ serializeFields fsn).length
        = m + 2 + n.length + 4 + (serializeFields fsn).length := by
      simp only [List.length_append, le32_length]
      omega
    rw [hp0idx] at hp0
    rw [covers_singleton] at hp0
    have hdec : dSLE32 buf (m + 2 + n.length)
        = ((5 + (serializeFields fsn).length : Nat) : Int) :=
      dSLE32_of_covers buf _ _ hplen (by omega)
    simp only [stepR, Option.getD_some]
    rw [if_neg (show ¬ m ≥ e from by omega)]
    rw [if_neg (show ¬ readB buf m = 0 from by rw [htag]; decide)]
    rw [hsn]
    simp only []
    rw [show m + 1 + n.length + 1 = m + 2 + n.length from by omega]
    rw [if_neg (show ¬ (readB buf m = 1 ∨ readB buf m = 18) from by rw [htag]; decide)]
    rw [if_neg (show ¬ (readB buf m = 2) from by rw [htag]; decide)]
    rw [if_pos (show readB buf m = 3 ∨ readB buf m = 4 from by rw [htag]; decide)]
    rw [if_pos (show m + 2 + n.length + 4 ≤ e from by omega)]
    rw [hdec]
    rw [if_pos
      (show ((5 + (serializeFields fsn).length : Nat) : Int) ≥ 5 from by omega)]
    rw [Int.toNat_natCast]
    rw [show 5 + (serializeFields fsn).length - 4
        = 1 + (serializeFields fsn).length from by omega]
    rw [if_pos
      (show m + 2 + n.length + 4 + (1 + (serializeFields fsn).length) ≤ e
        from by omega)]
    rw [show m + 2 + n.length + 4 + (1 + (serializeFields fsn).length) - 1
        = m + 2 + n.length + 4 + (serializeFields fsn).length from by omega]
    rw [if_pos hp0]
    rw [show m + 2 + n.length + 4 + (1 + (serializeFields fsn).length)
        = m + (elemBytes n (value.arr fsn)).length from by omega]

/-- `docRepro` holds once each field individually looks up correctly. -/
theorem docRepro_of_forall (buf : List Nat) (len : Nat)
    (gs : List (List Nat × value))
    (h : ∀ g ∈ gs, elemName buf (find true buf len g.1) = g.1 ∧
      (find true buf len g.1).data.isSome = true ∧
      valueRepro buf (find true buf len g.1) g.2) :
    docRepro buf len gs := by
  induction gs with
  | nil => simp only [docRepro]
  | cons g rest ih =>
    obtain ⟨n, v⟩ := g
    simp only [docRepro]
    refine ⟨h (n, v) (by simp), ih ?_⟩
    intro g2 hg2
    exact h g2 (by simp [hg2])

/-- The `find` loop started on the first element of a serialized field
list returns the element of the requested member, positioned on its
bytes. -/
theorem findLoop_find (buf : List Nat) (e : Nat)
    (gs : List (List Nat × value)) (m fuel : Nat) (c0 : element)
    (n0 : List Nat) (v0 : value)
    (he : e ≤ 2147483647) (heb : e ≤ buf.length)
    (hcov : covers buf m (serializeFields gs))
    (hend : m + (serializeFields gs).length + 1 = e)
    (hterm : readB buf (m + (serializeFields gs).length) = 0)
    (hvg : validFields gs)
    (hmem : (n0, v0) ∈ gs)
    (hfuel : gs.length < fuel) :
    ∃ p, findLoop buf n0 fuel ((stepR buf ⟨c0, some m, some e⟩).1)
        = ⟨some (p + 1), some (p + 2 + n0.length)⟩ ∧
      covers buf p (elemBytes n0 v0) ∧
      p + (elemBytes n0 v0).length + 1 ≤ e := by
  induction gs generalizing m fuel c0 with
  | nil => cases hmem
  | cons g rest ih =>
    obtain ⟨n1, v1⟩ := g
    rw [serializeFields_cons] at hcov hend hterm
    rw [covers_append] at hcov
    obtain ⟨hc1, hcrest⟩ := hcov
    simp only [List.length_append] at hend hterm
    simp only [validFields] at hvg
    obtain ⟨hn1, hv1, hdist, hvrest⟩ := hvg
    simp only [List.length_cons] at hfuel
    have hlt1 : m + (elemBytes n1 v1).length < e := by omega
    have hstep := stepAt_cons buf e m c0 n1 v1 hc1 hn1 hv1 hlt1 he
    have hleb1 : (elemBytes n1 v1).length
        = n1.length + 2 + (elemPayload v1).length := by
      simp only [elemBytes, List.length_cons, List.length_append,
        List.length_singleton, List.length_nil]
      omega
    have hname1 : covers buf (m + 1) (n1 ++ [0]) := by
      have h2 := hc1
      rw [show elemBytes n1 v1 = v1.tag :: ((n1 ++ [0]) ++ elemPayload v1)
        from by simp only [elemBytes]] at h2
      rw [covers_cons] at h2
      have h3 := h2.2
      rw [covers_append] at h3
      exact h3.1
    have hename : elemName buf
        (⟨some (m + 1), some (m + 2 + n1.length)⟩ : element) = n1 := by
      simp only [elemName, Option.getD_some]
      exact cstrAt_of_covers buf (m + 1) n1 hname1
        (fun b hb => (hn1.2 b hb).1) (by omega)
    cases fuel with
    | zero => omega
    | succ f =>
      rw [hstep]
      simp only [findLoop]
      cases hmem with
      | head =>
        rw [if_pos hename]
        exact ⟨m, rfl, hc1, by omega⟩
      | tail _ hm =>
        have hne0 : (n0 : List Nat) ≠ n1 := hdist (n0, v0) hm
        have hnei : elemName buf
            (⟨some (m + 1), some (m + 2 + n1.length)⟩ : element) ≠ n0 := by
          rw [hename]
          exact fun h => hne0 h.symm
        rw [if_neg hnei]
        have htermr : readB buf (m + (elemBytes n1 v1).length
            + (serializeFields rest).length) = 0 := by
          have heq2 : m + (elemBytes n1 v1).length + (serializeFields rest).length
              = m + ((elemBytes n1 v1).length + (serializeFields rest).length) := by
            omega
          rw [heq2]
          exact hterm
        obtain ⟨p, hp1, hp2, hp3⟩ := ih (m + (elemBytes n1 v1).length) f
          (⟨some (m + 1), some (m + 2 + n1.length)⟩ : element)
          hcrest (by omega) htermr hvrest hm (by omega)
        refine ⟨p, ?_, hp2, hp3⟩
        simp only [step]
        exact hp1

theorem intToSize_natCast (k : Nat) (h : k < 18446744073709551616) :
    intToSize ((k : Nat) : Int) = k := by
  have h2 := intToSize_of_nonneg ((k : Nat) : Int) (by omega) (by omega)
  omega

/-- The typed accessors reproduce a valid value from its serialized
element; nested documents defer to the supplied reproduction of the
sub-reader. -/
theorem valueRepro_at (buf : List Nat) (p : Nat) (n0 : List Nat) (v0 : value)
    (hcov : covers buf p (elemBytes n0 v0))
    (hv : validValue v0)
    (hblen : p + (elemBytes n0 v0).length ≤ buf.length)
    (hbnd : p + (elemBytes n0 v0).length ≤ 2147483647)
    (hrec : ∀ fsn, v0 = value.doc fsn ∨ v0 = value.arr fsn →
      docRepro (buf.drop (p + 2 + n0.length))
        (5 + (serializeFields fsn).length) fsn) :
    valueRepro buf ⟨some (p + 1), some (p + 2 + n0.length)⟩ v0 := by
  have hleb : (elemBytes n0 v0).length
      = n0.length + 2 + (elemPayload v0).length := by
    simp only [elemBytes, List.length_cons, List.length_append,
      List.length_singleton, List.length_nil]
    omega
  have hsplit : elemBytes n0 v0 = v0.tag :: ((n0 ++ [0]) ++ elemPayload v0) := by
    simp only [elemBytes]
  rw [hsplit] at hcov
  rw [covers_cons] at hcov
  obtain ⟨htag, hrest⟩ := hcov
  rw [covers_append] at hrest
  obtain ⟨hname, hpay⟩ := hrest
  have hpidx : p + 1 + (n0 ++ [0]).length = p + 2 + n0.length := by
    simp only [List.length_append, List.length_singleton]
    omega
  rw [hpidx] at hpay
  have htype : (⟨some (p + 1), some (p + 2 + n0.length)⟩ : element).type buf
      = v0.tag := by
    simp only [element.type, Option.isSome_some, Option.getD_some]
    rw [if_pos trivial]
    rw [show p + 1 - 1 = p from by omega]
    exact htag
  have hdataIdx : (⟨some (p + 1), some (p + 2 + n0.length)⟩ : element).dataIdx
      = p + 2 + n0.length := by
    simp only [element.dataIdx, Option.getD_some]
  cases v0 with
  | fp64 b =>
    simp only [validValue] at hv
    simp only [value.tag] at htype
    have hepl : elemPayload (value.fp64 b) = b := by
      simp only [elemPayload]
    have hlep : (elemPayload (value.fp64 b)).length = b.length := by
      rw [hepl]
    rw [hepl] at hpay
    simp only [valueRepro, element.get_double]
    rw [hdataIdx, htype, if_pos rfl]
    have htake := list_eq_of_covers buf (p + 2 + n0.length) b hpay (by omega)
    rw [show (8 : Nat) = b.length from hv.1.symm]
    rw [htake]
  | str s =>
    simp only [validValue] at hv
    simp only [value.tag] at htype
    have hep : elemPayload (value.str s) = le32 (s.length + 1) ++ s ++ [0] := by
      simp only [elemPayload]
    have hlep : (elemPayload (value.str s)).length = s.length + 5 := by
      rw [hep]
      simp only [List.length_append, le32_length, List.length_singleton]
      omega
    rw [hep] at hpay
    rw [covers_append] at hpay
    obtain ⟨hp1, hp0⟩ := hpay
    rw [covers_append] at hp1
    obtain ⟨hplen, hpstr⟩ := hp1
    have hpsidx : p + 2 + n0.length + (le32 (s.length + 1)).length
        = p + 2 + n0.length + 4 := by
      rw [le32_length]
    rw [hpsidx] at hpstr
    have hdec : dSLE32 buf (p + 2 + n0.length) = ((s.length + 1 : Nat) : Int) :=
      dSLE32_of_covers buf _ _ hplen (by omega)
    simp only [valueRepro, element.get_string_l]
    rw [hdataIdx, htype, if_pos rfl]
    constructor
    · rw [hdec]
      have hsub1 : ((s.length + 1 : Nat) : Int) - 1 = ((s.length : Nat) : Int) := by
        omega
      rw [hsub1, intToSize_natCast s.length (by omega)]
    · exact list_eq_of_covers buf (p + 2 + n0.length + 4) s hpstr (by omega)
  | bin sub bs =>
    simp only [validValue] at hv
    simp only [value.tag] at htype
    have hep : elemPayload (value.bin sub bs)
        = le32 bs.length ++ [sub] ++ bs := by
      simp only [elemPayload]
    have hlep : (elemPayload (value.bin sub bs)).length = bs.length + 5 := by
      rw [hep]
      simp only [List.length_append, le32_length, List.length_singleton]
      omega
    rw [hep] at hpay
    rw [covers_append] at hpay
    obtain ⟨hp1, hp2⟩ := hpay
    have hp2idx : p + 2 + n0.length + (le32 bs.length ++ [sub]).length
        = p + 2 + n0.length + 5 := by
      simp only [List.length_append, le32_length, List.length_singleton]
    rw [hp2idx] at hp2
    rw [covers_append] at hp1
    obtain ⟨hplen, hpsub⟩ := hp1
    have hpsidx : p + 2 + n0.length + (le32 bs.length).length
        = p + 2 + n0.length + 4 := by
      rw [le32_length]
    rw [hpsidx] at hpsub
    rw [covers_singleton] at hpsub
    have hdec : dSLE32 buf (p + 2 + n0.length) = ((bs.length : Nat) : Int) :=
      dSLE32_of_covers buf _ _ hplen (by omega)
    simp only [valueRepro, element.get_binary_s]
    rw [hdataIdx, htype, if_pos rfl]
    constructor
    · rw [hdec, intToSize_natCast bs.length (by omega), hpsub]
    · exact list_eq_of_covers buf (p + 2 + n0.length + 5) bs hp2 (by omega)
  | boolean b =>
    simp only [value.tag] at htype
    have hepl : elemPayload (value.boolean b) = [if b then 1 else 0] := by
      simp only [elemPayload]
    rw [hepl] at hpay
    rw [covers_singleton] at hpay
    simp only [valueRepro, element.get_boolean]
    rw [hdataIdx, htype, if_pos rfl, hpay]
    cases b <;> simp
  | i32 w =>
    simp only [validValue] at hv
    simp only [value.tag] at htype
    have hepl : elemPayload (value.i32 w) = i32bytes w := by
      simp only [elemPayload]
    rw [hepl] at hpay
    have hdec := dSLE32_i32bytes buf (p + 2 + n0.length) w hpay hv.1 hv.2
    simp only [valueRepro, element.get_int32]
    rw [hdataIdx, htype, if_pos rfl, hdec]
  | i64 w =>
    simp only [validValue] at hv
    simp only [value.tag] at htype
    have hepl : elemPayload (value.i64 w) = i64bytes w := by
      simp only [elemPayload]
    rw [hepl] at hpay
    have hdec := dSLE64_i64bytes buf (p + 2 + n0.length) w hpay hv.1 hv.2
    simp only [valueRepro, element.get_int64]
    rw [hdataIdx, htype, if_pos rfl, hdec]
  | undef =>
    simp only [value.tag] at htype
    simp only [valueRepro]
    exact htype
  | null =>
    simp only [value.tag] at htype
    simp only [valueRepro]
    exact htype
  | doc fsn =>
    simp only [value.tag] at htype
    have hep : elemPayload (value.doc fsn) = serializeDoc fsn := by
      simp only [elemPayload, serializeDoc]
    have hsd : serializeDoc fsn = le32 (5 + (serializeFields fsn).length)
        ++ serializeFields fsn ++ [0] := by
      simp only [serializeDoc]
    have hlep : (elemPayload (value.doc fsn)).length
        = 5 + (serializeFields fsn).length := by
      rw [hep, hsd]
      simp only [List.length_append, le32_length, List.length_singleton]
      omega
    rw [hep, hsd] at hpay
    rw [covers_append] at hpay
    obtain ⟨hp1, hp0⟩ := hpay
    rw [covers_append] at hp1
    obtain ⟨hplen, hpf⟩ := hp1
    have hdec : dSLE32 buf (p + 2 + n0.length)
        = ((5 + (serializeFields fsn).length : Nat) : Int) :=
      dSLE32_of_covers buf _ _ hplen (by omega)
    have hassub : (⟨some (p + 1), some (p + 2 + n0.length)⟩ :
          element).as_subdocument buf (false, [], 0) 3
        = (true, buf.drop (p + 2 + n0.length),
            5 + (serializeFields fsn).length) := by
      simp only [element.as_subdocument]
      rw [htype]
      rw [if_neg (show ¬ ((3 : Nat) ≠ 3) from by omega)]
      rw [hdataIdx, hdec, intToSize_natCast _ (by omega)]
    simp only [valueRepro]
    rw [hassub]
    exact ⟨rfl, hrec fsn (Or.inl rfl)⟩
  | arr fsn =>
    simp only [value.tag] at htype
    have hep : elemPayload (value.arr fsn) = serializeDoc fsn := by
      simp only [elemPayload, serializeDoc]
    have hsd : serializeDoc fsn = le32 (5 + (serializeFields fsn).length)
        ++ serializeFields fsn ++ [0] := by
      simp only [serializeDoc]
    have hlep : (elemPayload (value.arr fsn)).length
        = 5 + (serializeFields fsn).length := by
      rw [hep, hsd]
      simp only [List.length_append, le32_length, List.length_singleton]
      omega
    rw [hep, hsd] at hpay
    rw [covers_append] at hpay
    obtain ⟨hp1, hp0⟩ := hpay
    rw [covers_append] at hp1
    obtain ⟨hplen, hpf⟩ := hp1
    have hdec : dSLE32 buf (p + 2 + n0.length)
        = ((5 + (serializeFields fsn).length : Nat) : Int) :=
      dSLE32_of_covers buf _ _ hplen (by omega)
    have hassub : (⟨some (p + 1), some (p + 2 + n0.length)⟩ :
          element).as_subdocument buf (false, [], 0) 4
        = (true, buf.drop (p + 2 + n0.length),
            5 + (serializeFields fsn).length) := by
      simp only [element.as_subdocument]
      rw [htype]
      rw [if_neg (show ¬ ((4 : Nat) ≠ 4) from by omega)]
      rw [hdataIdx, hdec, intToSize_natCast _ (by omega)]
    simp only [valueRepro]
    rw [hassub]
    exact ⟨rfl, hrec fsn (Or.inr rfl)⟩

/-- A buffer that starts with the reference serialization of a valid
field list reproduces every field through `find` and the typed
accessors, recursively through nested documents. -/
theorem serialized_docRepro (fs : List (List Nat × value)) (buf : List Nat)
    (hv : validFields fs)
    (hcov : covers buf 0 (serializeDoc fs))
    (hlen : 5 + (serializeFields fs).length ≤ buf.length)
    (hbnd : 5 + (serializeFields fs).length ≤ 2147483647) :
    docRepro buf (5 + (serializeFields fs).length) fs := by
  have hsd : serializeDoc fs = le32 (5 + (serializeFields fs).length)
      ++ serializeFields fs ++ [0] := by
    simp only [serializeDoc]
  rw [hsd] at hcov
  rw [covers_append] at hcov
  obtain ⟨hc1, hc0⟩ := hcov
  rw [covers_append] at hc1
  obtain ⟨hchdr, hcf⟩ := hc1
  have hcfi : covers buf 4 (serializeFields fs) := by
    have heq : (0 : Nat) + (le32 (5 + (serializeFields fs).length)).length
        = 4 := by
      rw [le32_length]
    rw [heq] at hcf
    exact hcf
  have hterm : readB buf (4 + (serializeFields fs).length) = 0 := by
    have heq : (0 : Nat) + (le32 (5 + (serializeFields fs).length)
        ++ serializeFields fs).length = 4 + (serializeFields fs).length := by
      simp only [List.length_append, le32_length]
      omega
    rw [heq] at hc0
    rw [covers_singleton] at hc0
    exact hc0
  have hdec0 : dSLE32 buf 0
      = ((5 + (serializeFields fs).length : Nat) : Int) :=
    dSLE32_of_covers buf 0 _ hchdr (by omega)
  have hinit : (iterInit true buf (5 + (serializeFields fs).length)).1
      = (stepR buf ⟨⟨none, none⟩, some 4,
          some (5 + (serializeFields fs).length)⟩).1 := by
    simp only [iterInit]
    rw [if_neg (show ¬ (!true) = true from by decide)]
    rw [if_neg (show ¬ 5 + (serializeFields fs).length < 4 from by omega)]
    rw [hdec0]
    rw [if_neg (show ¬ ((5 + (serializeFields fs).length : Nat) : Int) < 4
      from by omega)]
    rw [Int.toNat_natCast]
    rw [if_neg (show ¬ 5 + (serializeFields fs).length
        > 5 + (serializeFields fs).length from by omega)]
  apply docRepro_of_forall
  intro g hg
  obtain ⟨n0, v0⟩ := g
  obtain ⟨hvn, hvv⟩ := validFields_mem fs (n0, v0) hg hv
  obtain ⟨p, hfind, hpcov, hpend⟩ := findLoop_find buf
    (5 + (serializeFields fs).length) fs 4
    (5 + (serializeFields fs).length + 1) ⟨none, none⟩ n0 v0
    (by omega) hlen hcfi (by omega) hterm hv hg
    (by have h1 := fields_length_le fs; omega)
  have hfind2 : find true buf (5 + (serializeFields fs).length) n0
      = ⟨some (p + 1), some (p + 2 + n0.length)⟩ := by
    simp only [find]
    rw [hinit]
    exact hfind
  have hleb : (elemBytes n0 v0).length
      = n0.length + 2 + (elemPayload v0).length := by
    simp only [elemBytes, List.length_cons, List.length_append,
      List.length_singleton, List.length_nil]
    omega
  have hpay : covers buf (p + 2 + n0.length) (elemPayload v0) := by
    have h2 := hpcov
    rw [show elemBytes n0 v0 = v0.tag :: ((n0 ++ [0]) ++ elemPayload v0)
      from by simp only [elemBytes]] at h2
    rw [covers_cons] at h2
    have h3 := h2.2
    rw [covers_append] at h3
    have h4 := h3.2
    have heq : p + 1 + (n0 ++ [0]).length = p + 2 + n0.length := by
      simp only [List.length_append, List.length_singleton]
      omega
    rw [heq] at h4
    exact h4
  refine ⟨?_, ?_, ?_⟩
  · show elemName buf (find true buf (5 + (serializeFields fs).length) n0) = n0
    rw [hfind2]
    have hname : covers buf (p + 1) (n0 ++ [0]) := by
      have h2 := hpcov
      rw [show elemBytes n0 v0 = v0.tag :: ((n0 ++ [0]) ++ elemPayload v0)
        from by simp only [elemBytes]] at h2
      rw [covers_cons] at h2
      have h3 := h2.2
      rw [covers_append] at h3
      exact h3.1
    simp only [elemName, Option.getD_some]
    exact cstrAt_of_covers buf (p + 1) n0 hname
      (fun b hb => (hvn.2 b hb).1) (by omega)
  · show (find true buf (5 + (serializeFields fs).length) n0).data.isSome
      = true
    rw [hfind2]
    rfl
  · show valueRepro buf (find true buf (5 + (serializeFields fs).length) n0) v0
    rw [hfind2]
    apply valueRepro_at buf p n0 v0 hpcov hvv (by omega) (by omega)
    intro fsn hcase
    have hvfn : validFields fsn := by
      rcases hcase with hc | hc <;>
        (subst hc; simp only [validValue] at hvv; exact hvv)
    have hepd : elemPayload v0 = serializeDoc fsn := by
      rcases hcase with hc | hc <;> (subst hc; simp only [elemPayload, serializeDoc])
    have hlepn : (elemPayload v0).length = 5 + (serializeFields fsn).length := by
      rw [hepd]
      simp only [serializeDoc, List.length_append, le32_length,
        List.length_singleton]
      omega
    rw [hepd] at hpay
    have hcovn : covers (buf.drop (p + 2 + n0.length)) 0 (serializeDoc fsn) := by
      apply covers_drop
      rw [show p + 2 + n0.length + 0 = p + 2 + n0.length from by omega]
      exact hpay
    exact serialized_docRepro fsn (buf.drop (p + 2 + n0.length)) hvfn hcovn
      (by simp only [List.length_drop]; omega) (by omega)
termination_by sizeOf fs
decreasing_by
  have h1 := sizeOf_mem (n0, v0) fs hg
  simp only at h1
  rcases hcase with hc | hc <;> subst hc <;>
    simp only [value.doc.sizeOf_spec, value.arr.sizeOf_spec] at h1 <;> omega

/-! ## Read-bound and failure-state lemmas for malformed input -/

theorem scanGo_reads (buf : List Nat) (f p j : Nat)
    (hj : j ∈ (scanGo buf f p).2) : j < p + f := by
  induction f generalizing p with
  | zero => simp [scanGo] at hj
  | succ f2 ih =>
    rw [scanGo] at hj
    by_cases h0 : readB buf p = 0
    · rw [if_pos h0] at hj
      simp at hj
      omega
    · rw [if_neg h0] at hj
      simp at hj
      rcases hj with hj | hj
      · omega
      · have h1 := ih (p + 1) hj
        omega

theorem scanName_reads (buf : List Nat) (e p j : Nat)
    (hj : j ∈ (scanName buf e p).2) : j < e := by
  rw [scanName] at hj
  have h1 := scanGo_reads buf (e - p) p j hj
  by_cases hpe : p < e
  · omega
  · rw [show e - p = 0 from by omega] at hj
    simp [scanGo] at hj

/-- One advance over a live iterator reads only indices below the end
position, and the end position is either kept or cleared. -/
theorem stepR_step_props (buf : List Nat) (it : iter) (e : Nat)
    (he : it.end_position = some e) :
    (∀ j ∈ (stepR buf it).2, j < e) ∧
    ((stepR buf it).1.end_position = some e ∨
      (stepR buf it).1.end_position = none) := by
  obtain ⟨cur, np, ep⟩ := it
  simp only at he
  subst he
  simp only [stepR]
  by_cases h1 : np.getD 0 ≥ e
  · rw [if_pos h1]
    exact ⟨by simp, Or.inr rfl⟩
  · rw [if_neg h1]
    by_cases h2 : readB buf (np.getD 0) = 0
    · rw [if_pos h2]
      refine ⟨?_, Or.inr rfl⟩
      intro j hj
      simp at hj
      omega
    · rw [if_neg h2]
      cases hsc : scanName buf e (np.getD 0 + 1) with
      | mk o reads =>
      have hrd : ∀ j ∈ reads, j < e := fun j hj =>
        scanName_reads buf e (np.getD 0 + 1) j (by rw [hsc]; exact hj)
      cases o with
      | none =>
        simp only []
        refine ⟨?_, Or.inr trivial⟩
        intro j hj
        simp only [List.mem_cons] at hj
        rcases hj with hj | hj
        · omega
        · exact hrd j hj
      | some q =>
        simp only []
        have hnr : ∀ j ∈ np.getD 0 :: reads, j < e := by
          intro j hj
          simp only [List.mem_cons] at hj
          rcases hj with hj | hj
          · omega
          · exact hrd j hj
        by_cases t1 : readB buf (np.getD 0) = 1 ∨ readB buf (np.getD 0) = 18
        · rw [if_pos t1]
          by_cases hb : q + 8 ≤ e
          · rw [if_pos hb]
            exact ⟨hnr, Or.inl rfl⟩
          · rw [if_neg hb]
            exact ⟨hnr, Or.inr rfl⟩
        · rw [if_neg t1]
          by_cases t2 : readB buf (np.getD 0) = 2
          · rw [if_pos t2]
            by_cases hb : q + 4 ≤ e
            · rw [if_pos hb]
              have hnr4 : ∀ j ∈ (np.getD 0 :: reads) ++ [q, q + 1, q + 2, q + 3],
                  j < e := by
                intro j hj
                simp only [List.mem_append, List.mem_cons,
                  List.not_mem_nil, or_false] at hj
                rcases hj with hj | hj
                · exact hnr j (by simp only [List.mem_cons]; exact hj)
                · rcases hj with hj | hj | hj | hj <;> omega
              by_cases hlen1 : dSLE32 buf q ≥ 1
              · rw [if_pos hlen1]
                by_cases hn2 : q + 4 + (dSLE32 buf q).toNat ≤ e
                · rw [if_pos hn2]
                  have hnr5 : ∀ j ∈ ((np.getD 0 :: reads) ++ [q, q + 1, q + 2, q + 3])
                      ++ [q + 4 + (dSLE32 buf q).toNat - 1], j < e := by
                    intro j hj
                    simp only [List.mem_append, List.mem_cons,
                      List.not_mem_nil, or_false] at hj
                    rcases hj with (hj | hj) | hj
                    · exact hnr j (by simp only [List.mem_cons]; exact hj)
                    · rcases hj with hj | hj | hj | hj <;> omega
                    · omega
                  by_cases hz : readB buf (q + 4 + (dSLE32 buf q).toNat - 1) = 0
                  · rw [if_pos hz]
                    exact ⟨hnr5, Or.inl rfl⟩
                  · rw [if_neg hz]
                    exact ⟨hnr5, Or.inr rfl⟩
                · rw [if_neg hn2]
                  exact ⟨hnr4, Or.inr rfl⟩
              · rw [if_neg hlen1]
                exact ⟨hnr4, Or.inr rfl⟩
            · rw [if_neg hb]
              exact ⟨hnr, Or.inr rfl⟩
          · rw [if_neg t2]
            by_cases t34 : readB buf (np.getD 0) = 3 ∨ readB buf (np.getD 0) = 4
            · rw [if_pos t34]
              by_cases hb : q + 4 ≤ e
              · rw [if_pos hb]
                have hnr4 : ∀ j ∈ (np.getD 0 :: reads) ++ [q, q + 1, q + 2, q + 3],
                    j < e := by
                  intro j hj
                  simp only [List.mem_append, List.mem_cons,
                    List.not_mem_nil, or_false] at hj
                  rcases hj with hj | hj
                  · exact hnr j (by simp only [List.mem_cons]; exact hj)
                  · rcases hj with hj | hj | hj | hj <;> omega
                by_cases hlen5 : dSLE32 buf q ≥ 5
                · rw [if_pos hlen5]
                  by_cases hn2 : q + 4 + ((dSLE32 buf q).toNat - 4) ≤ e
                  · rw [if_pos hn2]
                    have hnr5 : ∀ j ∈ ((np.getD 0 :: reads)
                        ++ [q, q + 1, q + 2, q + 3])
                        ++ [q + 4 + ((dSLE32 buf q).toNat - 4) - 1], j < e := by
                      intro j hj
                      simp only [List.mem_append, List.mem_cons,
                        List.not_mem_nil, or_false] at hj
                      rcases hj with (hj | hj) | hj
                      · exact hnr j (by simp only [List.mem_cons]; exact hj)
                      · rcases hj with hj | hj | hj | hj <;> omega
                      · omega
                    by_cases hz : readB buf (q + 4 + ((dSLE32 buf q).toNat - 4) - 1) = 0
                    · rw [if_pos hz]
                      exact ⟨hnr5, Or.inl rfl⟩
                    · rw [if_neg hz]
                      exact ⟨hnr5, Or.inr rfl⟩
                  · rw [if_neg hn2]
                    exact ⟨hnr4, Or.inr rfl⟩
                · rw [if_neg hlen5]
                  exact ⟨hnr4, Or.inr rfl⟩
              · rw [if_neg hb]
                exact ⟨hnr, Or.inr rfl⟩
            · rw [if_neg t34]
              by_cases t5 : readB buf (np.getD 0) = 5
              · rw [if_pos t5]
                by_cases hb : q + 4 ≤ e
                · rw [if_pos hb]
                  have hnr4 : ∀ j ∈ (np.getD 0 :: reads) ++ [q, q + 1, q + 2, q + 3],
                      j < e := by
                    intro j hj
                    simp only [List.mem_append, List.mem_cons,
                      List.not_mem_nil, or_false] at hj
                    rcases hj with hj | hj
                    · exact hnr j (by simp only [List.mem_cons]; exact hj)
                    · rcases hj with hj | hj | hj | hj <;> omega
                  by_cases hlen0 : dSLE32 buf q ≥ 0
                  · rw [if_pos hlen0]
                    by_cases hn2 : q + 4 + ((dSLE32 buf q).toNat + 1) ≤ e
                    · rw [if_pos hn2]
                      exact ⟨hnr4, Or.inl rfl⟩
                    · rw [if_neg hn2]
                      exact ⟨hnr4, Or.inr rfl⟩
                  · rw [if_neg hlen0]
                    exact ⟨hnr4, Or.inr rfl⟩
                · rw [if_neg hb]
                  exact ⟨hnr, Or.inr rfl⟩
              · rw [if_neg t5]
                by_cases t610 : readB buf (np.getD 0) = 6 ∨ readB buf (np.getD 0) = 10
                · rw [if_pos t610]
                  exact ⟨hnr, Or.inl rfl⟩
                · rw [if_neg t610]
                  by_cases t8 : readB buf (np.getD 0) = 8
                  · rw [if_pos t8]
                    by_cases hb : q + 1 ≤ e
                    · rw [if_pos hb]
                      exact ⟨hnr, Or.inl rfl⟩
                    · rw [if_neg hb]
                      exact ⟨hnr, Or.inr rfl⟩
                  · rw [if_neg t8]
                    by_cases t16 : readB buf (np.getD 0) = 16
                    · rw [if_pos t16]
                      by_cases hb : q + 4 ≤ e
                      · rw [if_pos hb]
                        exact ⟨hnr, Or.inl rfl⟩
                      · rw [if_neg hb]
                        exact ⟨hnr, Or.inr rfl⟩
                    · rw [if_neg t16]
                      exact ⟨hnr, Or.inr rfl⟩

theorem iterInit_reads (bp : Bool) (buf : List Nat) (length j : Nat)
    (hj : j ∈ (iterInit bp buf length).2) : j < length := by
  cases bp with
  | false => simp [iterInit] at hj
  | true =>
    simp only [iterInit, Bool.not_true] at hj
    rw [if_neg (by simp)] at hj
    by_cases h4 : length < 4
    · rw [if_pos h4] at hj
      simp at hj
    · rw [if_neg h4] at hj
      by_cases ht4 : dSLE32 buf 0 < 4
      · rw [if_pos ht4] at hj
        simp at hj
        omega
      · rw [if_neg ht4] at hj
        by_cases htl : (dSLE32 buf 0).toNat > length
        · rw [if_pos htl] at hj
          simp at hj
          omega
        · rw [if_neg htl] at hj
          simp only [List.mem_append, List.mem_cons, List.not_mem_nil,
            or_false] at hj
          rcases hj with hj | hj
          · rcases hj with hj | hj | hj | hj <;> omega
          · have h5 := (stepR_step_props buf
              ⟨⟨none, none⟩, some 4, some (dSLE32 buf 0).toNat⟩
              (dSLE32 buf 0).toNat rfl).1 j hj
            omega

theorem iterInit_end_le (bp : Bool) (buf : List Nat) (length e : Nat)
    (h : (iterInit bp buf length).1.end_position = some e) : e ≤ length := by
  cases bp with
  | false => simp [iterInit] at h
  | true =>
    simp only [iterInit, Bool.not_true] at h
    rw [if_neg (by simp)] at h
    by_cases h4 : length < 4
    · rw [if_pos h4] at h
      simp at h
    · rw [if_neg h4] at h
      by_cases ht4 : dSLE32 buf 0 < 4
      · rw [if_pos ht4] at h
        simp at h
      · rw [if_neg ht4] at h
        by_cases htl : (dSLE32 buf 0).toNat > length
        · rw [if_pos htl] at h
          simp at h
        · rw [if_neg htl] at h
          have h5 := (stepR_step_props buf
            ⟨⟨none, none⟩, some 4, some (dSLE32 buf 0).toNat⟩
            (dSLE32 buf 0).toNat rfl).2
          simp only [] at h
          rcases h5 with h5 | h5
          · rw [h5] at h
            simp only [Option.some.injEq] at h
            omega
          · rw [h5] at h
            simp at h

theorem iterInit_fail_short (buf : List Nat) (length : Nat) (h : length < 4) :
    (iterInit true buf length).1.fail = true := by
  simp only [iterInit, Bool.not_true]
  rw [if_neg (by simp)]
  rw [if_pos h]
  rfl

theorem iterInit_fail_total (buf : List Nat) (length : Nat)
    (h4 : ¬ length < 4) (hge4 : ¬ dSLE32 buf 0 < 4)
    (hov : (dSLE32 buf 0).toNat > length) :
    (iterInit true buf length).1.fail = true := by
  simp only [iterInit, Bool.not_true]
  rw [if_neg (by simp), if_neg h4, if_neg hge4, if_pos hov]
  rfl

theorem step_fail_past_end (buf : List Nat) (it : iter) (e nn : Nat)
    (he : it.end_position = some e) (hn : it.next_position = some nn)
    (hge : nn ≥ e) : (step buf it).fail = true := by
  obtain ⟨cur, np, ep⟩ := it
  simp only at he hn
  subst he
  subst hn
  simp only [step, stepR, Option.getD_some]
  rw [if_pos hge]
  rfl

theorem step_fail_no_nul (buf : List Nat) (it : iter) (e nn : Nat)
    (he : it.end_position = some e) (hn : it.next_position = some nn)
    (hlt : nn < e) (htag : readB buf nn ≠ 0)
    (hscan : (scanName buf e (nn + 1)).1 = none) :
    (step buf it).fail = true := by
  obtain ⟨cur, np, ep⟩ := it
  simp only at he hn
  subst he
  subst hn
  simp only [step, stepR, Option.getD_some]
  rw [if_neg (show ¬ nn ≥ e from by omega)]
  rw [if_neg htag]
  cases hsc : scanName buf e (nn + 1) with
  | mk o reads =>
    rw [hsc] at hscan
    simp only at hscan
    subst hscan
    rfl

theorem step_fail_strlen (buf : List Nat) (it : iter) (e nn q : Nat)
    (rd : List Nat)
    (he : it.end_position = some e) (hn : it.next_position = some nn)
    (hlt : nn < e) (htag : readB buf nn = 2)
    (hscan : scanName buf e (nn + 1) = (some q, rd))
    (hq4 : q + 4 ≤ e) (hpos : dSLE32 buf q ≥ 1)
    (hover : q + 4 + (dSLE32 buf q).toNat > e) :
    (step buf it).fail = true := by
  obtain ⟨cur, np, ep⟩ := it
  simp only at he hn
  subst he
  subst hn
  simp only [step, stepR, Option.getD_some]
  rw [if_neg (show ¬ nn ≥ e from by omega)]
  rw [if_neg (show ¬ readB buf nn = 0 from by rw [htag]; decide)]
  rw [hscan]
  simp only []
  rw [if_neg (show ¬ (readB buf nn = 1 ∨ readB buf nn = 18) from by
    rw [htag]; decide)]
  rw [if_pos htag]
  rw [if_pos hq4, if_pos hpos]
  rw [if_neg (show ¬ q + 4 + (dSLE32 buf q).toNat ≤ e from by omega)]
  rfl

theorem step_fail_doclen (buf : List Nat) (it : iter) (e nn q : Nat)
    (rd : List Nat)
    (he : it.end_position = some e) (hn : it.next_position = some nn)
    (hlt : nn < e) (htag : readB buf nn = 3 ∨ readB buf nn = 4)
    (hscan : scanName buf e (nn + 1) = (some q, rd))
    (hq4 : q + 4 ≤ e) (hpos : dSLE32 buf q ≥ 5)
    (hover : q + 4 + ((dSLE32 buf q).toNat - 4) > e) :
    (step buf it).fail = true := by
  obtain ⟨cur, np, ep⟩ := it
  simp only at he hn
  subst he
  subst hn
  simp only [step, stepR, Option.getD_some]
  rw [if_neg (show ¬ nn ≥ e from by omega)]
  rw [if_neg (show ¬ readB buf nn = 0 from by
    rcases htag with h | h <;> rw [h] <;> decide)]
  rw [hscan]
  simp only []
  rw [if_neg (show ¬ (readB buf nn = 1 ∨ readB buf nn = 18) from by
    rcases htag with h | h <;> rw [h] <;> decide)]
  rw [if_neg (show ¬ readB buf nn = 2 from by
    rcases htag with h | h <;> rw [h] <;> decide)]
  rw [if_pos htag]
  rw [if_pos hq4, if_pos hpos]
  rw [if_neg (show ¬ q + 4 + ((dSLE32 buf q).toNat - 4) ≤ e from by omega)]
  rfl

theorem step_fail_binlen (buf : List Nat) (it : iter) (e nn q : Nat)
    (rd : List Nat)
    (he : it.end_position = some e) (hn : it.next_position = some nn)
    (hlt : nn < e) (htag : readB buf nn = 5)
    (hscan : scanName buf e (nn + 1) = (some q, rd))
    (hq4 : q + 4 ≤ e) (hpos : dSLE32 buf q ≥ 0)
    (hover : q + 4 + ((dSLE32 buf q).toNat + 1) > e) :
    (step buf it).fail = true := by
  obtain ⟨cur, np, ep⟩ := it
  simp only at he hn
  subst he
  subst hn
  simp only [step, stepR, Option.getD_some]
  rw [if_neg (show ¬ nn ≥ e from by omega)]
  rw [if_neg (show ¬ readB buf nn = 0 from by rw [htag]; decide)]
  rw [hscan]
  simp only []
  rw [if_neg (show ¬ (readB buf nn = 1 ∨ readB buf nn = 18) from by
    rw [htag]; decide)]
  rw [if_neg (show ¬ readB buf nn = 2 from by rw [htag]; decide)]
  rw [if_neg (show ¬ (readB buf nn = 3 ∨ readB buf nn = 4) from by
    rw [htag]; decide)]
  rw [if_pos htag]
  rw [if_pos hq4]
  rw [if_pos hpos]
  rw [if_neg (show ¬ q + 4 + ((dSLE32 buf q).toNat + 1) ≤ e from by omega)]
  rfl

/-! ## The claims -/

/-- Reference buffer of the single-field round-trip example
(`writeDoc [([97], value.i32 5)]`). -/
def c1Buf : List Nat :=
  [12, 0, 0, 0, 16, 97, 0, 5, 0, 0, 0, 0] ++ List.replicate 116 0

/-- C1.  Round-trip: every field list with valid, pairwise-distinct names
that `writeDoc` accepts (each supported typed value appended through the
writer) is reproduced exactly by the reader: looking each field up by name
on the resulting `(buffer, length)` yields an element that carries the
original name and reproduces the original value, bit-exact for
double/int32/int64, byte-exact for string/binary, and recursively for
nested documents and arrays.  Pairwise-distinct names (part of
`validFields`) and the 31-bit length bound are amendments to the claim:
with a duplicated name the lookup returns the first match for both
fields. -/
theorem C1_round_trip (fs : List (List Nat × value)) (buf : List Nat)
    (len : Nat) (hv : validFields fs) (h : writeDoc fs = some (buf, len))
    (hbnd : len ≤ 2147483647) : docRepro buf len fs := by
  obtain ⟨hlen, hble, hcov⟩ := writeDoc_spec fs buf len hv h
  subst hlen
  exact serialized_docRepro fs buf hv hcov hble hbnd

theorem C1_round_trip_witness :
    writeDoc [([97], value.i32 5)] = some (c1Buf, 12) ∧
    docRepro c1Buf 12 [([97], value.i32 5)] := by
  refine ⟨by decide,
    C1_round_trip [([97], value.i32 5)] c1Buf 12 ?_ (by decide) (by decide)⟩
  simp only [validFields, validValue, validName]
  exact ⟨⟨by decide, by decide⟩, ⟨by decide, by decide⟩, by simp, trivial⟩

/-- Buffer produced by writing two fields that share the name `"a"`. -/
def dupBuf : List Nat :=
  [19, 0, 0, 0, 16, 97, 0, 1, 0, 0, 0, 16, 97, 0, 2, 0, 0, 0, 0] ++
  List.replicate 109 0

/-- C1, counterexample to the claim as stated: the writer happily appends
two fields with the same name, but `find` returns the first element for
both lookups, so the second field's value is not reproduced. -/
theorem C1_counterexample :
    writeDoc [([97], value.i32 1), ([97], value.i32 2)] = some (dupBuf, 19) ∧
    ¬ docRepro dupBuf 19 [([97], value.i32 1), ([97], value.i32 2)] := by
  refine ⟨by decide, fun h => ?_⟩
  simp only [docRepro, valueRepro] at h
  have h2 := h.2.1.2.2
  have h1 : (find true dupBuf 19 [97]).get_int32 dupBuf = some 1 := by decide
  rw [h1] at h2
  exact absurd h2 (by decide)

/-- C2.  Malformed-input safety: construction of an iterator reads only
indices below the supplied length; the end position an iterator starts
with never exceeds the supplied length, and one advance reads only indices
below that end position (hence below the length) and either keeps the end
position or clears it; and every listed malformation drives the iterator
into the failed state: a missing total-length field, a length prefix
claiming more bytes than supplied, walking to or past the end without a
terminator, an element name with no NUL byte before the end, and a
string, document/array, or binary length field pointing past the end. -/
theorem C2_malformed_safety (buf : List Nat) (length : Nat) :
    (∀ j ∈ (iterInit true buf length).2, j < length) ∧
    (∀ e, (iterInit true buf length).1.end_position = some e → e ≤ length) ∧
    (∀ it e, it.end_position = some e → e ≤ length →
      (∀ j ∈ (stepR buf it).2, j < length) ∧
      ((step buf it).end_position = some e ∨
        (step buf it).end_position = none)) ∧
    (length < 4 → (iterInit true buf length).1.fail = true) ∧
    (4 ≤ length → 4 ≤ dSLE32 buf 0 → (dSLE32 buf 0).toNat > length →
      (iterInit true buf length).1.fail = true) ∧
    (∀ it e nn, it.end_position = some e → it.next_position = some nn →
      nn ≥ e → (step buf it).fail = true) ∧
    (∀ it e nn, it.end_position = some e → it.next_position = some nn →
      nn < e → readB buf nn ≠ 0 → (scanName buf e (nn + 1)).1 = none →
      (step buf it).fail = true) ∧
    (∀ it e nn q rd, it.end_position = some e → it.next_position = some nn →
      nn < e → readB buf nn = 2 → scanName buf e (nn + 1) = (some q, rd) →
      q + 4 ≤ e → dSLE32 buf q ≥ 1 →
      q + 4 + (dSLE32 buf q).toNat > e → (step buf it).fail = true) ∧
    (∀ it e nn q rd, it.end_position = some e → it.next_position = some nn →
      nn < e → (readB buf nn = 3 ∨ readB buf nn = 4) →
      scanName buf e (nn + 1) = (some q, rd) →
      q + 4 ≤ e → dSLE32 buf q ≥ 5 →
      q + 4 + ((dSLE32 buf q).toNat - 4) > e → (step buf it).fail = true) ∧
    (∀ it e nn q rd, it.end_position = some e → it.next_position = some nn →
      nn < e → readB buf nn = 5 → scanName buf e (nn + 1) = (some q, rd) →
      q + 4 ≤ e → dSLE32 buf q ≥ 0 →
      q + 4 + ((dSLE32 buf q).toNat + 1) > e →
      (step buf it).fail = true) := by
  refine ⟨fun j hj => iterInit_reads true buf length j hj,
    fun e he => iterInit_end_le true buf length e he,
    fun it e he hle => ?_,
    fun h => iterInit_fail_short buf length h,
    fun h4 hge hov => iterInit_fail_total buf length (by omega) (by omega) hov,
    fun it e nn he hn hge => step_fail_past_end buf it e nn he hn hge,
    fun it e nn he hn hlt ht hs =>
      step_fail_no_nul buf it e nn he hn hlt ht hs,
    fun it e nn q rd he hn hlt ht hs h4 hp hov =>
      step_fail_strlen buf it e nn q rd he hn hlt ht hs h4 hp hov,
    fun it e nn q rd he hn hlt ht hs h4 hp hov =>
      step_fail_doclen buf it e nn q rd he hn hlt ht hs h4 hp hov,
    fun it e nn q rd he hn hlt ht hs h4 hp hov =>
      step_fail_binlen buf it e nn q rd he hn hlt ht hs h4 hp hov⟩
  obtain ⟨hrd, hend⟩ := stepR_step_props buf it e he
  exact ⟨fun j hj => lt_of_lt_of_le (hrd j hj) hle, hend⟩

/-- C3.  Amended length-field invariant: after every successful
`add_element` the header rewrite targets the *innermost* writer, not the
root.  The innermost writer's total-length field holds exactly the byte
count from that field through the innermost document's terminator
inclusive, the terminator byte is in place at the new offset, and for a
root writer (no open subdocument) that innermost field *is* the root
document's total-length field at offset 0 — but while a subdocument is
open, the root's field is left stale (see the counterexample). -/
theorem C3_header_after_append (c : chain) (n : List Nat) (tag space : Nat)
    (ok : Bool) (c1 : chain) (dest : Nat) (hwf : chainWF c)
    (h : c.add_element n tag space ok = some (c1, dest)) :
    covers c1.root.buffer c1.headerOffset
      (le32 (c1.curOffset + 1 - c1.headerOffset)) ∧
    dLE32 c1.root.buffer c1.headerOffset
      = (c1.curOffset + 1 - c1.headerOffset) % 4294967296 ∧
    readB c1.root.buffer c1.curOffset = 0 ∧
    (c.subs = [] → c1.headerOffset = 0) := by
  obtain ⟨hdest, hsubs, hroff, hlock, hmall, hlenm, hcur, hhdr, hwf1, hlow,
    hmid, hcontent, hterm, hunlocked, hne⟩ :=
    add_element_spec c n tag space ok c1 dest hwf h
  refine ⟨hwf1.hdrBytes, dLE32_of_covers _ _ _ hwf1.hdrBytes, hterm, ?_⟩
  intro hnil
  rw [hhdr, headerOffset_eq_nil c hnil]

/-- The chain after one `add_int32`-shaped append on a fresh dynamic
writer, used to instantiate the amended C3 statement. -/
def c3Chain : chain :=
  ((writerInit.add_element [97] 16 4 true).getD (writerInit, 0)).1

theorem C3_header_after_append_witness :
    covers c3Chain.root.buffer c3Chain.headerOffset
      (le32 (c3Chain.curOffset + 1 - c3Chain.headerOffset)) ∧
    dLE32 c3Chain.root.buffer c3Chain.headerOffset
      = (c3Chain.curOffset + 1 - c3Chain.headerOffset) % 4294967296 ∧
    readB c3Chain.root.buffer c3Chain.curOffset = 0 ∧
    (writerInit.subs = [] → c3Chain.headerOffset = 0) :=
  C3_header_after_append writerInit [97] 16 4 true c3Chain
    ((writerInit.add_element [97] 16 4 true).getD (writerInit, 0)).2
    writerInit_wf (by decide)

/-- C3, counterexample to the claim as stated: open a subdocument on a
25-byte fixed writer (root total-length field becomes 13) and then append
a boolean inside it.  The append succeeds and rewrites only the
subdocument's length field at offset 7 (to 9); the root's field at offset
0 still reads 13 even though the write offset has advanced to 15 and byte
12 — the terminator position the root field points past — now holds the
boolean's name byte 98. -/
theorem C3_counterexample :
    (((writerFixed (List.replicate 25 0)).add_subdocument [97] 3 true).bind
      (fun c1 => c1.add_boolean [98] true true)).map
        (fun c2 => (dLE32 c2.root.buffer 0, dLE32 c2.root.buffer 7,
          c2.curOffset, readB c2.root.buffer 12)) =
      some (13, 9, 15, 98) := by decide

/-- C4.  Closing a subdocument writer: a child destroyed while still
locked (it has an open grandchild) changes nothing; a child destroyed
while unlocked pops exactly one nesting level, unlocks its immediate
parent, and rewrites exactly the immediate parent's total-length field
(4 bytes at the parent's own header offset `H`) to span from that field
through the child's final offset plus the terminator inclusive
(`s.offset + 2 - H` bytes, terminator written at `s.offset + 1`); every
other byte of the buffer is untouched, so with several nesting levels each
close patches exactly one ancestor level and the patches propagate one
level per close. -/
theorem C4_subdocument_close (r : rootw) (s : subw) (rest : List subw)
    (H : Nat) (hH : H = (⟨r, rest⟩ : chain).headerOffset) :
    (s.locked = true → chain.dtorInner ⟨r, s :: rest⟩ = ⟨r, s :: rest⟩) ∧
    (s.locked = false →
      (chain.dtorInner ⟨r, s :: rest⟩).root.buffer =
        store (store r.buffer H (le32 (s.offset + 2 - H))) (s.offset + 1)
          [0] ∧
      (chain.dtorInner ⟨r, s :: rest⟩).curLocked = false ∧
      (chain.dtorInner ⟨r, s :: rest⟩).subs.length = rest.length ∧
      (chain.dtorInner ⟨r, s :: rest⟩).curOffset = s.offset + 1 ∧
      (∀ j, (j < H ∨ H + 4 ≤ j) → j ≠ s.offset + 1 →
        readB (chain.dtorInner ⟨r, s :: rest⟩).root.buffer j
          = readB r.buffer j)) := by
  constructor
  · intro hl
    simp [chain.dtorInner, hl]
  · intro hl
    cases rest with
    | nil =>
      rw [dtorInner_sub_nil r s hl]
      have hH0 : H = 0 := by rw [hH]; rfl
      subst hH0
      refine ⟨?_, rfl, rfl, update_offset_curOffset _ _, ?_⟩
      · rw [update_offset_buffer,
          headerOffset_eq_nil (⟨{ r with locked := false }, []⟩ : chain) rfl]
      · intro j hj hjne
        rw [update_offset_buffer,
          headerOffset_eq_nil (⟨{ r with locked := false }, []⟩ : chain) rfl]
        have hout : j < s.offset + 1 ∨ s.offset + 1 + ([0] : List Nat).length ≤ j := by
          simp only [List.length_cons, List.length_nil]
          omega
        rw [readB_store_out _ _ _ _ hout]
        rw [readB_store_out _ _ _ _ (by rw [le32_length]; omega)]
    | cons p t =>
      rw [dtorInner_sub_cons r s p t hl]
      have hHp : (⟨r, { p with locked := false } :: t⟩ : chain).headerOffset
          = H := by
        rw [hH]
        cases t <;> rfl
      refine ⟨?_, rfl, rfl, update_offset_curOffset _ _, ?_⟩
      · rw [update_offset_buffer, hHp]
      · intro j hj hjne
        rw [update_offset_buffer, hHp]
        have hout : j < s.offset + 1 ∨ s.offset + 1 + ([0] : List Nat).length ≤ j := by
          simp only [List.length_cons, List.length_nil]
          omega
        rw [readB_store_out _ _ _ _ hout]
        rw [readB_store_out _ _ _ _ (by rw [le32_length]; omega)]

/-- The chain with one open subdocument built on a 25-byte fixed buffer,
used to instantiate C4 and C9. -/
def c4Chain : chain :=
  ((writerFixed (List.replicate 25 0)).add_subdocument [97] 3
    true).getD (writerFixed [])

theorem C4_subdocument_close_witness :
    (false = true →
      chain.dtorInner ⟨c4Chain.root, [⟨11, false⟩]⟩ =
        ⟨c4Chain.root, [⟨11, false⟩]⟩) ∧
    (false = false →
      (chain.dtorInner ⟨c4Chain.root, [⟨11, false⟩]⟩).root.buffer =
        store (store c4Chain.root.buffer 0 (le32 (11 + 2 - 0))) (11 + 1)
          [0] ∧
      (chain.dtorInner ⟨c4Chain.root, [⟨11, false⟩]⟩).curLocked = false ∧
      (chain.dtorInner ⟨c4Chain.root, [⟨11, false⟩]⟩).subs.length =
        ([] : List subw).length ∧
      (chain.dtorInner ⟨c4Chain.root, [⟨11, false⟩]⟩).curOffset = 11 + 1 ∧
      (∀ j, (j < 0 ∨ 0 + 4 ≤ j) → j ≠ 11 + 1 →
        readB (chain.dtorInner
            ⟨c4Chain.root, [⟨11, false⟩]⟩).root.buffer j
          = readB c4Chain.root.buffer j)) :=
  C4_subdocument_close c4Chain.root ⟨11, false⟩ [] 0 (by decide)

/-- An append whose required bytes exceed the capacity of a writer that
cannot grow (fixed buffer, or dynamic with failed reallocation) fails. -/
theorem add_element_nogrow (c : chain) (n : List Nat) (tag space : Nat)
    (ok : Bool)
    (hcap : c.root.length < c.curOffset + 1 + (n.length + 1) + space + 1 +
      c.subs.length)
    (hfail : c.root.malloc = false ∨ ok = false) :
    c.add_element n tag space ok = none := by
  rw [chain.add_element]
  by_cases hl : c.curLocked
  · rw [if_pos hl]
  · rw [if_neg hl]
    by_cases hn : n.length + 1 ≤ 1
    · rw [if_pos hn]
    · rw [if_neg hn]
      have hgrow : c.growTo
          (c.curOffset + 1 + (n.length + 1) + space + 1 + c.subs.length)
          ok = none := by
        rw [chain.growTo, if_pos hcap]
        rcases hfail with hm | hok
        · rw [hm]
          rfl
        · subst hok
          by_cases hm : c.root.malloc
          · rw [hm]
            rfl
          · simp only [Bool.not_eq_true] at hm
            rw [hm]
            rfl
      dsimp only []
      rw [hgrow]

/-- C5.  Failure conditions of an append: `add_element` (the common path
of every `add_` function) returns `none` — leaving the chain it was given
untouched, as it is a pure function — whenever the innermost writer is
locked, whenever the name is empty, and whenever the required bytes
(current offset + tag + name with NUL + payload space + terminator + one
reserved byte per ancestor) exceed the capacity while the writer cannot
grow (fixed buffer, or dynamic with a failed reallocation).  Moreover,
after a successful `add_subdocument` the writer one level up is locked, so
appending a second child there fails. -/
theorem C5_add_failures (c : chain) (n : List Nat) (tag space : Nat)
    (ok : Bool) (hwf : chainWF c) :
    (c.curLocked = true → c.add_element n tag space ok = none) ∧
    (c.add_element [] tag space ok = none) ∧
    (c.root.length < c.curOffset + 1 + (n.length + 1) + space + 1 +
        c.subs.length →
      (c.root.malloc = false ∨ ok = false) →
      c.add_element n tag space ok = none) ∧
    (∀ c3 m tg ok2, c.add_subdocument m tg ok = some c3 →
      (⟨c3.root, c3.subs.drop 1⟩ : chain).add_element n tag space ok2 =
        none) := by
  refine ⟨?_, ?_, ?_, ?_⟩
  · intro hl
    rw [chain.add_element, if_pos hl]
  · rw [chain.add_element]
    by_cases hl : c.curLocked
    · rw [if_pos hl]
    · rw [if_neg hl]
      rw [if_pos (show ([] : List Nat).length + 1 ≤ 1 from by decide)]
  · intro hcap hfail
    exact add_element_nogrow c n tag space ok hcap hfail
  · intro c3 m tg ok2 hsub
    obtain ⟨dest, hdeq, hwf3, hcur3, hhdr3, hsubs3, hroff3, hrlock3, hmal3,
      hlen3, hblen3, hcap3, hlow3, hmid3, hcov3, hunl3, hne3⟩ :=
      add_subdocument_spec c c3 m tg ok hwf hsub
    have hlk : (⟨c3.root, c3.subs.drop 1⟩ : chain).curLocked = true := by
      rw [hsubs3]
      simp only [List.drop_succ_cons, List.drop_zero]
      cases hcs : c.subs with
      | nil =>
        have hcsub : ((c.setCurOffset (dest + 5)).lockCur).subs = [] := by
          rw [lockCur_subs, setCurOffset_subs_nil c _ hcs]
        rw [hcsub]
        show c3.root.locked = true
        rw [hrlock3, lockCur_rootLocked, setCurOffset_isEmpty, hcs]
        rfl
      | cons s2 t2 =>
        have hcsub : ((c.setCurOffset (dest + 5)).lockCur).subs =
            { { s2 with offset := dest + 5 } with locked := true } :: t2 := by
          rw [lockCur_subs, setCurOffset_subs_cons c s2 t2 _ hcs]
        rw [hcsub]
        rfl
    rw [chain.add_element, if_pos hlk]

theorem C5_add_failures_witness :
    (writerInit.curLocked = true →
      writerInit.add_element [97] 16 4 true = none) ∧
    (writerInit.add_element [] 16 4 true = none) ∧
    (writerInit.root.length < writerInit.curOffset + 1 +
        (([97] : List Nat).length + 1) + 4 + 1 +
        writerInit.subs.length →
      (writerInit.root.malloc = false ∨ true = false) →
      writerInit.add_element [97] 16 4 true = none) ∧
    (∀ c3 m tg ok2, writerInit.add_subdocument m tg true = some c3 →
      (⟨c3.root, c3.subs.drop 1⟩ : chain).add_element [97] 16 4 ok2 =
        none) :=
  C5_add_failures writerInit [97] 16 4 true writerInit_wf

/-- C6.  Amended iterator construction: when the buffer is present, the
supplied length is at least 4, and the declared total length `total`
satisfies `4 ≤ total ≤ length`, the constructed iterator is exactly one
advance from the state whose end-of-document position is index `total`
and whose cursor sits at index 4 (the first element) — so the end
position is `buffer + total_length`, which is one byte *past* the
document's terminating zero byte (the terminator of a well-formed
document sits at `total - 1`), not the terminator's own position as the
claim states. -/
theorem C6_iterator_init (buf : List Nat) (length total : Nat)
    (htot : dSLE32 buf 0 = (total : Int)) (h4 : 4 ≤ length)
    (ht4 : 4 ≤ total) (htl : total ≤ length) :
    (iterInit true buf length).1 =
      step buf ⟨⟨none, none⟩, some 4, some total⟩ := by
  simp only [iterInit]
  rw [if_neg (show ¬ (!true) = true from by decide)]
  rw [if_neg (show ¬ length < 4 from by omega)]
  rw [htot]
  rw [if_neg (show ¬ ((total : Nat) : Int) < 4 from by omega)]
  rw [Int.toNat_natCast]
  rw [if_neg (show ¬ total > length from by omega)]
  rfl

theorem C6_iterator_init_witness :
    (iterInit true [5, 0, 0, 0, 0] 5).1 =
      step [5, 0, 0, 0, 0] ⟨⟨none, none⟩, some 4, some 5⟩ :=
  C6_iterator_init [5, 0, 0, 0, 0] 5 5 (by decide) (by decide) (by decide)
    (by decide)

/-- C6, counterexample to the claim as stated: in the 9-byte buffer below
the document declares total length 8 and its terminating zero byte sits at
index 7; the constructed iterator (which parses the single `null`-typed
element successfully, so it is not failed) carries end position 8, one
past the terminator — index 8 holds the byte 255, not the terminator. -/
theorem C6_counterexample :
    (iterInit true [8, 0, 0, 0, 10, 97, 0, 0, 255] 9).1.end_position =
      some 8 ∧
    readB [8, 0, 0, 0, 10, 97, 0, 0, 255] 8 = 255 ∧
    readB [8, 0, 0, 0, 10, 97, 0, 0, 255] 7 = 0 ∧
    (iterInit true [8, 0, 0, 0, 10, 97, 0, 0, 255] 9).1.fail = false := by
  decide

/-- C7.  Dynamic growth: when the needed bytes exceed the capacity of a
dynamically-allocated writer and reallocation succeeds, the buffer grows
to the capacity obtained by repeatedly doubling the current capacity until
it reaches the requirement (so the new capacity is `old * 2 ^ k` with the
previous doubling still short of the requirement), all previously written
bytes are preserved, and the offsets and open-subdocument chain are
unchanged; when the writer cannot grow (fixed buffer or failed
reallocation) `growTo` fails, and an `add_element` whose required bytes —
current offset + tag + name with NUL + payload space + terminator + one
reserved byte per ancestor level — exceed the capacity then returns
failure without side effects. -/
theorem C7_growth (c : chain) (required : Nat) (ok : Bool)
    (hb : c.root.buffer.length = c.root.length)
    (hc1 : 1 ≤ c.root.length) :
    (c.root.length < required → c.root.malloc = true → ok = true →
      ∃ cg, c.growTo required ok = some cg ∧
        (∃ k, 1 ≤ k ∧ cg.root.length = c.root.length * 2 ^ k ∧
          c.root.length * 2 ^ (k - 1) < required) ∧
        required ≤ cg.root.length ∧
        cg.root.buffer.length = cg.root.length ∧
        cg.subs = c.subs ∧ cg.root.offset = c.root.offset ∧
        (∀ j, j < c.root.buffer.length →
          readB cg.root.buffer j = readB c.root.buffer j)) ∧
    (c.root.length < required → (c.root.malloc = false ∨ ok = false) →
      c.growTo required ok = none) ∧
    (∀ n tag space, c.root.length <
        c.curOffset + 1 + (n.length + 1) + space + 1 + c.subs.length →
      (c.root.malloc = false ∨ ok = false) →
      c.add_element n tag space ok = none) := by
  refine ⟨?_, ?_, fun n tag space hcap hfail =>
    add_element_nogrow c n tag space ok hcap hfail⟩
  · intro hlt hm hoktrue
    subst hoktrue
    have hsome : c.growTo required true = some
        ⟨{ c.root with
            buffer := c.root.buffer ++ List.replicate
              (growLength c.root.length required - c.root.buffer.length) 0,
            length := growLength c.root.length required }, c.subs⟩ := by
      rw [chain.growTo, if_pos hlt, hm]
      rfl
    obtain ⟨k, hk1, hkeq, hklt⟩ := growLoop_shape required c.root.length
      required hc1 hlt
    have hge := growLength_ge c.root.length required hc1
    refine ⟨_, hsome, ⟨k, hk1, hkeq, hklt⟩, hge, ?_, rfl, rfl, ?_⟩
    · simp only [List.length_append, List.length_replicate]
      omega
    · intro j hj
      exact readB_append_left _ _ j hj
  · intro hlt hfail
    rw [chain.growTo, if_pos hlt]
    rcases hfail with hm | hok
    · rw [hm]
      rfl
    · subst hok
      by_cases hm : c.root.malloc
      · rw [hm]
        rfl
      · simp only [Bool.not_eq_true] at hm
        rw [hm]
        rfl

set_option maxRecDepth 8000 in
theorem C7_growth_witness :
    (writerInit.root.length < 200 → writerInit.root.malloc = true →
      true = true →
      ∃ cg, writerInit.growTo 200 true = some cg ∧
        (∃ k, 1 ≤ k ∧ cg.root.length = writerInit.root.length * 2 ^ k ∧
          writerInit.root.length * 2 ^ (k - 1) < 200) ∧
        200 ≤ cg.root.length ∧
        cg.root.buffer.length = cg.root.length ∧
        cg.subs = writerInit.subs ∧
        cg.root.offset = writerInit.root.offset ∧
        (∀ j, j < writerInit.root.buffer.length →
          readB cg.root.buffer j = readB writerInit.root.buffer j)) ∧
    (writerInit.root.length < 200 →
      (writerInit.root.malloc = false ∨ true = false) →
      writerInit.growTo 200 true = none) ∧
    (∀ n tag space, writerInit.root.length <
        writerInit.curOffset + 1 + (n.length + 1) + space + 1 +
          writerInit.subs.length →
      (writerInit.root.malloc = false ∨ true = false) →
      writerInit.add_element n tag space true = none) :=
  C7_growth writerInit 200 true (by decide) (by decide)

/-- C8.  Truthiness: for any element, `truthy` follows the documented
table exactly — a double element is falsy iff its 8 payload bytes encode
zero or NaN; a string element is falsy iff its encoded length field is at
most 1; a boolean element's truthiness is its stored value; int32/int64
elements are falsy iff zero; document, array, and binary elements are
always truthy; undefined, null, and every unrecognized type tag are
falsy; and `falsy` is the exact negation of `truthy`. -/
theorem C8_truthiness (el : element) (buf : List Nat) :
    (∀ b, el.get_double buf = some b →
      (el.truthy buf = false ↔ (f64isZero b = true ∨ f64isNaN b = true))) ∧
    (∀ pr, el.get_string_l buf = some pr →
      (el.truthy buf = false ↔ dSLE32 buf el.dataIdx ≤ 1)) ∧
    (∀ b, el.get_boolean buf = some b → el.truthy buf = b) ∧
    (∀ v, el.get_int32 buf = some v → (el.truthy buf = false ↔ v = 0)) ∧
    (∀ v, el.get_int64 buf = some v → (el.truthy buf = false ↔ v = 0)) ∧
    (el.type buf = 3 → el.truthy buf = true) ∧
    (el.type buf = 4 → el.truthy buf = true) ∧
    (el.type buf = 5 → el.truthy buf = true) ∧
    (el.type buf = 6 → el.truthy buf = false) ∧
    (el.type buf = 10 → el.truthy buf = false) ∧
    (el.type buf ≠ 1 → el.type buf ≠ 2 → el.type buf ≠ 3 →
      el.type buf ≠ 4 → el.type buf ≠ 5 → el.type buf ≠ 8 →
      el.type buf ≠ 16 → el.type buf ≠ 18 → el.truthy buf = false) ∧
    el.falsy buf = (!el.truthy buf) := by
  refine ⟨?_, ?_, ?_, ?_, ?_, ?_, ?_, ?_, ?_, ?_, ?_, rfl⟩
  · intro b hb
    rw [element.get_double] at hb
    by_cases ht : el.type buf = 1
    · rw [if_pos ht] at hb
      simp only [Option.some.injEq] at hb
      subst hb
      have htr : el.truthy buf =
          (!f64isNaN ((buf.drop el.dataIdx).take 8) &&
            !f64isZero ((buf.drop el.dataIdx).take 8)) := by
        simp only [element.truthy]
        rw [ht]
      rw [htr]
      cases hna : f64isNaN ((buf.drop el.dataIdx).take 8) <;>
        cases hz : f64isZero ((buf.drop el.dataIdx).take 8) <;>
          simp [hna, hz]
    · rw [if_neg ht] at hb
      exact absurd hb (by simp)
  · intro pr hb
    rw [element.get_string_l] at hb
    by_cases ht : el.type buf = 2
    · have htr : el.truthy buf = decide (dSLE32 buf el.dataIdx > 1) := by
        simp only [element.truthy]
        rw [ht]
      rw [htr]
      simp only [decide_eq_false_iff_not, gt_iff_lt, not_lt]
    · rw [if_neg ht] at hb
      exact absurd hb (by simp)
  · intro b hb
    rw [element.get_boolean] at hb
    by_cases ht : el.type buf = 8
    · rw [if_pos ht] at hb
      simp only [Option.some.injEq] at hb
      subst hb
      have htr : el.truthy buf = decide (readB buf el.dataIdx ≠ 0) := by
        simp only [element.truthy]
        rw [ht]
      exact htr
    · rw [if_neg ht] at hb
      exact absurd hb (by simp)
  · intro v hb
    rw [element.get_int32] at hb
    by_cases ht : el.type buf = 16
    · rw [if_pos ht] at hb
      simp only [Option.some.injEq] at hb
      subst hb
      have htr : el.truthy buf = decide (dSLE32 buf el.dataIdx ≠ 0) := by
        simp only [element.truthy]
        rw [ht]
      rw [htr]
      simp only [decide_eq_false_iff_not, ne_eq, not_not]
    · rw [if_neg ht] at hb
      exact absurd hb (by simp)
  · intro v hb
    rw [element.get_int64] at hb
    by_cases ht : el.type buf = 18
    · rw [if_pos ht] at hb
      simp only [Option.some.injEq] at hb
      subst hb
      have htr : el.truthy buf = decide (dSLE64 buf el.dataIdx ≠ 0) := by
        simp only [element.truthy]
        rw [ht]
      rw [htr]
      simp only [decide_eq_false_iff_not, ne_eq, not_not]
    · rw [if_neg ht] at hb
      exact absurd hb (by simp)
  · intro ht
    simp only [element.truthy]
    rw [ht]
  · intro ht
    simp only [element.truthy]
    rw [ht]
  · intro ht
    simp only [element.truthy]
    rw [ht]
  · intro ht
    simp only [element.truthy]
    rw [ht]
  · intro ht
    simp only [element.truthy]
    rw [ht]
  · intro h1 h2 h3 h4 h5 h8 h16 h18
    simp only [element.truthy]

/-- Well-formedness of the 13-byte fixed writer. -/
theorem writerFixed13_wf : chainWF (writerFixed (List.replicate 13 0)) := by
  refine ⟨by decide, by decide, by decide, ?_, by decide⟩
  simp only [covers]
  decide

/-- C9.  Amended subdocument handle: the child writer returned by a
successful no-value `add_subdocument` is chained onto the current writer
(one more level of `subs`, so the parent is reachable through the shared
root), and its recorded byte offset is `dest + 4` — the position of the
nested document's placeholder *terminator*, four bytes past the offset
`dest` at which the nested total-length field begins (the child's header
offset, recovered from the parent's offset as `headerOffset`, is `dest`
itself).  The claim's assertion that the child records the length field's
own start offset is refuted by the counterexample. -/
theorem C9_subdocument_offset (c c3 : chain) (n : List Nat) (tg : Nat)
    (ok : Bool) (hwf : chainWF c) (h : c.add_subdocument n tg ok = some c3) :
    ∃ dest, dest = c.curOffset + 2 + n.length ∧
      c3.headerOffset = dest ∧
      c3.subs.head? = some ⟨dest + 4, false⟩ ∧
      c3.subs.length = c.subs.length + 1 ∧
      c3.curOffset = dest + 4 := by
  obtain ⟨dest, hdeq, hwf3, hcur3, hhdr3, hsubs3, hroff3, hrlock3, hmal3,
    hlen3, hblen3, hcap3, hlow3, hmid3, hcov3, hunl3, hne3⟩ :=
    add_subdocument_spec c c3 n tg ok hwf h
  refine ⟨dest, hdeq, hhdr3, ?_, ?_, hcur3⟩
  · rw [hsubs3]
    rfl
  · rw [hsubs3]
    simp only [List.length_cons, lockCur_subsLength, setCurOffset_subsLength]

/-- The chain with one open subdocument built on a 13-byte fixed buffer,
instantiating C9. -/
def c9Chain : chain :=
  ((writerFixed (List.replicate 13 0)).add_subdocument [97] 3
    true).getD (writerFixed [])

theorem C9_subdocument_offset_witness :
    ∃ dest, dest = (writerFixed (List.replicate 13 0)).curOffset + 2 +
        ([97] : List Nat).length ∧
      c9Chain.headerOffset = dest ∧
      c9Chain.subs.head? = some ⟨dest + 4, false⟩ ∧
      c9Chain.subs.length =
        (writerFixed (List.replicate 13 0)).subs.length + 1 ∧
      c9Chain.curOffset = dest + 4 :=
  C9_subdocument_offset (writerFixed (List.replicate 13 0)) c9Chain [97] 3
    true writerFixed13_wf (by decide)

/-- C9, counterexample to the claim as stated: on a 13-byte fixed writer,
`add_subdocument "a"` places the nested total-length field at offset 7,
but the child writer records offset 11 = 7 + 4, the placeholder
terminator's position, not the length field's start. -/
theorem C9_counterexample :
    ((writerFixed (List.replicate 13 0)).add_subdocument [97] 3 true).map
        (fun c3 => (c3.subs.head?.map subw.offset, c3.headerOffset)) =
      some (some 11, 7) := by decide

/-- C10.  Invalid elements: an element whose data pointer is null — as
`find` returns for an absent name (the search loop yields the null
element when the iterator is ended, failed, or the fuel runs out) — has
type tag 0, every `get_` accessor returns `none` (the C++ versions return
false and leave their outputs untouched), every `as_` accessor returns
its supplied default, and it is falsy; none of this reads through the
null data or name pointers (the accessors only test `data.isSome`). -/
theorem C10_invalid_element (buf : List Nat) (el : element)
    (hd : el.data = none) :
    el.type buf = 0 ∧
    el.get_double buf = none ∧ el.get_string_p buf = none ∧
    el.get_string_l buf = none ∧ el.get_binary buf = none ∧
    el.get_binary_s buf = none ∧ el.get_boolean buf = none ∧
    el.get_int32 buf = none ∧ el.get_int64 buf = none ∧
    el.get_integer buf = none ∧ el.get_number buf = none ∧
    (∀ d, el.as_double buf d = d) ∧ (∀ d, el.as_string buf d = d) ∧
    (∀ d, el.as_boolean buf d = d) ∧ (∀ d, el.as_int32 buf d = d) ∧
    (∀ d, el.as_int64 buf d = d) ∧ (∀ d, el.as_integer buf d = d) ∧
    (∀ d, el.as_number buf d = d) ∧
    (∀ dflt tg, tg ≠ 0 → el.as_subdocument buf dflt tg = dflt) ∧
    el.truthy buf = false ∧ el.falsy buf = true ∧
    (∀ nm fuel it, it.end_position = none →
      findLoop buf nm fuel it = ⟨none, none⟩) ∧
    (∀ nm it, findLoop buf nm 0 it = ⟨none, none⟩) := by
  have ht : el.type buf = 0 := by
    simp [element.type, hd]
  refine ⟨ht, ?_, ?_, ?_, ?_, ?_, ?_, ?_, ?_, ?_, ?_,
    ?_, ?_, ?_, ?_, ?_, ?_, ?_, ?_, ?_, ?_, ?_, ?_⟩
  · simp [element.get_double, ht]
  · simp [element.get_string_p, ht]
  · simp [element.get_string_l, ht]
  · simp [element.get_binary, ht]
  · simp [element.get_binary_s, ht]
  · simp [element.get_boolean, ht]
  · simp [element.get_int32, ht]
  · simp [element.get_int64, ht]
  · simp [element.get_integer, ht]
  · simp [element.get_number, ht]
  · intro d
    simp [element.as_double, element.get_double, ht]
  · intro d
    simp [element.as_string, element.get_string_p, ht]
  · intro d
    simp [element.as_boolean, element.get_boolean, ht]
  · intro d
    simp [element.as_int32, element.get_int32, ht]
  · intro d
    simp [element.as_int64, element.get_int64, ht]
  · intro d
    simp [element.as_integer, element.get_integer, ht]
  · intro d
    simp [element.as_number, element.get_number, ht]
  · intro dflt tg htg
    rw [element.as_subdocument, if_pos]
    rw [ht]
    exact fun he => htg he.symm
  · simp only [element.truthy]
    rw [ht]
  · simp only [element.falsy, element.truthy]
    rw [ht]
    rfl
  · intro nm fuel it hend
    cases fuel with
    | zero => rw [findLoop]
    | succ f =>
      rw [findLoop, hend]
  · intro nm it
    rw [findLoop]

theorem C10_invalid_element_witness :
    (⟨none, none⟩ : element).type [5, 0, 0, 0, 0] = 0 ∧
    (⟨none, none⟩ : element).get_double [5, 0, 0, 0, 0] = none ∧
    (⟨none, none⟩ : element).get_string_p [5, 0, 0, 0, 0] = none ∧
    (⟨none, none⟩ : element).get_string_l [5, 0, 0, 0, 0] = none ∧
    (⟨none, none⟩ : element).get_binary [5, 0, 0, 0, 0] = none ∧
    (⟨none, none⟩ : element).get_binary_s [5, 0, 0, 0, 0] = none ∧
    (⟨none, none⟩ : element).get_boolean [5, 0, 0, 0, 0] = none ∧
    (⟨none, none⟩ : element).get_int32 [5, 0, 0, 0, 0] = none ∧
    (⟨none, none⟩ : element).get_int64 [5, 0, 0, 0, 0] = none ∧
    (⟨none, none⟩ : element).get_integer [5, 0, 0, 0, 0] = none ∧
    (⟨none, none⟩ : element).get_number [5, 0, 0, 0, 0] = none ∧
    (∀ d, (⟨none, none⟩ : element).as_double [5, 0, 0, 0, 0] d = d) ∧
    (∀ d, (⟨none, none⟩ : element).as_string [5, 0, 0, 0, 0] d = d) ∧
    (∀ d, (⟨none, none⟩ : element).as_boolean [5, 0, 0, 0, 0] d = d) ∧
    (∀ d, (⟨none, none⟩ : element).as_int32 [5, 0, 0, 0, 0] d = d) ∧
    (∀ d, (⟨none, none⟩ : element).as_int64 [5, 0, 0, 0, 0] d = d) ∧
    (∀ d, (⟨none, none⟩ : element).as_integer [5, 0, 0, 0, 0] d = d) ∧
    (∀ d, (⟨none, none⟩ : element).as_number [5, 0, 0, 0, 0] d = d) ∧
    (∀ dflt tg, tg ≠ 0 →
      (⟨none, none⟩ : element).as_subdocument [5, 0, 0, 0, 0] dflt tg =
        dflt) ∧
    (⟨none, none⟩ : element).truthy [5, 0, 0, 0, 0] = false ∧
    (⟨none, none⟩ : element).falsy [5, 0, 0, 0, 0] = true ∧
    (∀ nm fuel it, it.end_position = none →
      findLoop [5, 0, 0, 0, 0] nm fuel it = ⟨none, none⟩) ∧
    (∀ nm it, findLoop [5, 0, 0, 0, 0] nm 0 it = ⟨none, none⟩) :=
  C10_invalid_element [5, 0, 0, 0, 0] ⟨none, none⟩ rfl

end bson
